import Mathlib

/-!
Shallow embedding of the tiny-secp256k1 sources (src/big_num.rs, src/naf.rs,
src/ec_point.rs, src/ecj_point.rs, src/ec_point_g.rs, src/lib.rs).

Machine integers are modelled as Nat (for u32/u64 word values, with explicit
mod 2^32 where the source truncates with an `as u32` cast) and as Int where the
source computes with i64 (the borrow propagation in subtraction).  u64
intermediates never overflow in the source (all accumulators stay below 2^64),
so plain Nat addition is a faithful model of them; this is noted at each loop.

A BigNum mirrors the Rust struct: a sign flag, a word count `len`, and a fixed
16-entry array of 32-bit words (little-endian).  The array is modelled as a
`List Nat` of length 16; entries at indices `≥ len` are dead storage exactly
as in the source (they may hold garbage left by earlier operations and are
never read by value-respecting code paths).

Rust while-loops with data-dependent trip counts are modelled by structural
recursion on an explicit iteration budget equal to the count the source loop
performs (for the `for` loops) or on a fuel argument that provably dominates
the number of iterations (for the `while` loops of get_naf, get_naf1 and
red_invm); the fuel versions return the current state when fuel runs out and
theorems establish that the chosen fuel suffices.
-/

namespace TinySecp

/-- 2^32, the word radix. -/
def W32 : Nat := 4294967296

/-- BigNum (src/big_num.rs): sign-magnitude, 16 little-endian 32-bit words. -/
structure BigNum where
  negative : Bool
  len : Nat
  words : List Nat
deriving DecidableEq, Repr

/-- Read word i (in-range reads only ever touch indices < 16). -/
def wget (b : BigNum) (i : Nat) : Nat := b.words.getD i 0

/-- Write word i. -/
def wset (b : BigNum) (i v : Nat) : BigNum := { b with words := b.words.set i v }

/-- Value of the first n words, little-endian base 2^32. -/
def wordsVal (w : List Nat) : Nat → Nat
  | 0 => 0
  | n+1 => wordsVal w n + w.getD n 0 * 2 ^ (32 * n)

/-- Magnitude of a BigNum: value of words[0..len]. -/
def magVal (b : BigNum) : Nat := wordsVal b.words b.len

/-- Signed value. -/
def sval (b : BigNum) : Int := if b.negative then -(magVal b : Int) else (magVal b : Int)

/-- Wellformedness: 16 stored words, each a u32, and 1 ≤ len ≤ 16. -/
def Wf (b : BigNum) : Prop :=
  b.words.length = 16 ∧ 1 ≤ b.len ∧ b.len ≤ 16 ∧ ∀ x ∈ b.words, x < W32

instance (b : BigNum) : Decidable (Wf b) := by unfold Wf; infer_instance

/-- Normalisation: words[len-1] ≠ 0 unless len = 1. -/
def Stripped (b : BigNum) : Prop := b.len = 1 ∨ wget b (b.len - 1) ≠ 0

instance (b : BigNum) : Decidable (Stripped b) := by unfold Stripped; infer_instance

/-- fn strip: drop zero top words while len > 1 (recursion on len). -/
def stripLoop (w : List Nat) : Nat → Nat
  | 0 => 0
  | 1 => 1
  | n+2 => if w.getD (n+1) 0 = 0 then stripLoop w (n+1) else n+2

def BigNum.strip (b : BigNum) : BigNum := { b with len := stripLoop b.words b.len }

/-- fn norm_sign: the source tests len == 0, which never holds (len ≥ 1),
so this is faithfully a dead conditional. -/
def BigNum.normSign (b : BigNum) : BigNum :=
  if b.len = 0 ∧ wget b 0 = 0 then { b with negative := false } else b

/-- impl Ord: magnitude comparison, len first then words from high to low.
The sign flag is ignored, exactly as in the source. -/
def cmpWordsFrom (a b : List Nat) : Nat → Ordering
  | 0 => Ordering.eq
  | i+1 =>
    let o := compare (a.getD i 0) (b.getD i 0)
    if o ≠ Ordering.eq then o else cmpWordsFrom a b i

def BigNum.cmp (a b : BigNum) : Ordering :=
  if a.len ≠ b.len then compare a.len b.len else cmpWordsFrom a.words b.words a.len

/-- impl PartialEq: sign flags equal and the live word slices equal. -/
def BigNum.beqBN (a b : BigNum) : Bool :=
  a.negative == b.negative && a.words.take a.len == b.words.take b.len

/-- impl PartialEq<u32>. -/
def BigNum.eqU32 (b : BigNum) (n : Nat) : Bool := b.len == 1 && wget b 0 == n

/-- impl PartialOrd<u32>. -/
def BigNum.cmpU32 (b : BigNum) (n : Nat) : Ordering :=
  if b.len > 1 then Ordering.gt else compare (wget b 0) n

/-- Zero out positions i..i+c-1 (the widening loop of add_assign). -/
def zeroRange (w : List Nat) : Nat → Nat → List Nat
  | _, 0 => w
  | i, c+1 => zeroRange (w.set i 0) (i+1) c

/-- First loop of add_assign: c iterations from index i, full word adds.
The u64 sum a+b+carry is < 2^64, so Nat models it faithfully. -/
def addWordsLoop (rw : List Nat) : Nat → List Nat → Nat → Nat → List Nat × Nat
  | 0, w, _, carry => (w, carry)
  | c+1, w, i, carry =>
    let word := w.getD i 0 + rw.getD i 0 + carry
    addWordsLoop rw c (w.set i (word % W32)) (i+1) (word / W32)

/-- Second loop of add_assign: propagate carry while nonzero, budget c,
returning the final index as well. -/
def addCarryLoop : Nat → List Nat → Nat → Nat → List Nat × Nat × Nat
  | 0, w, i, carry => (w, i, carry)
  | c+1, w, i, carry =>
    if carry = 0 then (w, i, carry)
    else
      let word := w.getD i 0 + carry
      addCarryLoop c (w.set i (word % W32)) (i+1) (word / W32)

/-- Same-sign branch of AddAssign<&BigNum> (magnitude addition). -/
def BigNum.addMag (a0 b : BigNum) : BigNum :=
  let a := if b.len > a0.len then
    { a0 with words := zeroRange a0.words a0.len (b.len - a0.len), len := b.len }
  else a0
  let r1 := addWordsLoop b.words b.len a.words 0 0
  let r2 := addCarryLoop (a.len - b.len) r1.1 b.len r1.2
  if r2.2.2 ≠ 0 then { a with words := r2.1.set a.len (r2.2.2 % W32), len := a.len + 1 }
  else { a with words := r2.1 }

/-- First loop of sub_assign: c iterations of i64 borrow subtraction.
carry = word >> 32 is an arithmetic shift on i64, i.e. floor division,
which for the positive divisor 2^32 is Int division with emod remainder. -/
def subWordsLoop (rw : List Nat) : Nat → List Nat → Nat → Int → List Nat × Int
  | 0, w, _, carry => (w, carry)
  | c+1, w, i, carry =>
    let word : Int := (w.getD i 0 : Int) - (rw.getD i 0 : Int) + carry
    subWordsLoop rw c (w.set i (word % (W32 : Int)).toNat) (i+1) (word / (W32 : Int))

/-- Second loop of sub_assign: propagate borrow while nonzero, budget c. -/
def subCarryLoop : Nat → List Nat → Nat → Int → List Nat × Nat × Int
  | 0, w, i, carry => (w, i, carry)
  | c+1, w, i, carry =>
    if carry = 0 then (w, i, carry)
    else
      let word : Int := (w.getD i 0 : Int) + carry
      subCarryLoop c (w.set i (word % (W32 : Int)).toNat) (i+1) (word / (W32 : Int))

/-- The word-loop tail of sub_assign (after the equality and swap branches):
borrow loops, length fixup, strip, norm_sign. -/
def BigNum.subCore (a b : BigNum) : BigNum :=
  let r1 := subWordsLoop b.words b.len a.words 0 0
  let r2 := subCarryLoop (a.len - b.len) r1.1 b.len r1.2
  let l := if r2.2.1 > a.len then r2.2.1 else a.len
  (BigNum.strip { a with words := r2.1, len := l }).normSign

/-- Same-sign branch of SubAssign<&BigNum>.  In the swap branch the source
copies rhs over self and re-enters sub_assign with the old self; that inner
call has equal signs, unequal operands, and a smaller rhs, so it lands in
the word-loop tail; we inline that here. -/
def BigNum.subSame (a b : BigNum) : BigNum :=
  if a.beqBN b then { a with len := 1, negative := false, words := a.words.set 0 0 }
  else if a.cmp b = Ordering.lt then
    { BigNum.subCore { b with negative := b.negative } a with negative := true }
  else BigNum.subCore a b

/-- impl AddAssign<&BigNum> (signed). -/
def BigNum.addBN (a b : BigNum) : BigNum :=
  if a.negative ≠ b.negative then
    if a.negative then
      let r := BigNum.subSame { a with negative := false } b
      BigNum.normSign { r with negative := !r.negative }
    else
      BigNum.normSign (BigNum.subSame a { b with negative := false })
  else BigNum.addMag a b

/-- impl SubAssign<&BigNum> (signed). -/
def BigNum.subBN (a b : BigNum) : BigNum :=
  if a.negative ≠ b.negative then
    if a.negative then
      let r := BigNum.addMag { a with negative := false } b
      BigNum.normSign { r with negative := true }
    else BigNum.normSign (BigNum.addMag a { b with negative := false })
  else BigNum.subSame a b

/-- impl AddAssign<u32>: note the loop acts on the magnitude only and stops
as soon as the carry dies. -/
def addU32Loop : Nat → List Nat → Nat → Nat → List Nat × Nat
  | 0, w, _, carry => (w, carry)
  | c+1, w, i, carry =>
    let s := carry + w.getD i 0
    let w2 := w.set i (s % W32)
    if s / W32 = 0 then (w2, 0) else addU32Loop c w2 (i+1) (s / W32)

def BigNum.addU32 (b : BigNum) (rhs : Nat) : BigNum :=
  let r := addU32Loop b.len b.words 0 rhs
  if r.2 = 0 then { b with words := r.1 }
  else { b with words := r.1.set b.len (r.2 % W32), len := b.len + 1 }

/-- impl MulAssign<u32> (sign preserved, magnitude scaled). -/
def mulU32Loop (rhs : Nat) : Nat → List Nat → Nat → Nat → List Nat × Nat
  | 0, w, _, carry => (w, carry)
  | c+1, w, i, carry =>
    let tmp := w.getD i 0 * rhs
    let s := carry + tmp % W32
    mulU32Loop rhs c (w.set i (s % W32)) (i+1) (s / W32 + tmp / W32)

def BigNum.mulU32 (b : BigNum) (rhs : Nat) : BigNum :=
  let r := mulU32Loop rhs b.len b.words 0 0
  if r.2 = 0 then { b with words := r.1 }
  else { b with words := r.1.set b.len (r.2 % W32), len := b.len + 1 }

/-- Inner j-loop of the generic convolution in MulAssign<&BigNum>. -/
def mulJLoop (aw bw : List Nat) (k : Nat) : Nat → Nat → Nat → Nat → Nat × Nat
  | 0, _, ncarry, rword => (ncarry, rword)
  | c+1, j, ncarry, rword =>
    let r := aw.getD (k - j) 0 * bw.getD j 0 + rword
    mulJLoop aw bw k c (j+1) (ncarry + r / W32) (r % W32)

/-- Outer k-loop of the generic convolution (k from 1). -/
def mulKLoop (aw bw : List Nat) (alen blen : Nat) : Nat → Nat → List Nat → Nat → List Nat × Nat
  | 0, _, rw, carry => (rw, carry)
  | c+1, k, rw, carry =>
    let jlow := if k > alen then k - alen + 1 else 0
    let jhigh := if blen > k then k + 1 else blen
    let r := mulJLoop aw bw k (jhigh - jlow) jlow (carry / W32) (carry % W32)
    mulKLoop aw bw alen blen c (k+1) (rw.set k r.2) r.1

/-- Generic path of MulAssign<&BigNum>: fresh non-negative result buffer,
schoolbook convolution, final carry word, strip.  The result sign is the
fresh buffer sign (false), exactly as in the source. -/
def BigNum.mulGeneral (a b : BigNum) : BigNum :=
  let rlen := a.len + b.len - 1
  let c0 := wget a 0 * wget b 0
  let rw0 := (List.replicate 16 0).set 0 (c0 % W32)
  let r := mulKLoop a.words b.words a.len b.len (rlen - 1) 1 rw0 (c0 / W32)
  let res : BigNum :=
    if r.2 ≠ 0 then { negative := false, len := rlen + 1, words := r.1.set rlen (r.2 % W32) }
    else { negative := false, len := rlen, words := r.1 }
  BigNum.strip res

/-- One column of mul8x8: sums of 16-bit half products al*bl, al*bh+ah*bl,
ah*bh over all i+j = k (the source writes the sum unrolled; addition order
is immaterial).  All three accumulators stay far below 2^64. -/
def mul8ColLoop (aw bw : List Nat) (k : Nat) : Nat → Nat → Nat × Nat × Nat → Nat × Nat × Nat
  | 0, _, acc => acc
  | c+1, j, acc =>
    let ai := aw.getD (k - j) 0
    let bj := bw.getD j 0
    mul8ColLoop aw bw k c (j+1)
      (acc.1 + ai % 65536 * (bj % 65536),
       acc.2.1 + ai % 65536 * (bj / 65536) + ai / 65536 * (bj % 65536),
       acc.2.2 + ai / 65536 * (bj / 65536))

/-- Column recurrence of mul8x8: word = c + lo + ((mid & 0xffff) << 16),
next c = hi + (mid >> 16) + (word >> 32), words[k] = word as u32. -/
def mul8x8Loop (aw bw : List Nat) : Nat → Nat → List Nat → Nat → List Nat × Nat
  | 0, _, w, c => (w, c)
  | n+1, k, w, c =>
    let jlow := k - 7
    let jhigh := min k 7
    let col := mul8ColLoop aw bw k (jhigh + 1 - jlow) jlow (0, 0, 0)
    let word := c + col.1 + col.2.1 % 65536 * 65536
    mul8x8Loop aw bw n (k+1) (w.set k (word % W32)) (col.2.2 + col.2.1 / 65536 + word / W32)

/-- fn mul8x8: 15 columns, then len = 15, or 16 with the final carry word. -/
def BigNum.mul8x8 (a b : BigNum) : BigNum :=
  let r := mul8x8Loop a.words b.words 15 0 a.words 0
  if r.2 ≠ 0 then { a with words := r.1.set 15 (r.2 % W32), len := 16 }
  else { a with words := r.1, len := 15 }

/-- impl MulAssign<&BigNum>: dispatch between the 8x8 path, the single-word
path and the generic path. -/
def BigNum.mulBN (a b : BigNum) : BigNum :=
  if a.len = 8 ∧ b.len = 8 then BigNum.mul8x8 a b
  else if b.len = 1 then BigNum.mulU32 a (wget b 0)
  else BigNum.mulGeneral a b

/-- impl ShrAssign<u32>, word loop from high to low.  In the source each new
word is (carry | (tmp >> shift)) as u32 with carry = tmp << (32 - shift) on
u64; the two operands of the | occupy disjoint bit ranges (tmp >> shift <
2^(32-shift) and carry is a multiple of 2^(32-shift) there), so the | is
addition; we keep the bitwise form. -/
def shrWordsLoop (shift m : Nat) : Nat → List Nat → Nat → List Nat
  | 0, w, _ => w
  | c+1, w, carry =>
    let tmp := w.getD c 0
    shrWordsLoop shift m c (w.set c ((carry.lor (tmp / 2 ^ shift)) % W32)) (tmp * 2 ^ m % 2 ^ 64)

def BigNum.shr (b : BigNum) (shift : Nat) : BigNum :=
  let w := shrWordsLoop shift (32 - shift) b.len b.words 0
  let b2 := { b with words := w }
  if b2.len > 1 ∧ w.getD (b2.len - 1) 0 = 0 then { b2 with len := b2.len - 1 } else b2

/-- const ZERO. -/
def ZERO : BigNum := { negative := false, len := 1, words := List.replicate 16 0 }

/-- const ONE. -/
def ONE : BigNum := { negative := false, len := 1, words := (List.replicate 16 0).set 0 1 }

/-- static P, the field prime (words little-endian). -/
def Pbn : BigNum :=
  { negative := false, len := 8,
    words := [0xfffffc2f, 0xfffffffe, 0xffffffff, 0xffffffff,
              0xffffffff, 0xffffffff, 0xffffffff, 0xffffffff, 0, 0, 0, 0, 0, 0, 0, 0] }

/-- static N, the group order. -/
def Nbn : BigNum :=
  { negative := false, len := 8,
    words := [0xd0364141, 0xbfd25e8c, 0xaf48a03b, 0xbaaedce6,
              0xfffffffe, 0xffffffff, 0xffffffff, 0xffffffff, 0, 0, 0, 0, 0, 0, 0, 0] }

/-- The prime p = 2^256 - 2^32 - 977 as a Nat. -/
def pVal : Nat := 2 ^ 256 - 2 ^ 32 - 977

/-- The group order n as a Nat. -/
def nVal : Nat :=
  0xfffffffffffffffffffffffffffffffebaaedce6af48a03bbfd25e8cd0364141

example : magVal Pbn = pVal := by decide
example : magVal Nbn = nVal := by decide
example : Wf Pbn ∧ Stripped Pbn ∧ Wf Nbn ∧ Stripped Nbn := by decide

/-- fn is_odd. -/
def BigNum.isOdd (b : BigNum) : Bool := wget b 0 % 2 == 1

/-- u32::trailing_zeros: count trailing zero bits, 32 for the zero word. -/
def tzLoop : Nat → Nat → Nat
  | 0, _ => 0
  | c+1, w => if w % 2 = 1 then 0 else 1 + tzLoop c (w / 2)

def tz32 (w : Nat) : Nat := tzLoop 32 w

/-- fn split: low part keeps words with len forced to 8, the returned high
part copies words[8..16] (including dead storage beyond the live length,
exactly as the source copy_from_slice does). -/
def BigNum.split (b : BigNum) : BigNum × BigNum :=
  if b.len < 9 then (b, ZERO)
  else
    ({ b with len := 8 },
     { negative := false, len := b.len - 8, words := b.words.drop 8 ++ List.replicate 8 0 })

/-- fn mul_k: append two zero words, then one pass with the running u64
accumulator low; low never exceeds w*0x3d1 + 2^32 + w < 2^64. -/
def mulKWordsLoop : Nat → List Nat → Nat → Nat → List Nat
  | 0, w, _, _ => w
  | c+1, w, i, low =>
    let wd := w.getD i 0
    let low2 := low + wd * 977
    mulKWordsLoop c (w.set i (low2 % W32)) (i+1) (wd + low2 / W32)

def BigNum.mulK (b : BigNum) : BigNum :=
  let b1 := wset (wset b b.len 0) (b.len + 1) 0
  let b2 : BigNum := { b1 with len := b1.len + 2 }
  BigNum.strip { b2 with words := mulKWordsLoop b2.len b2.words 0 0 }

/-- fn red_reduce: fold the high half in (twice if needed), then compare
with P: on Equal do nothing, on Greater subtract P once, else strip. -/
def BigNum.redReduce (b : BigNum) : BigNum :=
  let s := BigNum.split b
  let b1 := BigNum.addBN s.1 (BigNum.mulK s.2)
  let b2 :=
    if b1.len > 8 then
      let s2 := BigNum.split b1
      BigNum.addBN s2.1 (BigNum.mulK s2.2)
    else b1
  match BigNum.cmp b2 Pbn with
  | Ordering.eq => b2
  | Ordering.gt => BigNum.subBN b2 Pbn
  | Ordering.lt => BigNum.strip b2

/-- fn red_neg. -/
def BigNum.redNeg (b : BigNum) : BigNum :=
  if b.eqU32 0 then ZERO else BigNum.subBN Pbn b

/-- fn red_add. -/
def BigNum.redAdd (a b : BigNum) : BigNum :=
  let res := BigNum.addBN a b
  if BigNum.cmp res Pbn ≠ Ordering.lt then BigNum.subBN res Pbn else res

/-- fn double (plain doubling of the magnitude). -/
def doubleLoop : Nat → List Nat → Nat → Nat → List Nat × Nat
  | 0, w, _, carry => (w, carry)
  | c+1, w, i, carry =>
    let s := w.getD i 0 * 2 + carry
    doubleLoop c (w.set i (s % W32)) (i+1) (s / W32)

def BigNum.double (b : BigNum) : BigNum :=
  let r := doubleLoop b.len b.words 0 0
  if r.2 ≠ 0 then { b with words := r.1.set b.len (r.2 % W32), len := b.len + 1 }
  else { b with words := r.1 }

/-- fn red_double. -/
def BigNum.redDouble (b : BigNum) : BigNum :=
  let d := BigNum.double b
  if BigNum.cmp d Pbn ≠ Ordering.lt then BigNum.subBN d Pbn else d

/-- fn red_sub. -/
def BigNum.redSub (a b : BigNum) : BigNum :=
  let res := BigNum.subBN a b
  if res.negative then BigNum.addBN res Pbn else res

/-- The while loop of red_sub_twice adds P until non-negative; the number of
additions is bounded by mag / p + 2, which we use as the recursion budget. -/
def redSubTwiceFix : Nat → BigNum → BigNum
  | 0, r => r
  | f+1, r => if r.negative then redSubTwiceFix f (BigNum.addBN r Pbn) else r

/-- fn red_sub_twice. -/
def BigNum.redSubTwice (a b : BigNum) : BigNum :=
  let r := BigNum.subBN (BigNum.subBN a b) b
  redSubTwiceFix (magVal r / pVal + 2) r

/-- fn red_mul (and red_mul_mut, which has the same value semantics). -/
def BigNum.redMul (a b : BigNum) : BigNum := BigNum.redReduce (BigNum.mulBN a b)

/-- fn red_sqr. -/
def BigNum.redSqr (a : BigNum) : BigNum := BigNum.redReduce (BigNum.mulBN a a)

/-- fn is_overflow: self >= N. -/
def BigNum.isOverflow (b : BigNum) : Bool := BigNum.cmp b Nbn ≠ Ordering.lt

/-- Inner halving loop of red_invm: if odd add P, then shift right once. -/
def invmHalfLoop : Nat → BigNum → BigNum
  | 0, x => x
  | c+1, x =>
    let x2 := if x.isOdd then BigNum.addBN x Pbn else x
    invmHalfLoop c (BigNum.shr x2 1)

/-- Main loop of red_invm (binary extended gcd) on (a, b, x1, x2), with an
explicit fuel that dominates the iteration count (mag a + mag b strictly
decreases every iteration). -/
def invmLoop : Nat → BigNum → BigNum → BigNum → BigNum → BigNum × BigNum × BigNum × BigNum
  | 0, a, b, x1, x2 => (a, b, x1, x2)
  | f+1, a, b, x1, x2 =>
    if a.cmpU32 1 = Ordering.gt ∧ b.cmpU32 1 = Ordering.gt then
      let az := tz32 (wget a 0)
      let a2 := if az ≠ 0 then BigNum.shr a az else a
      let x1b := if az ≠ 0 then invmHalfLoop az x1 else x1
      let bz := tz32 (wget b 0)
      let b2 := if bz ≠ 0 then BigNum.shr b bz else b
      let x2b := if bz ≠ 0 then invmHalfLoop bz x2 else x2
      if BigNum.cmp a2 b2 ≠ Ordering.lt then
        invmLoop f (BigNum.subBN a2 b2) b2 (BigNum.subBN x1b x2b) x2b
      else
        invmLoop f a2 (BigNum.subBN b2 a2) x1b (BigNum.subBN x2b x1b)
    else (a, b, x1, x2)

/-- fn red_invm. -/
def BigNum.redInvm (b : BigNum) : BigNum :=
  let r := invmLoop (magVal b + pVal + 1) b Pbn ONE ZERO
  let s0 := if r.1.eqU32 1 then r.2.2.1 else r.2.2.2
  let s1 := if s0.negative then BigNum.addBN s0 Pbn else s0
  if s1.negative then
    BigNum.redNeg (BigNum.redReduce { s1 with negative := false })
  else BigNum.redReduce s1

/-- i8 two-complement helpers for the packed NAF bytes. -/
def toU8 (z : Int) : Nat := (z % (256 : Int)).toNat

def ofU8 (n : Nat) : Int := if n < 128 then (n : Int) else (n : Int) - 256

def wrap8 (z : Int) : Int := ofU8 (toU8 z)

def or8 (x y : Int) : Int := ofU8 (Nat.lor (toU8 x) (toU8 y))

def shl8 (z : Int) (b : Nat) : Int := ofU8 (toU8 z * 2 ^ b % 256)

/-- struct NAFRepr (src/naf.rs): 128 bytes, four digit positions per byte,
written with |= of i8-shifted values. -/
structure NAFRepr where
  data : List Int
  cur : Nat
  bit : Nat
deriving DecidableEq, Repr

def NAFRepr.new : NAFRepr := { data := List.replicate 128 0, cur := 0, bit := 0 }

def NAFRepr.length (r : NAFRepr) : Nat := r.cur + if r.bit ≠ 0 then 1 else 0

def NAFRepr.push (r : NAFRepr) (v : Int) : NAFRepr :=
  let d := r.data.set r.cur (or8 (r.data.getD r.cur 0) (shl8 v r.bit))
  if r.bit + 1 = 4 then { data := d, cur := r.cur + 1, bit := 0 }
  else { data := d, cur := r.cur, bit := r.bit + 1 }

def NAFRepr.pushZeros (r : NAFRepr) (count : Nat) : NAFRepr :=
  let c := count + r.bit
  { r with cur := r.cur + c / 4, bit := c % 4 }

def NAFRepr.asSlice (r : NAFRepr) : List Int := r.data.take r.length

/-- struct NAF (src/naf.rs): dense i8 digits.  The source uses a fixed
512-byte buffer never read beyond len; we model the storage as a total
function from positions to digits. -/
structure NAF where
  data : Nat → Int
  len : Nat

def NAF.new : NAF := { data := fun _ => 0, len := 0 }

def NAF.push (n : NAF) (v : Int) : NAF :=
  { data := Function.update n.data n.len v, len := n.len + 1 }

def NAF.pushZeros (n : NAF) (c : Nat) : NAF := { n with len := n.len + c }

def NAF.asSlice (n : NAF) : List Int := (List.range n.len).map n.data

/-- fn get_naf1 loop body.  When k becomes zero after the in-place word
subtraction the source skips the shift and the while condition ends the
loop; we return directly in that case.  Fuel dominates the trip count
since the magnitude of k strictly decreases every iteration. -/
def getNaf1Loop : Nat → BigNum → NAFRepr → NAFRepr
  | 0, _, naf => naf
  | f+1, k, naf =>
    if k.eqU32 0 then naf
    else
      let zeros := tz32 (wget k 0)
      if zeros ≠ 0 then getNaf1Loop f (BigNum.shr k zeros) (naf.pushZeros zeros)
      else
        let m := wget k 0 % 4
        if m = 3 then
          getNaf1Loop f (BigNum.shr (BigNum.addU32 k 1) 2) ((naf.push (-1)).pushZeros 1)
        else
          let naf2 := naf.push (m : Int)
          let k2 := wset k 0 (wget k 0 - m)
          if k2.eqU32 0 then naf2
          else getNaf1Loop f (BigNum.shr k2 1) naf2

def BigNum.getNaf1 (b : BigNum) : NAFRepr := getNaf1Loop (magVal b + 1) b NAFRepr.new

/-- fn get_naf loop body; & wsm1 is % ws since wsm1 = ws - 1 is an all-ones
mask; the i8 casts of the digits are the wrap8 embedding. -/
def getNafLoop (w ws ws2 : Nat) : Nat → BigNum → NAF → NAF
  | 0, _, naf => naf
  | f+1, k, naf =>
    if k.eqU32 0 then naf
    else
      let zeros := tz32 (wget k 0)
      if zeros ≠ 0 then getNafLoop w ws ws2 f (BigNum.shr k zeros) (naf.pushZeros zeros)
      else
        let m := wget k 0 % ws
        if m > ws2 then
          getNafLoop w ws ws2 f (BigNum.shr (BigNum.addU32 k (m - ws2)) 1)
            (naf.push (wrap8 ((ws2 : Int) - (m : Int))))
        else
          let naf2 := naf.push (wrap8 (m : Int))
          let k2 := wset k 0 (wget k 0 - m)
          if k2.eqU32 0 then naf2
          else getNafLoop w ws ws2 f (BigNum.shr k2 w) (naf2.pushZeros (w - 1))

def BigNum.getNaf (b : BigNum) (w : Nat) : NAF :=
  getNafLoop w (2 ^ (w + 1)) (2 ^ (w + 1) / 2) (magVal b + 1) b NAF.new

/-- fn write_u32 (big-endian bytes of one word). -/
def writeU32 (v : Nat) : List Nat :=
  [v / 2 ^ 24 % 256, v / 2 ^ 16 % 256, v / 2 ^ 8 % 256, v % 256]

/-- fn write_bytes_to: words 7..0, big-endian within each word. -/
def BigNum.writeBytes (b : BigNum) : List Nat :=
  writeU32 (wget b 7) ++ writeU32 (wget b 6) ++ writeU32 (wget b 5) ++ writeU32 (wget b 4) ++
  writeU32 (wget b 3) ++ writeU32 (wget b 2) ++ writeU32 (wget b 1) ++ writeU32 (wget b 0)

/-- fn read_u32 at byte offset i. -/
def readU32 (bs : List Nat) (i : Nat) : Nat :=
  bs.getD i 0 * 2 ^ 24 + bs.getD (i+1) 0 * 2 ^ 16 + bs.getD (i+2) 0 * 2 ^ 8 + bs.getD (i+3) 0

/-- impl From<&[u8]> (used by the sources only on 32-byte buffers). -/
def BigNum.fromBytes (bs : List Nat) : BigNum :=
  BigNum.strip
    { negative := false, len := bs.length / 4,
      words := [readU32 bs 28, readU32 bs 24, readU32 bs 20, readU32 bs 16,
                readU32 bs 12, readU32 bs 8, readU32 bs 4, readU32 bs 0,
                0, 0, 0, 0, 0, 0, 0, 0] }

/-- fn is_valid_secret (src/lib.rs). -/
def isValidSecret (bs : List Nat) : Bool :=
  if bs.length ≠ 32 then false
  else
    let num := BigNum.fromBytes bs
    !(BigNum.isOverflow num) && !(num.eqU32 0)

/-- struct ECPoint (src/ec_point.rs). -/
structure ECPoint where
  x : BigNum
  y : BigNum
  inf : Bool
deriving DecidableEq, Repr

/-- const INF. -/
def INF : ECPoint := { x := ZERO, y := ZERO, inf := true }

/-- fn double (affine). -/
def ECPoint.double (p : ECPoint) : ECPoint :=
  if p.inf then p
  else
    let yy := BigNum.redAdd p.y p.y
    if yy.eqU32 0 then { p with inf := true }
    else
      let xsqr := BigNum.redSqr p.x
      let s := BigNum.redMul (BigNum.redAdd (BigNum.redAdd xsqr xsqr) xsqr) (BigNum.redInvm yy)
      let nx := BigNum.redSub (BigNum.redSqr s) (BigNum.redAdd p.x p.x)
      { p with x := nx,
               y := BigNum.redSub (BigNum.redMul s (BigNum.redSub p.x nx)) p.y }

/-- impl AddAssign<&ECPoint> (affine addition). -/
def ECPoint.addPt (p q : ECPoint) : ECPoint :=
  if p.inf then q
  else if q.inf then p
  else if BigNum.beqBN p.x q.x then
    if BigNum.beqBN p.y q.y then ECPoint.double p
    else { p with inf := true }
  else
    let s0 := BigNum.redSub p.y q.y
    let s := if !(s0.eqU32 0) then BigNum.redMul s0 (BigNum.redInvm (BigNum.redSub p.x q.x))
             else s0
    let nx := BigNum.redSub (BigNum.redSub (BigNum.redSqr s) p.x) q.x
    { p with x := nx,
             y := BigNum.redSub (BigNum.redMul s (BigNum.redSub p.x nx)) p.y }

/-- fn neg (affine): ECPoint::new resets inf. -/
def ECPoint.neg (p : ECPoint) : ECPoint :=
  if p.inf then p else { x := p.x, y := BigNum.redNeg p.y, inf := false }

/-- fn to_public_key: 0x04, then x and y big-endian. -/
def ECPoint.toPublicKey (p : ECPoint) : List Nat :=
  4 :: (BigNum.writeBytes p.x ++ BigNum.writeBytes p.y)

/-- struct ECJPoint (src/ecj_point.rs). -/
structure ECJPoint where
  x : BigNum
  y : BigNum
  z : BigNum
deriving DecidableEq, Repr

/-- impl Default. -/
def ECJPoint.base : ECJPoint := { x := ONE, y := ONE, z := ZERO }

/-- fn inf. -/
def ECJPoint.isInf (p : ECJPoint) : Bool := p.z.eqU32 0

/-- impl From<ECPoint>. -/
def ECJPoint.ofAffine (p : ECPoint) : ECJPoint :=
  if p.inf then ECJPoint.base else { x := p.x, y := p.y, z := ONE }

/-- impl From<ECJPoint> for ECPoint (Jacobian to affine, one inversion). -/
def ECJPoint.toAffine (p : ECJPoint) : ECPoint :=
  if p.isInf then INF
  else
    let zinv := BigNum.redInvm p.z
    let zinv2 := BigNum.redSqr zinv
    { x := BigNum.redMul p.x zinv2,
      y := BigNum.redMul (BigNum.redMul p.y zinv2) zinv,
      inf := false }

/-- fn double (Jacobian), with the z = 1 and the general branch. -/
def ECJPoint.double (p : ECJPoint) : ECJPoint :=
  if p.isInf then p
  else if p.z.eqU32 1 then
    let xx := BigNum.redSqr p.x
    let yy := BigNum.redSqr p.y
    let yyyy := BigNum.redSqr yy
    let s := BigNum.redDouble
      (BigNum.redSub (BigNum.redSub (BigNum.redSqr (BigNum.redAdd p.x yy)) xx) yyyy)
    let m := BigNum.redAdd (BigNum.redAdd xx xx) xx
    let t := BigNum.redSub (BigNum.redSub (BigNum.redSqr m) s) s
    let y8 := BigNum.redDouble (BigNum.redDouble (BigNum.redDouble yyyy))
    { x := t,
      y := BigNum.redSub (BigNum.redMul m (BigNum.redSub s t)) y8,
      z := BigNum.redAdd p.y p.y }
  else
    let a := BigNum.redSqr p.x
    let b := BigNum.redSqr p.y
    let c := BigNum.redSqr b
    let d := BigNum.redDouble
      (BigNum.redSub (BigNum.redSub (BigNum.redSqr (BigNum.redAdd p.x b)) a) c)
    let e := BigNum.redAdd (BigNum.redAdd a a) a
    let f := BigNum.redSqr e
    let c8 := BigNum.redDouble (BigNum.redDouble (BigNum.redDouble c))
    let nx := BigNum.redSub (BigNum.redSub f d) d
    let ny := BigNum.redSub (BigNum.redMul e (BigNum.redSub d nx)) c8
    let nz0 := BigNum.redMul p.y p.z
    { x := nx, y := ny, z := BigNum.redAdd nz0 nz0 }

/-- impl AddAssign<&ECJPoint>. -/
def ECJPoint.addJ (p q : ECJPoint) : ECJPoint :=
  if p.isInf then q
  else if q.isInf then p
  else
    let pz2 := BigNum.redSqr q.z
    let z2 := BigNum.redSqr p.z
    let u1 := BigNum.redMul p.x pz2
    let u2 := BigNum.redMul q.x z2
    let s1 := BigNum.redMul (BigNum.redMul p.y pz2) q.z
    let s2 := BigNum.redMul (BigNum.redMul q.y z2) p.z
    let h := BigNum.redSub u1 u2
    let r := BigNum.redSub s1 s2
    if h.eqU32 0 then
      if r.eqU32 0 then ECJPoint.double p else ECJPoint.base
    else
      let h2 := BigNum.redSqr h
      let v := BigNum.redMul u1 h2
      let h3 := BigNum.redMul h2 h
      let nx := BigNum.redSub (BigNum.redSub (BigNum.redAdd (BigNum.redSqr r) h3) v) v
      { x := nx,
        y := BigNum.redSub (BigNum.redMul r (BigNum.redSub v nx)) (BigNum.redMul s1 h3),
        z := BigNum.redMul (BigNum.redMul p.z q.z) h }

/-- fn mixed_add (Jacobian plus affine). -/
def ECJPoint.mixedAdd (p : ECJPoint) (q : ECPoint) : ECJPoint :=
  if p.isInf then ECJPoint.ofAffine q
  else if q.inf then p
  else
    let z2 := BigNum.redSqr p.z
    let u2 := BigNum.redMul q.x z2
    let s2 := BigNum.redMul (BigNum.redMul q.y z2) p.z
    let h := BigNum.redSub p.x u2
    let r := BigNum.redSub p.y s2
    if h.eqU32 0 then
      if r.eqU32 0 then ECJPoint.double p
      else { x := ONE, y := ONE, z := ZERO }
    else
      let h2 := BigNum.redSqr h
      let v := BigNum.redMul p.x h2
      let h3 := BigNum.redMul h2 h
      let nx := BigNum.redSubTwice (BigNum.redAdd (BigNum.redSqr r) h3) v
      { x := nx,
        y := BigNum.redSub (BigNum.redMul r (BigNum.redSub v nx)) (BigNum.redMul p.y h3),
        z := BigNum.redMul p.z h }

/-- The generator coordinates (src/ec_point_g.rs). -/
def gxBytes : List Nat :=
  [0x79, 0xBE, 0x66, 0x7E, 0xF9, 0xDC, 0xBB, 0xAC, 0x55, 0xA0, 0x62, 0x95, 0xCE,
   0x87, 0x0B, 0x07, 0x02, 0x9B, 0xFC, 0xDB, 0x2D, 0xCE, 0x28, 0xD9, 0x59, 0xF2,
   0x81, 0x5B, 0x16, 0xF8, 0x17, 0x98]

def gyBytes : List Nat :=
  [0x48, 0x3A, 0xDA, 0x77, 0x26, 0xA3, 0xC4, 0x65, 0x5D, 0xA4, 0xFB, 0xFC, 0x0E,
   0x11, 0x08, 0xA8, 0xFD, 0x17, 0xB4, 0x48, 0xA6, 0x85, 0x54, 0x19, 0x9C, 0x47,
   0xD0, 0x8F, 0xFB, 0x10, 0xD4, 0xB8]

def gBase : ECPoint :=
  { x := BigNum.fromBytes gxBytes, y := BigNum.fromBytes gyBytes, inf := false }

/-- The points table of ECPointG: entry i is the accumulator after 4i affine
doublings of G, exactly the value the construction loop stores in
points[i]; negpoints[i] is its negation. -/
def gTable : Nat → ECPoint
  | 0 => gBase
  | n+1 => ECPoint.double (ECPoint.double (ECPoint.double (ECPoint.double (gTable n))))

def gNegTable (n : Nat) : ECPoint := ECPoint.neg (gTable n)

/-- The repr scan of ECPointG::mul for one digit magnitude i. -/
def gScan (i : Int) : List Int → Nat → ECJPoint → ECJPoint
  | [], _, b => b
  | v :: rest, ri, b =>
    let b2 := if v = i then ECJPoint.mixedAdd b (gTable ri)
              else if v = -i then ECJPoint.mixedAdd b (gNegTable ri)
              else b
    gScan i rest (ri+1) b2

/-- The outer countdown of ECPointG::mul: i descending; b is kept. -/
def gOuter (repr : List Int) : Nat → ECJPoint → ECJPoint → ECJPoint
  | 0, a, _ => a
  | c+1, a, b =>
    let b2 := gScan (Int.ofNat (c+1)) repr 0 b
    gOuter repr c (ECJPoint.addJ a b2) b2

/-- fn ECPointG::mul.  The scalar is received by mutable reference but only
ever read; the second component is its state after the call. -/
def gMul (num : BigNum) : ECPoint × BigNum :=
  let naf := BigNum.getNaf1 num
  let repr := naf.asSlice
  ((gOuter repr 10 ECJPoint.base ECJPoint.base).toAffine, num)

/-! Specification-side value functions used to state the claims. -/

/-- Value of a big-endian byte string. -/
def beVal (bs : List Nat) : Nat := bs.foldl (fun a b => a * 256 + b) 0

/-- Value of a little-endian signed digit string: sum of digit i times 2^i. -/
def digitsVal : List Int → Int
  | [] => 0
  | d :: rest => d + 2 * digitsVal rest

/-- Value of a packed base-16 digit string (position i weighs 16^i),
as read by the generator multiplication. -/
def digits16Val : List Int → Int
  | [] => 0
  | d :: rest => d + 16 * digits16Val rest

/-- Segment value: words i, i+1, ..., i+c-1, little-endian. -/
def segVal (w : List Nat) : Nat → Nat → Nat
  | _, 0 => 0
  | i, c+1 => w.getD i 0 + 2 ^ 32 * segVal w (i+1) c

/-- Segment value over ℤ. -/
def segValZ (w : List Nat) (i c : Nat) : Int := (segVal w i c : Int)

/-- The 32-byte big-endian encoding of 1 (the secret used by claim C2). -/
def oneBytes : List Nat := List.replicate 31 0 ++ [1]

/-- A one-word BigNum with the given word value. -/
def bnSmall (v : Nat) : BigNum :=
  { negative := false, len := 1, words := (List.replicate 16 0).set 0 v }

/-- Binary modular exponentiation, structurally recursive on a fuel that
dominates the exponent so that kernel reduction works. -/
def modPowAux : Nat → Nat → Nat → Nat → Nat
  | 0, _, _, n => 1 % n
  | f+1, b, e, n =>
    if e = 0 then 1 % n
    else if e % 2 = 1 then b * modPowAux f (b * b % n) (e / 2) n % n
    else modPowAux f (b * b % n) (e / 2) n

/-- Modular exponentiation with the exponent itself as fuel. -/
def modPow (b e n : Nat) : Nat := modPowAux e b e n

/-! ## Basic list and segment lemmas -/

theorem W32_eq : W32 = 2 ^ 32 := by decide

theorem W32_pos : 0 < W32 := by decide

theorem getD_set_self {w : List Nat} {i : Nat} (h : i < w.length) (v : Nat) :
    (w.set i v).getD i 0 = v := by
  simp [List.getD_eq_getElem?_getD, List.getElem?_set_self h]

theorem getD_set_other (w : List Nat) {i j : Nat} (h : i ≠ j) (v : Nat) :
    (w.set i v).getD j 0 = w.getD j 0 := by
  simp [List.getD_eq_getElem?_getD, List.getElem?_set_ne h]

theorem segVal_congr {v w : List Nat} :
    ∀ (c i : Nat), (∀ t, t < c → v.getD (i+t) 0 = w.getD (i+t) 0) →
      segVal v i c = segVal w i c := by
  intro c
  induction c with
  | zero => intro i _; rfl
  | succ c ih =>
    intro i h
    show v.getD i 0 + 2 ^ 32 * segVal v (i+1) c = w.getD i 0 + 2 ^ 32 * segVal w (i+1) c
    rw [ih (i+1) (fun t ht => by
      have := h (t+1) (by omega)
      simpa [Nat.add_assoc, Nat.add_comm 1 t] using this)]
    have h0 := h 0 (by omega)
    simp only [Nat.add_zero] at h0
    rw [h0]

theorem segVal_succ_top (w : List Nat) :
    ∀ (c i : Nat), segVal w i (c+1) = segVal w i c + w.getD (i+c) 0 * 2 ^ (32*c) := by
  intro c
  induction c with
  | zero => intro i; show w.getD i 0 + 2^32 * 0 = 0 + w.getD (i+0) 0 * 2^(32*0); simp
  | succ c ih =>
    intro i
    show w.getD i 0 + 2 ^ 32 * segVal w (i+1) (c+1)
      = (w.getD i 0 + 2 ^ 32 * segVal w (i+1) c) + w.getD (i+(c+1)) 0 * 2 ^ (32*(c+1))
    rw [ih (i+1)]
    have h1 : i + 1 + c = i + (c+1) := by omega
    have h2 : (32:Nat) * (c+1) = 32 * c + 32 := by ring
    rw [h1, h2, Nat.mul_add, pow_add]
    ring

theorem wordsVal_eq_segVal (w : List Nat) : ∀ n, wordsVal w n = segVal w 0 n := by
  intro n
  induction n with
  | zero => rfl
  | succ n ih =>
    show wordsVal w n + w.getD n 0 * 2 ^ (32*n) = segVal w 0 (n+1)
    rw [segVal_succ_top w n 0, ih]
    simp

theorem segVal_set_out {w : List Nat} {j : Nat} (v : Nat) :
    ∀ (c i : Nat), (j < i ∨ i + c ≤ j) → segVal (w.set j v) i c = segVal w i c := by
  intro c i h
  exact segVal_congr c i (fun t ht => getD_set_other w (by omega) v)

theorem segVal_lt {w : List Nat} :
    ∀ (c i : Nat), (∀ t, t < c → w.getD (i+t) 0 < W32) → segVal w i c < 2 ^ (32*c) := by
  intro c
  induction c with
  | zero => intro i _; show (0:Nat) < 1; omega
  | succ c ih =>
    intro i h
    show w.getD i 0 + 2 ^ 32 * segVal w (i+1) c < 2 ^ (32*(c+1))
    have h0 : w.getD i 0 < 2 ^ 32 := by have := h 0 (by omega); simpa [W32_eq] using this
    have hrest : segVal w (i+1) c < 2 ^ (32*c) := by
      apply ih
      intro t ht
      have := h (t+1) (by omega)
      simpa [Nat.add_assoc, Nat.add_comm 1 t] using this
    have : (32:Nat) * (c+1) = 32 + 32 * c := by ring
    rw [this, pow_add]
    calc w.getD i 0 + 2 ^ 32 * segVal w (i+1) c
        < 2^32 + 2 ^ 32 * segVal w (i+1) c := by omega
      _ ≤ 2^32 + 2^32 * (2^(32*c) - 1) := by
          have : segVal w (i+1) c ≤ 2^(32*c) - 1 := by omega
          exact Nat.add_le_add_left (Nat.mul_le_mul_left _ this) _
      _ ≤ 2^32 * 2^(32*c) := by
          have hp : 1 ≤ 2^(32*c) := Nat.one_le_two_pow
          rw [Nat.mul_sub, Nat.mul_one]
          have h2 : 2^32 ≤ 2^32 * 2^(32*c) := Nat.le_mul_of_pos_right _ (by positivity)
          omega

theorem segVal_split (w : List Nat) (c : Nat) :
    ∀ (d i : Nat), segVal w i (c+d) = segVal w i c + 2 ^ (32*c) * segVal w (i+c) d := by
  intro d
  induction d with
  | zero => intro i; simp [segVal]
  | succ d ih =>
    intro i
    have h1 : c + (d + 1) = (c + d) + 1 := by omega
    rw [h1, segVal_succ_top w (c+d) i, ih i, segVal_succ_top w d (i+c)]
    have h2 : i + (c + d) = i + c + d := by omega
    have h3 : (32:Nat) * (c + d) = 32*c + 32*d := by ring
    rw [h2, h3, pow_add]
    ring

/-! ## Word loop specifications -/

theorem addWordsLoop_spec (rw : List Nat) :
    ∀ (c : Nat) (w : List Nat) (i carry : Nat), i + c ≤ w.length →
      (addWordsLoop rw c w i carry).1.length = w.length ∧
      (∀ j, j < i ∨ i + c ≤ j → (addWordsLoop rw c w i carry).1.getD j 0 = w.getD j 0) ∧
      (∀ t, t < c → (addWordsLoop rw c w i carry).1.getD (i+t) 0 < W32) ∧
      segVal (addWordsLoop rw c w i carry).1 i c + (addWordsLoop rw c w i carry).2 * 2 ^ (32*c)
        = segVal w i c + segVal rw i c + carry := by
  intro c
  induction c with
  | zero =>
    intro w i carry _
    refine ⟨rfl, fun j _ => rfl, fun t ht => absurd ht (by omega), ?_⟩
    simp [segVal, addWordsLoop]
  | succ c ih =>
    intro w i carry hlen
    set word := w.getD i 0 + rw.getD i 0 + carry with hword
    have hstep : addWordsLoop rw (c+1) w i carry
        = addWordsLoop rw c (w.set i (word % W32)) (i+1) (word / W32) := rfl
    have hlen2 : (i+1) + c ≤ (w.set i (word % W32)).length := by
      rw [List.length_set]; omega
    obtain ⟨ihlen, ihframe, ihbound, ihval⟩ := ih (w.set i (word % W32)) (i+1) (word / W32) hlen2
    rw [hstep]
    refine ⟨by rw [ihlen, List.length_set], ?_, ?_, ?_⟩
    · intro j hj
      rw [ihframe j (by omega), getD_set_other w (by omega)]
    · intro t ht
      rcases Nat.eq_zero_or_pos t with h0 | h0
      · subst h0
        simp only [Nat.add_zero]
        rw [ihframe i (Or.inl (by omega)), getD_set_self (by omega)]
        exact Nat.mod_lt _ W32_pos
      · have := ihbound (t-1) (by omega)
        have harr : i + 1 + (t - 1) = i + t := by omega
        rwa [harr] at this
    · show segVal _ i (c+1) + _ * 2 ^ (32*(c+1)) = segVal w i (c+1) + segVal rw i (c+1) + carry
      have hlow : (addWordsLoop rw c (w.set i (word % W32)) (i+1) (word / W32)).1.getD i 0
          = word % W32 := by
        rw [ihframe i (Or.inl (by omega)), getD_set_self (by omega)]
      have hseg : segVal (w.set i (word % W32)) (i+1) c = segVal w (i+1) c :=
        segVal_set_out _ c (i+1) (Or.inl (by omega))
      have hexp : segVal (addWordsLoop rw c (w.set i (word % W32)) (i+1) (word / W32)).1 i (c+1)
          = word % W32
            + 2 ^ 32 * segVal (addWordsLoop rw c (w.set i (word % W32)) (i+1) (word / W32)).1 (i+1) c := by
        show _ + 2^32 * _ = _
        rw [hlow]
      rw [hexp]
      have hv := ihval
      rw [hseg] at hv
      have e2 : segVal w i (c+1) = w.getD i 0 + 2^32 * segVal w (i+1) c := rfl
      have e3 : segVal rw i (c+1) = rw.getD i 0 + 2^32 * segVal rw (i+1) c := rfl
      have e4 : (2:Nat)^(32*(c+1)) = 2^32 * 2^(32*c) := by
        rw [show (32:Nat)*(c+1) = 32 + 32*c by ring, pow_add]
      rw [e2, e3, e4]
      have e5 : (addWordsLoop rw c (w.set i (word % W32)) (i+1) (word / W32)).2 * (2^32 * 2^(32*c))
          = 2^32 * ((addWordsLoop rw c (w.set i (word % W32)) (i+1) (word / W32)).2 * 2^(32*c)) := by
        ring
      rw [e5]
      generalize hq : word / W32 = q at hv ⊢
      generalize hr : word % W32 = r at hv ⊢
      have hdm : W32 * q + r = word := by rw [← hq, ← hr]; exact Nat.div_add_mod word W32
      have hW : W32 = 4294967296 := rfl
      rw [hW] at hdm
      omega

theorem addCarryLoop_spec :
    ∀ (c : Nat) (w : List Nat) (i carry : Nat), i + c ≤ w.length →
      (addCarryLoop c w i carry).1.length = w.length ∧
      (∀ j, j < i ∨ i + c ≤ j → (addCarryLoop c w i carry).1.getD j 0 = w.getD j 0) ∧
      (∀ t, t < c → (addCarryLoop c w i carry).1.getD (i+t) 0 < W32 ∨
        (addCarryLoop c w i carry).1.getD (i+t) 0 = w.getD (i+t) 0) ∧
      segVal (addCarryLoop c w i carry).1 i c + (addCarryLoop c w i carry).2.2 * 2 ^ (32*c)
        = segVal w i c + carry := by
  intro c
  induction c with
  | zero =>
    intro w i carry _
    refine ⟨rfl, fun j _ => rfl, fun t ht => absurd ht (by omega), ?_⟩
    simp [segVal, addCarryLoop]
  | succ c ih =>
    intro w i carry hlen
    by_cases hc : carry = 0
    · subst hc
      have hstep : addCarryLoop (c+1) w i 0 = (w, i, 0) := rfl
      rw [hstep]
      exact ⟨rfl, fun j _ => rfl, fun t _ => Or.inr rfl, by simp⟩
    · set word := w.getD i 0 + carry with hword
      have hstep : addCarryLoop (c+1) w i carry
          = addCarryLoop c (w.set i (word % W32)) (i+1) (word / W32) := by
        show (if carry = 0 then _ else _) = _
        rw [if_neg hc]
      have hlen2 : (i+1) + c ≤ (w.set i (word % W32)).length := by
        rw [List.length_set]; omega
      obtain ⟨ihlen, ihframe, ihbound, ihval⟩ := ih (w.set i (word % W32)) (i+1) (word / W32) hlen2
      rw [hstep]
      refine ⟨by rw [ihlen, List.length_set], ?_, ?_, ?_⟩
      · intro j hj
        rw [ihframe j (by omega), getD_set_other w (by omega)]
      · intro t ht
        rcases Nat.eq_zero_or_pos t with h0 | h0
        · subst h0
          left
          simp only [Nat.add_zero]
          rw [ihframe i (Or.inl (by omega)), getD_set_self (by omega)]
          exact Nat.mod_lt _ W32_pos
        · have := ihbound (t-1) (by omega)
          have harr : i + 1 + (t - 1) = i + t := by omega
          rw [harr] at this
          rcases this with h | h
          · exact Or.inl h
          · right
            rw [h, getD_set_other w (by omega)]
      · have hlow : (addCarryLoop c (w.set i (word % W32)) (i+1) (word / W32)).1.getD i 0
            = word % W32 := by
          rw [ihframe i (Or.inl (by omega)), getD_set_self (by omega)]
        have hseg : segVal (w.set i (word % W32)) (i+1) c = segVal w (i+1) c :=
          segVal_set_out _ c (i+1) (Or.inl (by omega))
        have hexp : segVal (addCarryLoop c (w.set i (word % W32)) (i+1) (word / W32)).1 i (c+1)
            = word % W32
              + 2 ^ 32 * segVal (addCarryLoop c (w.set i (word % W32)) (i+1) (word / W32)).1 (i+1) c := by
          show _ + 2^32 * _ = _
          rw [hlow]
        rw [hexp]
        have hv := ihval
        rw [hseg] at hv
        have e2 : segVal w i (c+1) = w.getD i 0 + 2^32 * segVal w (i+1) c := rfl
        have e4 : (2:Nat)^(32*(c+1)) = 2^32 * 2^(32*c) := by
          rw [show (32:Nat)*(c+1) = 32 + 32*c by ring, pow_add]
        rw [e2, e4]
        have e5 : (addCarryLoop c (w.set i (word % W32)) (i+1) (word / W32)).2.2 * (2^32 * 2^(32*c))
            = 2^32 * ((addCarryLoop c (w.set i (word % W32)) (i+1) (word / W32)).2.2 * 2^(32*c)) := by
          ring
        rw [e5]
        generalize hq : word / W32 = q at hv ⊢
        generalize hr : word % W32 = r at hv ⊢
        have hdm : W32 * q + r = word := by rw [← hq, ← hr]; exact Nat.div_add_mod word W32
        have hW : W32 = 4294967296 := rfl
        rw [hW] at hdm
        omega

theorem subWordsLoop_spec (rw : List Nat) :
    ∀ (c : Nat) (w : List Nat) (i : Nat) (carry : Int), i + c ≤ w.length →
      (carry = 0 ∨ carry = -1) →
      (∀ t, t < c → w.getD (i+t) 0 < W32 ∧ rw.getD (i+t) 0 < W32) →
      (subWordsLoop rw c w i carry).1.length = w.length ∧
      (∀ j, j < i ∨ i + c ≤ j → (subWordsLoop rw c w i carry).1.getD j 0 = w.getD j 0) ∧
      (∀ t, t < c → (subWordsLoop rw c w i carry).1.getD (i+t) 0 < W32) ∧
      ((subWordsLoop rw c w i carry).2 = 0 ∨ (subWordsLoop rw c w i carry).2 = -1) ∧
      (segVal (subWordsLoop rw c w i carry).1 i c : Int)
          + (subWordsLoop rw c w i carry).2 * 2 ^ (32*c)
        = (segVal w i c : Int) - (segVal rw i c : Int) + carry := by
  intro c
  induction c with
  | zero =>
    intro w i carry _ hc _
    refine ⟨rfl, fun j _ => rfl, fun t ht => absurd ht (by omega), hc, ?_⟩
    simp [segVal, subWordsLoop]
  | succ c ih =>
    intro w i carry hlen hc hb
    set word : Int := (w.getD i 0 : Int) - (rw.getD i 0 : Int) + carry with hword
    have hwrange : -(2^32 : Int) ≤ word ∧ word < 2^32 := by
      have h1 := (hb 0 (by omega)).1
      have h2 := (hb 0 (by omega)).2
      simp only [Nat.add_zero] at h1 h2
      rw [W32_eq] at h1 h2
      constructor
      · have : (0:Int) ≤ (w.getD i 0 : Int) := Int.natCast_nonneg _
        have h2z : (rw.getD i 0 : Int) < 2^32 := by exact_mod_cast h2
        omega
      · have h1z : (w.getD i 0 : Int) < 2^32 := by exact_mod_cast h1
        have : (0:Int) ≤ (rw.getD i 0 : Int) := Int.natCast_nonneg _
        omega
    have hstep : subWordsLoop rw (c+1) w i carry
        = subWordsLoop rw c (w.set i (word % (W32:Int)).toNat) (i+1) (word / (W32:Int)) := rfl
    have hlen2 : (i+1) + c ≤ (w.set i (word % (W32:Int)).toNat).length := by
      rw [List.length_set]; omega
    have hWcast : (W32:Int) = 2^32 := by norm_num [W32_eq]
    have hcarry2 : word / (W32:Int) = 0 ∨ word / (W32:Int) = -1 := by
      rw [hWcast]
      rcases hwrange with ⟨hlo, hhi⟩
      omega
    have hb2 : ∀ t, t < c → (w.set i (word % (W32:Int)).toNat).getD (i+1+t) 0 < W32
        ∧ rw.getD (i+1+t) 0 < W32 := by
      intro t ht
      rw [getD_set_other w (by omega)]
      have := hb (t+1) (by omega)
      have harr : i + (t+1) = i + 1 + t := by omega
      rw [harr] at this
      exact this
    obtain ⟨ihlen, ihframe, ihbound, ihcar, ihval⟩ :=
      ih (w.set i (word % (W32:Int)).toNat) (i+1) (word / (W32:Int)) hlen2 hcarry2 hb2
    rw [hstep]
    have hmodlt : (word % (W32:Int)).toNat < W32 := by
      have h1 : (0:Int) < (W32:Int) := by exact_mod_cast W32_pos
      have h2 : word % (W32:Int) < (W32:Int) := Int.emod_lt_of_pos word h1
      have h3 : (0:Int) ≤ word % (W32:Int) := Int.emod_nonneg word (by omega)
      omega
    refine ⟨by rw [ihlen, List.length_set], ?_, ?_, ihcar, ?_⟩
    · intro j hj
      rw [ihframe j (by omega), getD_set_other w (by omega)]
    · intro t ht
      rcases Nat.eq_zero_or_pos t with h0 | h0
      · subst h0
        simp only [Nat.add_zero]
        rw [ihframe i (Or.inl (by omega)), getD_set_self (by omega)]
        exact hmodlt
      · have := ihbound (t-1) (by omega)
        have harr : i + 1 + (t - 1) = i + t := by omega
        rwa [harr] at this
    · have hlow : (subWordsLoop rw c (w.set i (word % (W32:Int)).toNat) (i+1) (word / (W32:Int))).1.getD i 0
          = (word % (W32:Int)).toNat := by
        rw [ihframe i (Or.inl (by omega)), getD_set_self (by omega)]
      have hseg : segVal (w.set i (word % (W32:Int)).toNat) (i+1) c = segVal w (i+1) c :=
        segVal_set_out _ c (i+1) (Or.inl (by omega))
      have hexp : segVal (subWordsLoop rw c (w.set i (word % (W32:Int)).toNat) (i+1) (word / (W32:Int))).1 i (c+1)
          = (word % (W32:Int)).toNat
            + 2 ^ 32 * segVal (subWordsLoop rw c (w.set i (word % (W32:Int)).toNat) (i+1) (word / (W32:Int))).1 (i+1) c := by
        show _ + 2^32 * _ = _
        rw [hlow]
      have hv := ihval
      rw [hseg] at hv
      have htn : ((word % (W32:Int)).toNat : Int) = word % (W32:Int) := by
        have h3 : (0:Int) ≤ word % (W32:Int) := Int.emod_nonneg word (by simp [W32_eq])
        omega
      have hz1 : (segVal (subWordsLoop rw c (w.set i (word % (W32:Int)).toNat) (i+1) (word / (W32:Int))).1 i (c+1) : Int)
          = ((word % (W32:Int)).toNat : Int)
            + 2^32 * (segVal (subWordsLoop rw c (w.set i (word % (W32:Int)).toNat) (i+1) (word / (W32:Int))).1 (i+1) c : Int) := by
        rw [hexp]; push_cast; ring
      have hz2 : (segVal w i (c+1) : Int) = (w.getD i 0 : Int) + 2^32 * (segVal w (i+1) c : Int) := by
        show ((segVal w i (c+1) : Nat) : Int) = _
        rw [show segVal w i (c+1) = w.getD i 0 + 2^32 * segVal w (i+1) c from rfl]
        push_cast; ring
      have hz3 : (segVal rw i (c+1) : Int) = (rw.getD i 0 : Int) + 2^32 * (segVal rw (i+1) c : Int) := by
        show ((segVal rw i (c+1) : Nat) : Int) = _
        rw [show segVal rw i (c+1) = rw.getD i 0 + 2^32 * segVal rw (i+1) c from rfl]
        push_cast; ring
      have e32 : ((2:Int))^(32*(c+1)) = 2^32 * 2^(32*c) := by
        rw [show (32:Nat)*(c+1) = 32 + 32*c by ring, pow_add]
      have hdm : (W32:Int) * (word / (W32:Int)) + word % (W32:Int) = word :=
        Int.ediv_add_emod word (W32:Int)
      rw [hz1, hz2, hz3, e32, htn]
      generalize hq : word / (W32:Int) = q at hv hdm
      generalize hr : word % (W32:Int) = r at hv hdm ⊢
      rw [hWcast] at hdm
      linear_combination (2^32:Int) * hv + hdm + hword

theorem subCarryLoop_spec :
    ∀ (c : Nat) (w : List Nat) (i : Nat) (carry : Int), i + c ≤ w.length →
      (carry = 0 ∨ carry = -1) →
      (∀ t, t < c → w.getD (i+t) 0 < W32) →
      (subCarryLoop c w i carry).1.length = w.length ∧
      (∀ j, j < i ∨ i + c ≤ j → (subCarryLoop c w i carry).1.getD j 0 = w.getD j 0) ∧
      (∀ t, t < c → (subCarryLoop c w i carry).1.getD (i+t) 0 < W32) ∧
      ((subCarryLoop c w i carry).2.2 = 0 ∨ (subCarryLoop c w i carry).2.2 = -1) ∧
      i ≤ (subCarryLoop c w i carry).2.1 ∧ (subCarryLoop c w i carry).2.1 ≤ i + c ∧
      (segVal (subCarryLoop c w i carry).1 i c : Int)
          + (subCarryLoop c w i carry).2.2 * 2 ^ (32*c)
        = (segVal w i c : Int) + carry := by
  intro c
  induction c with
  | zero =>
    intro w i carry _ hc hb
    refine ⟨rfl, fun j _ => rfl, fun t ht => absurd ht (by omega), hc,
      le_refl i, by show i ≤ i + 0; omega, ?_⟩
    simp [segVal, subCarryLoop]
  | succ c ih =>
    intro w i carry hlen hc hb
    by_cases hc0 : carry = 0
    · subst hc0
      have hstep : subCarryLoop (c+1) w i 0 = (w, i, 0) := rfl
      rw [hstep]
      exact ⟨rfl, fun j _ => rfl, fun t ht => hb t ht, Or.inl rfl,
        le_refl i, by show i ≤ i + (c+1); omega, by simp⟩
    · have hcm1 : carry = -1 := by rcases hc with h | h; exact absurd h hc0; exact h
      set word : Int := (w.getD i 0 : Int) + carry with hword
      have hwrange : -(2^32 : Int) ≤ word ∧ word < 2^32 := by
        have h1 := hb 0 (by omega)
        simp only [Nat.add_zero] at h1
        rw [W32_eq] at h1
        have h1z : (w.getD i 0 : Int) < 2^32 := by exact_mod_cast h1
        have h0 : (0:Int) ≤ (w.getD i 0 : Int) := Int.natCast_nonneg _
        omega
      have hstep : subCarryLoop (c+1) w i carry
          = subCarryLoop c (w.set i (word % (W32:Int)).toNat) (i+1) (word / (W32:Int)) := by
        show (if carry = 0 then _ else _) = _
        rw [if_neg hc0]
      have hlen2 : (i+1) + c ≤ (w.set i (word % (W32:Int)).toNat).length := by
        rw [List.length_set]; omega
      have hWcast : (W32:Int) = 2^32 := by norm_num [W32_eq]
      have hcarry2 : word / (W32:Int) = 0 ∨ word / (W32:Int) = -1 := by
        rw [hWcast]
        rcases hwrange with ⟨hlo, hhi⟩
        omega
      have hb2 : ∀ t, t < c → (w.set i (word % (W32:Int)).toNat).getD (i+1+t) 0 < W32 := by
        intro t ht
        rw [getD_set_other w (by omega)]
        have := hb (t+1) (by omega)
        have harr : i + (t+1) = i + 1 + t := by omega
        rwa [harr] at this
      obtain ⟨ihlen, ihframe, ihbound, ihcar, ihi1, ihi2, ihval⟩ :=
        ih (w.set i (word % (W32:Int)).toNat) (i+1) (word / (W32:Int)) hlen2 hcarry2 hb2
      rw [hstep]
      have hmodlt : (word % (W32:Int)).toNat < W32 := by
        have h2 : word % (W32:Int) < (W32:Int) := Int.emod_lt_of_pos word (by exact_mod_cast W32_pos)
        have h3 : (0:Int) ≤ word % (W32:Int) := Int.emod_nonneg word (by simp [W32_eq])
        omega
      refine ⟨by rw [ihlen, List.length_set], ?_, ?_, ihcar, by omega, by omega, ?_⟩
      · intro j hj
        rw [ihframe j (by omega), getD_set_other w (by omega)]
      · intro t ht
        rcases Nat.eq_zero_or_pos t with h0 | h0
        · subst h0
          simp only [Nat.add_zero]
          rw [ihframe i (Or.inl (by omega)), getD_set_self (by omega)]
          exact hmodlt
        · have := ihbound (t-1) (by omega)
          have harr : i + 1 + (t - 1) = i + t := by omega
          rwa [harr] at this
      · have hlow : (subCarryLoop c (w.set i (word % (W32:Int)).toNat) (i+1) (word / (W32:Int))).1.getD i 0
            = (word % (W32:Int)).toNat := by
          rw [ihframe i (Or.inl (by omega)), getD_set_self (by omega)]
        have hseg : segVal (w.set i (word % (W32:Int)).toNat) (i+1) c = segVal w (i+1) c :=
          segVal_set_out _ c (i+1) (Or.inl (by omega))
        have hexp : segVal (subCarryLoop c (w.set i (word % (W32:Int)).toNat) (i+1) (word / (W32:Int))).1 i (c+1)
            = (word % (W32:Int)).toNat
              + 2 ^ 32 * segVal (subCarryLoop c (w.set i (word % (W32:Int)).toNat) (i+1) (word / (W32:Int))).1 (i+1) c := by
          show _ + 2^32 * _ = _
          rw [hlow]
        have hv := ihval
        rw [hseg] at hv
        have htn : ((word % (W32:Int)).toNat : Int) = word % (W32:Int) := by
          have h3 : (0:Int) ≤ word % (W32:Int) := Int.emod_nonneg word (by simp [W32_eq])
          omega
        have hz1 : (segVal (subCarryLoop c (w.set i (word % (W32:Int)).toNat) (i+1) (word / (W32:Int))).1 i (c+1) : Int)
            = ((word % (W32:Int)).toNat : Int)
              + 2^32 * (segVal (subCarryLoop c (w.set i (word % (W32:Int)).toNat) (i+1) (word / (W32:Int))).1 (i+1) c : Int) := by
          rw [hexp]; push_cast; ring
        have hz2 : (segVal w i (c+1) : Int) = (w.getD i 0 : Int) + 2^32 * (segVal w (i+1) c : Int) := by
          show ((segVal w i (c+1) : Nat) : Int) = _
          rw [show segVal w i (c+1) = w.getD i 0 + 2^32 * segVal w (i+1) c from rfl]
          push_cast; ring
        have e32 : ((2:Int))^(32*(c+1)) = 2^32 * 2^(32*c) := by
          rw [show (32:Nat)*(c+1) = 32 + 32*c by ring, pow_add]
        have hdm : (W32:Int) * (word / (W32:Int)) + word % (W32:Int) = word :=
          Int.ediv_add_emod word (W32:Int)
        rw [hz1, hz2, e32, htn]
        generalize hq : word / (W32:Int) = q at hv hdm
        generalize hr : word % (W32:Int) = r at hv hdm ⊢
        rw [hWcast] at hdm
        linear_combination (2^32:Int) * hv + hdm + hword

/-! ## strip, magnitude bounds, comparison -/

theorem stripLoop_le (w : List Nat) : ∀ n, stripLoop w n ≤ n := by
  intro n
  induction n using Nat.strong_induction_on with
  | _ n ih =>
    match n with
    | 0 => exact le_refl 0
    | 1 => exact le_refl 1
    | n+2 =>
      show (if w.getD (n+1) 0 = 0 then stripLoop w (n+1) else n+2) ≤ n+2
      split
      · have := ih (n+1) (by omega)
        omega
      · exact le_refl _

theorem stripLoop_pos (w : List Nat) : ∀ n, 1 ≤ n → 1 ≤ stripLoop w n := by
  intro n
  induction n using Nat.strong_induction_on with
  | _ n ih =>
    match n with
    | 0 => intro h; omega
    | 1 => intro _; exact le_refl 1
    | n+2 =>
      intro _
      show 1 ≤ if w.getD (n+1) 0 = 0 then stripLoop w (n+1) else n+2
      split
      · exact ih (n+1) (by omega) (by omega)
      · omega

theorem stripLoop_val (w : List Nat) : ∀ n, wordsVal w (stripLoop w n) = wordsVal w n := by
  intro n
  induction n using Nat.strong_induction_on with
  | _ n ih =>
    match n with
    | 0 => rfl
    | 1 => rfl
    | n+2 =>
      show wordsVal w (if w.getD (n+1) 0 = 0 then stripLoop w (n+1) else n+2) = wordsVal w (n+2)
      split
      · next hz =>
        rw [ih (n+1) (by omega)]
        show wordsVal w (n+1) = wordsVal w (n+1) + w.getD (n+1) 0 * 2 ^ (32*(n+1))
        rw [hz]
        omega
      · rfl

theorem stripLoop_stripped (w : List Nat) :
    ∀ n, 1 ≤ n → stripLoop w n = 1 ∨ w.getD (stripLoop w n - 1) 0 ≠ 0 := by
  intro n
  induction n using Nat.strong_induction_on with
  | _ n ih =>
    match n with
    | 0 => intro h; omega
    | 1 => intro _; left; rfl
    | n+2 =>
      intro _
      show stripLoop w (n+2) = 1 ∨ w.getD (stripLoop w (n+2) - 1) 0 ≠ 0
      by_cases hz : w.getD (n+1) 0 = 0
      · have hred : stripLoop w (n+2) = stripLoop w (n+1) := by
          show (if w.getD (n+1) 0 = 0 then stripLoop w (n+1) else n+2) = _
          rw [if_pos hz]
        rw [hred]
        exact ih (n+1) (by omega) (by omega)
      · have hred : stripLoop w (n+2) = n+2 := by
          show (if w.getD (n+1) 0 = 0 then stripLoop w (n+1) else n+2) = _
          rw [if_neg hz]
        rw [hred]
        right
        simpa using hz

theorem getD_lt_of_all {w : List Nat} (h : ∀ x ∈ w, x < W32) (i : Nat) : w.getD i 0 < W32 := by
  by_cases hi : i < w.length
  · have : w.getD i 0 = w.get ⟨i, hi⟩ := by
      rw [List.getD_eq_getElem?_getD, List.getElem?_eq_getElem hi]
      rfl
    rw [this]
    exact h _ (List.get_mem w i hi)
  · rw [List.getD_eq_getElem?_getD, List.getElem?_eq_none (by omega)]
    exact W32_pos

theorem wf_word_lt {b : BigNum} (h : Wf b) (i : Nat) : b.words.getD i 0 < W32 :=
  getD_lt_of_all h.2.2.2 i

theorem magVal_lt {b : BigNum} (h : Wf b) : magVal b < 2 ^ (32 * b.len) := by
  rw [magVal, wordsVal_eq_segVal]
  exact segVal_lt b.len 0 (fun t _ => by simpa only [Nat.zero_add] using wf_word_lt h t)

theorem magVal_top (b : BigNum) (h1 : 1 ≤ b.len) :
    magVal b = wordsVal b.words (b.len - 1) + wget b (b.len - 1) * 2 ^ (32 * (b.len - 1)) := by
  have h2 : b.len = (b.len - 1) + 1 := by omega
  rw [magVal]
  conv_lhs => rw [h2]
  rfl

theorem magVal_ge_stripped {b : BigNum} (hs : Stripped b) (h2 : 2 ≤ b.len) :
    2 ^ (32 * (b.len - 1)) ≤ magVal b := by
  rcases hs with h | h
  · omega
  · rw [magVal_top b (by omega)]
    have : 1 ≤ wget b (b.len - 1) := by omega
    calc 2 ^ (32 * (b.len - 1)) = 1 * 2 ^ (32 * (b.len - 1)) := by ring
      _ ≤ wget b (b.len - 1) * 2 ^ (32 * (b.len - 1)) := Nat.mul_le_mul_right _ this
      _ ≤ _ := Nat.le_add_left _ _

/-- A value lower bound forces a nonzero top word. -/
theorem stripped_of_ge {b : BigNum} (h : Wf b) (hge : 2 ^ (32 * (b.len - 1)) ≤ magVal b) :
    Stripped b := by
  rcases Nat.eq_or_lt_of_le h.2.1 with h1 | h1
  · exact Or.inl h1.symm
  · right
    intro hz
    have hv := magVal_top b (by omega)
    rw [hz] at hv
    simp at hv
    have hlt : wordsVal b.words (b.len - 1) < 2 ^ (32 * (b.len - 1)) := by
      rw [wordsVal_eq_segVal]
      exact segVal_lt _ 0 (fun t _ => by simpa only [Nat.zero_add] using wf_word_lt h t)
    omega

theorem normSign_id {b : BigNum} (h : 1 ≤ b.len) : BigNum.normSign b = b := by
  rw [BigNum.normSign, if_neg]
  intro hc
  omega

theorem zeroRange_length : ∀ (c : Nat) (w : List Nat) (i : Nat),
    (zeroRange w i c).length = w.length := by
  intro c
  induction c with
  | zero => intro w i; rfl
  | succ c ih =>
    intro w i
    show (zeroRange (w.set i 0) (i+1) c).length = w.length
    rw [ih (w.set i 0) (i+1), List.length_set]

theorem zeroRange_getD_out : ∀ (c : Nat) (w : List Nat) (i j : Nat), (j < i ∨ i + c ≤ j) →
    (zeroRange w i c).getD j 0 = w.getD j 0 := by
  intro c
  induction c with
  | zero => intro w i j _; rfl
  | succ c ih =>
    intro w i j hj
    show (zeroRange (w.set i 0) (i+1) c).getD j 0 = w.getD j 0
    rw [ih (w.set i 0) (i+1) j (by omega), getD_set_other w (by omega)]

theorem zeroRange_getD_in : ∀ (c : Nat) (w : List Nat) (i j : Nat),
    i ≤ j → j < i + c → j < w.length → (zeroRange w i c).getD j 0 = 0 := by
  intro c
  induction c with
  | zero => intro w i j _ h2 _; omega
  | succ c ih =>
    intro w i j h1 h2 h3
    show (zeroRange (w.set i 0) (i+1) c).getD j 0 = 0
    rcases Nat.eq_or_lt_of_le h1 with he | hlt
    · subst he
      rw [zeroRange_getD_out c (w.set i 0) (i+1) i (by omega), getD_set_self h3]
    · exact ih (w.set i 0) (i+1) j (by omega) (by omega) (by rw [List.length_set]; omega)

theorem zeroRange_all_lt {w : List Nat} (h : ∀ x ∈ w, x < W32) :
    ∀ (c i : Nat) (j : Nat), (zeroRange w i c).getD j 0 < W32 := by
  intro c i j
  by_cases hin : i ≤ j ∧ j < i + c ∧ j < w.length
  · rw [zeroRange_getD_in c w i j hin.1 hin.2.1 hin.2.2]
    exact W32_pos
  · by_cases hout : j < i ∨ i + c ≤ j
    · rw [zeroRange_getD_out c w i j hout]
      exact getD_lt_of_all h j
    · have hj : j ≥ w.length := by omega
      rw [List.getD_eq_getElem?_getD, List.getElem?_eq_none (by rw [zeroRange_length]; omega)]
      exact W32_pos

theorem segVal_zero {w : List Nat} : ∀ (c i : Nat), (∀ t, t < c → w.getD (i+t) 0 = 0) →
    segVal w i c = 0 := by
  intro c
  induction c with
  | zero => intro i _; rfl
  | succ c ih =>
    intro i h
    show w.getD i 0 + 2 ^ 32 * segVal w (i+1) c = 0
    have h0 := h 0 (by omega)
    simp only [Nat.add_zero] at h0
    rw [h0, ih (i+1) (fun t ht => by
      have := h (t+1) (by omega)
      rwa [show i + (t+1) = i + 1 + t by omega] at this)]
    omega

theorem all_lt_of_getD {w : List Nat} (h : ∀ j, w.getD j 0 < W32) : ∀ x ∈ w, x < W32 := by
  intro x hx
  obtain ⟨n, hn⟩ := List.mem_iff_get.mp hx
  have hgd : w.getD n 0 = w.get n := by
    rw [List.getD_eq_getElem?_getD, List.getElem?_eq_getElem n.isLt]
    rfl
  rw [← hn, ← hgd]
  exact h n

theorem addMag_spec {a0 b : BigNum} (ha : Wf a0) (hb : Wf b)
    (hbound : magVal a0 + magVal b < 2 ^ 512) :
    Wf (BigNum.addMag a0 b) ∧
    (BigNum.addMag a0 b).negative = a0.negative ∧
    magVal (BigNum.addMag a0 b) = magVal a0 + magVal b ∧
    max a0.len b.len ≤ (BigNum.addMag a0 b).len ∧
    ((BigNum.addMag a0 b).len = max a0.len b.len ∨
      ((BigNum.addMag a0 b).len = max a0.len b.len + 1 ∧
        2 ^ (32 * max a0.len b.len) ≤ magVal (BigNum.addMag a0 b))) := by
  obtain ⟨ha1, ha2, ha3, ha4⟩ := ha
  obtain ⟨hb1, hb2, hb3, hb4⟩ := hb
  have ha : Wf a0 := ⟨ha1, ha2, ha3, ha4⟩
  have hb : Wf b := ⟨hb1, hb2, hb3, hb4⟩
  set L := max a0.len b.len with hL
  set a : BigNum := if b.len > a0.len then
      { a0 with words := zeroRange a0.words a0.len (b.len - a0.len), len := b.len }
    else a0 with hadef
  have haw : a.words.length = 16 ∧ a.len = L ∧ a.negative = a0.negative ∧
      (∀ j, a.words.getD j 0 < W32) ∧ segVal a.words 0 L = magVal a0 := by
    rw [hadef]
    split
    · next hgt =>
      refine ⟨by rw [zeroRange_length]; exact ha.1, by simp; omega, rfl, ?_, ?_⟩
      · intro j
        exact zeroRange_all_lt ha.2.2.2 _ _ _
      · show segVal (zeroRange a0.words a0.len (b.len - a0.len)) 0 L = magVal a0
        have hsplit := segVal_split (zeroRange a0.words a0.len (b.len - a0.len))
          a0.len (L - a0.len) 0
        rw [show a0.len + (L - a0.len) = L by omega] at hsplit
        rw [hsplit]
        have h1 : segVal (zeroRange a0.words a0.len (b.len - a0.len)) 0 a0.len
            = segVal a0.words 0 a0.len :=
          segVal_congr _ _ (fun t ht => zeroRange_getD_out _ _ _ _ (by omega))
        have h2 : segVal (zeroRange a0.words a0.len (b.len - a0.len)) (0 + a0.len) (L - a0.len)
            = 0 := by
          apply segVal_zero
          intro t ht
          apply zeroRange_getD_in
          · omega
          · omega
          · rw [ha.1]; omega
        rw [h1, h2, magVal, wordsVal_eq_segVal]
        omega
    · next hle =>
      refine ⟨ha.1, by omega, rfl, fun j => getD_lt_of_all ha.2.2.2 j, ?_⟩
      rw [show L = a0.len by omega, magVal, wordsVal_eq_segVal]
  obtain ⟨hlen16, hlenL, hneg, hwlt, hval⟩ := haw
  have hblen : b.len ≤ L := by omega
  have hstep : BigNum.addMag a0 b =
      (let r1 := addWordsLoop b.words b.len a.words 0 0
       let r2 := addCarryLoop (a.len - b.len) r1.1 b.len r1.2
       if r2.2.2 ≠ 0 then { a with words := r2.1.set a.len (r2.2.2 % W32), len := a.len + 1 }
       else { a with words := r2.1 }) := by
    rw [BigNum.addMag]
  rw [hstep]
  obtain ⟨l1len, l1frame, l1bound, l1val⟩ :=
    addWordsLoop_spec b.words b.len a.words 0 0 (by rw [hlen16]; omega)
  obtain ⟨l2len, l2frame, l2bound, l2val⟩ :=
    addCarryLoop_spec (a.len - b.len) (addWordsLoop b.words b.len a.words 0 0).1 b.len
      (addWordsLoop b.words b.len a.words 0 0).2 (by rw [l1len, hlen16, hlenL]; omega)
  set w1 := (addWordsLoop b.words b.len a.words 0 0).1 with hw1
  set c1 := (addWordsLoop b.words b.len a.words 0 0).2 with hc1
  set w2 := (addCarryLoop (a.len - b.len) w1 b.len c1).1 with hw2
  set c2 := (addCarryLoop (a.len - b.len) w1 b.len c1).2.2 with hc2
  simp only [Nat.zero_add, Nat.add_zero] at l1val l2val l1frame l2frame l1bound l2bound
  -- segment values of the a side
  have hasplit : segVal a.words 0 L = segVal a.words 0 b.len
      + 2 ^ (32 * b.len) * segVal a.words b.len (L - b.len) := by
    have := segVal_split a.words b.len (L - b.len) 0
    rw [show b.len + (L - b.len) = L by omega] at this
    simpa using this
  have hmagb : segVal b.words 0 b.len = magVal b := by
    rw [magVal, wordsVal_eq_segVal]
  -- transfer loop2 base through loop1 frame
  have hseg12 : segVal w1 b.len (L - b.len) = segVal a.words b.len (L - b.len) :=
    segVal_congr _ _ (fun t ht => l1frame (b.len + t) (by omega))
  have hlenLa : a.len - b.len = L - b.len := by omega
  rw [hlenLa] at l2val l2frame l2bound
  -- total value identity
  have hsplit2 : segVal w2 0 L = segVal w2 0 b.len
      + 2 ^ (32 * b.len) * segVal w2 b.len (L - b.len) := by
    have := segVal_split w2 b.len (L - b.len) 0
    rw [show b.len + (L - b.len) = L by omega] at this
    simpa using this
  have hseg22 : segVal w2 0 b.len = segVal w1 0 b.len :=
    segVal_congr _ _ (fun t ht => by
      simpa only [Nat.zero_add] using l2frame t (Or.inl ht))
  have hc1le : c1 ≤ 1 := by
    have hsa : segVal a.words 0 b.len < 2 ^ (32 * b.len) :=
      segVal_lt _ _ (fun t _ => by simpa only [Nat.zero_add] using hwlt t)
    have hsb : segVal b.words 0 b.len < 2 ^ (32 * b.len) :=
      segVal_lt _ _ (fun t _ => by
        simpa only [Nat.zero_add] using getD_lt_of_all hb.2.2.2 t)
    by_contra hgt
    have h2 : 2 ≤ c1 := by omega
    have : 2 * 2 ^ (32 * b.len) ≤ c1 * 2 ^ (32 * b.len) :=
      Nat.mul_le_mul_right _ h2
    omega
  have hc2le : c2 ≤ 1 := by
    rcases Nat.eq_zero_or_pos (L - b.len) with h0 | h0
    · rw [h0] at l2val
      simp [segVal] at l2val
      omega
    · have hsw : segVal w1 b.len (L - b.len) < 2 ^ (32 * (L - b.len)) := by
        rw [hseg12]
        exact segVal_lt _ _ (fun t _ => hwlt (b.len + t))
      by_contra hgt
      have h2 : 2 ≤ c2 := by omega
      have h3 : 2 * 2 ^ (32 * (L - b.len)) ≤ c2 * 2 ^ (32 * (L - b.len)) :=
        Nat.mul_le_mul_right _ h2
      have h4 : (2:Nat)^32 ≤ 2 ^ (32 * (L - b.len)) :=
        Nat.pow_le_pow_right (by omega) (by omega)
      omega
  have htotal : segVal w2 0 L + c2 * 2 ^ (32 * L) = magVal a0 + magVal b := by
    have e1 : (2:Nat) ^ (32 * b.len) * 2 ^ (32 * (L - b.len)) = 2 ^ (32 * L) := by
      rw [← pow_add]
      congr 1
      omega
    have hA : 2 ^ (32 * b.len) * segVal w2 b.len (L - b.len) + c2 * 2 ^ (32 * L)
        = 2 ^ (32 * b.len) * segVal a.words b.len (L - b.len) + c1 * 2 ^ (32 * b.len) := by
      have hmul := congrArg (fun z => 2 ^ (32 * b.len) * z) l2val
      simp only [Nat.mul_add] at hmul
      rw [hseg12] at hmul
      calc 2 ^ (32 * b.len) * segVal w2 b.len (L - b.len) + c2 * 2 ^ (32 * L)
          = 2 ^ (32 * b.len) * segVal w2 b.len (L - b.len)
            + 2 ^ (32 * b.len) * (c2 * 2 ^ (32 * (L - b.len))) := by rw [← e1]; ring
        _ = 2 ^ (32 * b.len) * segVal a.words b.len (L - b.len)
            + 2 ^ (32 * b.len) * c1 := hmul
        _ = 2 ^ (32 * b.len) * segVal a.words b.len (L - b.len)
            + c1 * 2 ^ (32 * b.len) := by ring
    omega
  have hwlt2 : ∀ j, w2.getD j 0 < W32 := by
    intro j
    by_cases hj1 : j < b.len
    · rw [l2frame j (by omega)]
      exact l1bound j (by omega)
    · by_cases hj2 : j < L
      · rcases l2bound (j - b.len) (by omega) with hlt | heq
        · rwa [show b.len + (j - b.len) = j by omega] at hlt
        · rw [show b.len + (j - b.len) = j by omega] at heq
          rw [heq, l1frame j (by omega)]
          exact hwlt j
      · rw [l2frame j (by omega), l1frame j (by omega)]
        exact hwlt j
  have hw2len : w2.length = 16 := by rw [l2len, l1len, hlen16]
  have hLle : L ≤ 16 := by omega
  by_cases hcz : c2 ≠ 0
  · -- carry: extend by one word
    have hc21 : c2 = 1 := by omega
    have hL15 : L < 16 := by
      by_contra hgt
      have h16 : L = 16 := by omega
      rw [h16] at htotal
      have : (2:Nat) ^ (32 * 16) = 2 ^ 512 := by norm_num
      rw [this, hc21] at htotal
      omega
    rw [if_pos (by rw [← hc2]; exact hcz)]
    have hsetself : (w2.set a.len (c2 % W32)).getD a.len 0 = c2 % W32 :=
      getD_set_self (by rw [hw2len]; omega) _
    have hmagr : magVal { a with words := w2.set a.len (c2 % W32), len := a.len + 1 }
        = magVal a0 + magVal b := by
      show wordsVal (w2.set a.len (c2 % W32)) (a.len + 1) = _
      rw [wordsVal_eq_segVal, segVal_succ_top _ _ 0]
      simp only [Nat.zero_add]
      have hseg : segVal (w2.set a.len (c2 % W32)) 0 a.len = segVal w2 0 a.len :=
        segVal_set_out _ _ _ (Or.inr (by omega))
      rw [hseg, hsetself, hlenL]
      have : c2 % W32 = c2 := Nat.mod_eq_of_lt (by rw [W32_eq]; omega)
      rw [this, ← htotal]
    refine ⟨?_, hneg, hmagr, by simp [hlenL] <;> omega, ?_⟩
    · refine ⟨by rw [List.length_set, hw2len], by simp <;> omega,
        by simp [hlenL] <;> omega, ?_⟩
      intro x hx
      rcases List.mem_or_eq_of_mem_set hx with h | h
      · exact all_lt_of_getD hwlt2 x h
      · rw [h]
        exact Nat.mod_lt _ W32_pos
    · right
      constructor
      · show a.len + 1 = L + 1
        omega
      · rw [hmagr, ← htotal, hc21]
        omega
  · rw [if_neg (by rw [← hc2]; exact fun hk => hcz hk)]
    push_neg at hcz
    have hmagr : magVal { a with words := w2 } = magVal a0 + magVal b := by
      show wordsVal w2 a.len = _
      rw [wordsVal_eq_segVal, hlenL, ← htotal, hcz]
      ring
    refine ⟨?_, hneg, hmagr, by simp [hlenL], Or.inl (by simp [hlenL])⟩
    refine ⟨hw2len, by simp <;> omega, by simp [hlenL] <;> omega, ?_⟩
    exact all_lt_of_getD hwlt2

/-! ## Modular exponentiation and the primality of p -/

theorem modPowAux_eq : ∀ f b e n, e ≤ f → modPowAux f b e n = b ^ e % n := by
  intro f
  induction f with
  | zero =>
    intro b e n he
    have : e = 0 := by omega
    subst this
    simp [modPowAux]
  | succ f ih =>
    intro b e n he
    by_cases h0 : e = 0
    · subst h0; simp [modPowAux]
    · have hrec : e / 2 ≤ f := by omega
      have hbb : modPowAux f (b * b % n) (e / 2) n = (b * b) ^ (e / 2) % n := by
        rw [ih _ _ _ hrec, ← Nat.pow_mod]
      by_cases hodd : e % 2 = 1
      · have hstep : modPowAux (f+1) b e n = b * modPowAux f (b * b % n) (e / 2) n % n := by
          show (if e = 0 then _ else _) = _
          rw [if_neg h0, if_pos hodd]
        rw [hstep, hbb]
        have h1 : b * ((b*b)^(e/2) % n) % n = b * (b*b)^(e/2) % n := by
          conv_rhs => rw [Nat.mul_mod]
          rw [Nat.mul_mod b ((b*b)^(e/2) % n) n, Nat.mod_mod_of_dvd _ (dvd_refl n)]
        rw [h1]
        have h2 : b * (b*b)^(e/2) = b ^ e := by
          rw [show b*b = b^2 by ring, ← Nat.pow_mul]
          rw [show b * b ^ (2 * (e/2)) = b ^ (1 + 2*(e/2)) by rw [Nat.pow_add, Nat.pow_one]]
          congr 1
          omega
        rw [h2]
      · have hstep : modPowAux (f+1) b e n = modPowAux f (b * b % n) (e / 2) n := by
          show (if e = 0 then _ else _) = _
          rw [if_neg h0, if_neg hodd]
        rw [hstep, hbb]
        have h2 : (b*b)^(e/2) = b ^ e := by
          have hb2 : b * b = b ^ 2 := by ring
          rw [hb2, ← Nat.pow_mul]
          congr 1
          omega
        rw [h2]

theorem modPow_eq (b e n : Nat) : modPow b e n = b ^ e % n :=
  modPowAux_eq e b e n (le_refl e)

theorem zmod_pow_eq_one {n : Nat} (g e : Nat) (hn : 1 < n) (h : modPow g e n = 1) :
    ((g : ℕ) : ZMod n) ^ e = 1 := by
  have h2 : g ^ e ≡ 1 [MOD n] := by
    show g ^ e % n = 1 % n
    rw [← modPow_eq, h, Nat.mod_eq_of_lt hn]
  calc ((g : ℕ) : ZMod n) ^ e = ((g ^ e : ℕ) : ZMod n) := by push_cast; ring
    _ = ((1 : ℕ) : ZMod n) := (ZMod.natCast_eq_natCast_iff _ _ _).mpr h2
    _ = 1 := Nat.cast_one

theorem zmod_pow_ne_one {n : Nat} (g e : Nat) (hn : 1 < n) (h : modPow g e n ≠ 1) :
    ((g : ℕ) : ZMod n) ^ e ≠ 1 := by
  intro contra
  apply h
  have h2 : ((g ^ e : ℕ) : ZMod n) = ((1 : ℕ) : ZMod n) := by
    push_cast
    rw [contra]
  have h3 : g ^ e ≡ 1 [MOD n] := (ZMod.natCast_eq_natCast_iff _ _ _).mp h2
  have h4 : g ^ e % n = 1 % n := h3
  rw [modPow_eq, h4, Nat.mod_eq_of_lt hn]

/-- Divisors of a product of listed prime powers are among the listed primes. -/
theorem prime_dvd_prod_list {q : Nat} (hq : q.Prime) :
    ∀ (qs : List (Nat × Nat)), (∀ p ∈ qs, (p.1).Prime) →
      q ∣ (qs.map (fun p => p.1 ^ p.2)).prod → ∃ p ∈ qs, q = p.1 := by
  intro qs
  induction qs with
  | nil =>
    intro _ hdvd
    simp at hdvd
    exact absurd hdvd (Nat.Prime.ne_one hq)
  | cons hd tl ih =>
    intro hprimes hdvd
    simp only [List.map_cons, List.prod_cons] at hdvd
    rcases (Nat.Prime.dvd_mul hq).mp hdvd with h1 | h1
    · have hhd := hprimes hd (List.mem_cons_self hd tl)
      have : q ∣ hd.1 := Nat.Prime.dvd_of_dvd_pow hq h1
      have : q = hd.1 := (Nat.prime_dvd_prime_iff_eq hq hhd).mp this
      exact ⟨hd, List.mem_cons_self hd tl, this⟩
    · obtain ⟨p, hp, hqp⟩ := ih (fun p hp => hprimes p (List.mem_cons_of_mem hd hp)) h1
      exact ⟨p, List.mem_cons_of_mem hd hp, hqp⟩

/-- Lucas primality from a fully factored n-1 and a computational witness. -/
theorem prime_of_lucas_cert (n g : Nat) (qs : List (Nat × Nat))
    (hn : 1 < n)
    (hfac : n - 1 = (qs.map (fun p => p.1 ^ p.2)).prod)
    (hqs : ∀ p ∈ qs, (p.1).Prime)
    (hg1 : modPow g (n - 1) n = 1)
    (hgq : ∀ p ∈ qs, modPow g ((n - 1) / p.1) n ≠ 1) :
    n.Prime := by
  apply lucas_primality n ((g : ℕ) : ZMod n)
  · exact zmod_pow_eq_one g (n-1) hn hg1
  · intro q hq hdvd
    rw [hfac] at hdvd
    obtain ⟨p, hp, rfl⟩ := prime_dvd_prod_list hq qs hqs hdvd
    exact zmod_pow_ne_one _ _ hn (hgq p hp)

set_option maxRecDepth 100000 in
set_option maxHeartbeats 1000000 in
theorem prime_13331831 : Nat.Prime 13331831 := by
  apply prime_of_lucas_cert 13331831 13 [(2,1),(5,1),(971,1),(1373,1)]
  · norm_num
  · decide
  · intro p hp
    fin_cases hp <;> norm_num
  · decide
  · intro p hp
    fin_cases hp <;> decide

set_option maxRecDepth 100000 in
set_option maxHeartbeats 1000000 in
theorem prime_q58 : Nat.Prime 173378833005251801 := by
  apply prime_of_lucas_cert 173378833005251801 6 [(2,3),(5,2),(2621,1),(24809,1),(13331831,1)]
  · norm_num
  · decide
  · intro p hp
    fin_cases hp <;> first | exact prime_13331831 | norm_num
  · decide
  · intro p hp
    fin_cases hp <;> decide

set_option maxRecDepth 100000 in
set_option maxHeartbeats 1000000 in
theorem prime_107590001 : Nat.Prime 107590001 := by
  apply prime_of_lucas_cert 107590001 3 [(2,4),(5,4),(7,1),(29,1),(53,1)]
  · norm_num
  · decide
  · intro p hp
    fin_cases hp <;> norm_num
  · decide
  · intro p hp
    fin_cases hp <;> decide

theorem prime_20113 : Nat.Prime 20113 := by norm_num

set_option maxRecDepth 100000 in
set_option maxHeartbeats 1000000 in
theorem prime_1206781 : Nat.Prime 1206781 := by
  apply prime_of_lucas_cert 1206781 10 [(2,2),(3,1),(5,1),(20113,1)]
  · norm_num
  · decide
  · intro p hp
    fin_cases hp <;> first | exact prime_20113 | norm_num
  · decide
  · intro p hp
    fin_cases hp <;> decide

set_option maxRecDepth 100000 in
set_option maxHeartbeats 1000000 in
theorem prime_7240687 : Nat.Prime 7240687 := by
  apply prime_of_lucas_cert 7240687 3 [(2,1),(3,1),(1206781,1)]
  · norm_num
  · decide
  · intro p hp
    fin_cases hp <;> first | exact prime_1206781 | norm_num
  · decide
  · intro p hp
    fin_cases hp <;> decide

set_option maxRecDepth 100000 in
set_option maxHeartbeats 1000000 in
theorem prime_q128 : Nat.Prime 255515944373312847190720520512484175977 := by
  apply prime_of_lucas_cert 255515944373312847190720520512484175977 3
    [(2,3),(7,2),(11,1),(1627,1),(2657,1),(4423,1),(41201,1),(96557,1),(7240687,1),(107590001,1)]
  · norm_num
  · decide
  · intro p hp
    fin_cases hp <;> first | exact prime_7240687 | exact prime_107590001 | norm_num
  · decide
  · intro p hp
    fin_cases hp <;> decide

set_option maxRecDepth 100000 in
set_option maxHeartbeats 1000000 in
theorem prime_q75 : Nat.Prime 22149492674086928081353 := by
  apply prime_of_lucas_cert 22149492674086928081353 5
    [(2,3),(3,1),(5323,1),(173378833005251801,1)]
  · norm_num
  · decide
  · intro p hp
    fin_cases hp <;> first | exact prime_q58 | norm_num
  · decide
  · intro p hp
    fin_cases hp <;> decide

set_option maxRecDepth 100000 in
set_option maxHeartbeats 1000000 in
theorem prime_q77 : Nat.Prime 132896956044521568488119 := by
  apply prime_of_lucas_cert 132896956044521568488119 6
    [(2,1),(3,1),(22149492674086928081353,1)]
  · norm_num
  · decide
  · intro p hp
    fin_cases hp <;> first | exact prime_q75 | norm_num
  · decide
  · intro p hp
    fin_cases hp <;> decide

set_option maxRecDepth 100000 in
set_option maxHeartbeats 1000000 in
theorem prime_r237 :
    Nat.Prime 205115282021455665897114700593932402728804164701536103180137503955397371 := by
  apply prime_of_lucas_cert
    205115282021455665897114700593932402728804164701536103180137503955397371 10
    [(2,1),(3,1),(5,1),(29,2),(31,1),(7723,1),(132896956044521568488119,1),
     (255515944373312847190720520512484175977,1)]
  · norm_num
  · decide
  · intro p hp
    fin_cases hp <;> first | exact prime_q77 | exact prime_q128 | norm_num
  · decide
  · intro p hp
    fin_cases hp <;> decide

set_option maxRecDepth 100000 in
set_option maxHeartbeats 1000000 in
theorem prime_secp : Nat.Prime
    115792089237316195423570985008687907853269984665640564039457584007908834671663 := by
  apply prime_of_lucas_cert
    115792089237316195423570985008687907853269984665640564039457584007908834671663 3
    [(2,1),(3,1),(7,1),(13441,1),
     (205115282021455665897114700593932402728804164701536103180137503955397371,1)]
  · norm_num
  · decide
  · intro p hp
    fin_cases hp <;> first | exact prime_r237 | norm_num
  · decide
  · intro p hp
    fin_cases hp <;> decide

theorem pVal_prime : Nat.Prime pVal := by
  have : pVal =
      115792089237316195423570985008687907853269984665640564039457584007908834671663 := by
    decide
  rw [this]
  exact prime_secp

theorem strip_spec (b : BigNum) :
    magVal (BigNum.strip b) = magVal b ∧ (BigNum.strip b).len ≤ b.len ∧
    (1 ≤ b.len → 1 ≤ (BigNum.strip b).len ∧ Stripped (BigNum.strip b)) ∧
    (BigNum.strip b).words = b.words ∧ (BigNum.strip b).negative = b.negative := by
  refine ⟨stripLoop_val b.words b.len, stripLoop_le b.words b.len, ?_, rfl, rfl⟩
  intro h
  refine ⟨stripLoop_pos b.words b.len h, ?_⟩
  rcases stripLoop_stripped b.words b.len h with h1 | h1
  · exact Or.inl h1
  · exact Or.inr h1

/-! ## Comparison and equality lemmas -/

theorem compare_add_right (x y c : Nat) : compare (x + c) (y + c) = compare x y := by
  rcases Nat.lt_trichotomy x y with h | h | h
  · rw [Nat.compare_eq_lt.mpr h, Nat.compare_eq_lt.mpr (by omega)]
  · subst h
    rw [Nat.compare_eq_eq.mpr rfl, Nat.compare_eq_eq.mpr rfl]
  · rw [Nat.compare_eq_gt.mpr h, Nat.compare_eq_gt.mpr (by omega)]

theorem cmpWordsFrom_eq_compare {a b : List Nat}
    (ha : ∀ i, a.getD i 0 < W32) (hb : ∀ i, b.getD i 0 < W32) :
    ∀ n, cmpWordsFrom a b n = compare (segVal a 0 n) (segVal b 0 n) := by
  intro n
  induction n with
  | zero => rfl
  | succ n ih =>
    have hsa := segVal_succ_top a n 0
    have hsb := segVal_succ_top b n 0
    simp only [Nat.zero_add] at hsa hsb
    have hsalt : segVal a 0 n < 2 ^ (32 * n) :=
      segVal_lt n 0 (fun t _ => by simpa only [Nat.zero_add, ← W32_eq] using ha t)
    have hsblt : segVal b 0 n < 2 ^ (32 * n) :=
      segVal_lt n 0 (fun t _ => by simpa only [Nat.zero_add, ← W32_eq] using hb t)
    show (if compare (a.getD n 0) (b.getD n 0) ≠ Ordering.eq
        then compare (a.getD n 0) (b.getD n 0) else cmpWordsFrom a b n) = _
    rcases Nat.lt_trichotomy (a.getD n 0) (b.getD n 0) with h | h | h
    · rw [Nat.compare_eq_lt.mpr h, if_pos (by decide)]
      have h2 : (a.getD n 0 + 1) * 2 ^ (32*n) ≤ b.getD n 0 * 2 ^ (32*n) :=
        Nat.mul_le_mul_right _ (by omega)
      rw [Nat.add_mul, Nat.one_mul] at h2
      rw [Nat.compare_eq_lt.mpr (by omega)]
    · rw [Nat.compare_eq_eq.mpr h, if_neg (by decide), ih, hsa, hsb, h]
      exact (compare_add_right _ _ _).symm
    · rw [Nat.compare_eq_gt.mpr h, if_pos (by decide)]
      have h2 : (b.getD n 0 + 1) * 2 ^ (32*n) ≤ a.getD n 0 * 2 ^ (32*n) :=
        Nat.mul_le_mul_right _ (by omega)
      rw [Nat.add_mul, Nat.one_mul] at h2
      rw [Nat.compare_eq_gt.mpr (by omega)]

theorem cmp_eq_compare {a b : BigNum} (ha : Wf a) (hb : Wf b)
    (hsa : Stripped a) (hsb : Stripped b) :
    BigNum.cmp a b = compare (magVal a) (magVal b) := by
  rw [BigNum.cmp]
  by_cases hl : a.len = b.len
  · rw [if_neg (by omega), cmpWordsFrom_eq_compare (wf_word_lt ha) (wf_word_lt hb),
      magVal, magVal, wordsVal_eq_segVal, wordsVal_eq_segVal, hl]
  · rw [if_pos hl]
    rcases Nat.lt_or_ge a.len b.len with h | h
    · rw [Nat.compare_eq_lt.mpr h]
      have hma : magVal a < 2 ^ (32 * a.len) := magVal_lt ha
      have hmb : 2 ^ (32 * (b.len - 1)) ≤ magVal b := magVal_ge_stripped hsb (by
        have := ha.2.1
        omega)
      have hle : (2:Nat) ^ (32 * a.len) ≤ 2 ^ (32 * (b.len - 1)) :=
        Nat.pow_le_pow_right (by omega) (by omega)
      rw [Nat.compare_eq_lt.mpr (by omega)]
    · have hgt : b.len < a.len := by omega
      rw [Nat.compare_eq_gt.mpr hgt]
      have hmb : magVal b < 2 ^ (32 * b.len) := magVal_lt hb
      have hma : 2 ^ (32 * (a.len - 1)) ≤ magVal a := magVal_ge_stripped hsa (by
        have := hb.2.1
        omega)
      have hle : (2:Nat) ^ (32 * b.len) ≤ 2 ^ (32 * (a.len - 1)) :=
        Nat.pow_le_pow_right (by omega) (by omega)
      rw [Nat.compare_eq_gt.mpr (by omega)]

theorem magVal_len_one {b : BigNum} (h : b.len = 1) : magVal b = wget b 0 := by
  rw [magVal, h]
  show 0 + b.words.getD 0 0 * 2 ^ (32*0) = _
  simp [wget]

theorem cmpU32_eq_compare {b : BigNum} (hw : Wf b) (hs : Stripped b)
    {n : Nat} (hn : n < W32) :
    BigNum.cmpU32 b n = compare (magVal b) n := by
  rw [BigNum.cmpU32]
  by_cases hl : b.len > 1
  · rw [if_pos hl]
    have hmb : 2 ^ (32 * (b.len - 1)) ≤ magVal b := magVal_ge_stripped hs (by omega)
    have h32 : (2:Nat) ^ 32 ≤ 2 ^ (32 * (b.len - 1)) :=
      Nat.pow_le_pow_right (by omega) (by omega)
    rw [W32_eq] at hn
    rw [Nat.compare_eq_gt.mpr (by omega)]
  · rw [if_neg hl, magVal_len_one (by have := hw.2.1; omega), wget]

theorem eqU32_iff_mag {b : BigNum} (hw : Wf b) (hs : Stripped b)
    {n : Nat} (hn : n < W32) :
    BigNum.eqU32 b n = true ↔ magVal b = n := by
  rw [BigNum.eqU32]
  simp only [Bool.and_eq_true, beq_iff_eq]
  constructor
  · rintro ⟨hl, hv⟩
    rw [magVal_len_one hl, hv]
  · intro hm
    have hl : b.len = 1 := by
      by_contra hne
      have h2 : 2 ≤ b.len := by have := hw.2.1; omega
      have hmb := magVal_ge_stripped hs h2
      have h32 : (2:Nat) ^ 32 ≤ 2 ^ (32 * (b.len - 1)) :=
        Nat.pow_le_pow_right (by omega) (by omega)
      rw [W32_eq] at hn
      omega
    exact ⟨hl, by rw [← magVal_len_one hl, hm]⟩

/-! ## Byte encoding and decoding -/

theorem writeU32_readU32 (x y z t : Nat) (hx : x < 256) (hy : y < 256)
    (hz : z < 256) (ht : t < 256) :
    writeU32 (x * 2^24 + y * 2^16 + z * 2^8 + t) = [x, y, z, t] := by
  rw [writeU32]
  have e1 : (x * 2^24 + y * 2^16 + z * 2^8 + t) / 2^24 % 256 = x := by omega
  have e2 : (x * 2^24 + y * 2^16 + z * 2^8 + t) / 2^16 % 256 = y := by omega
  have e3 : (x * 2^24 + y * 2^16 + z * 2^8 + t) / 2^8 % 256 = z := by omega
  have e4 : (x * 2^24 + y * 2^16 + z * 2^8 + t) % 256 = t := by omega
  rw [e1, e2, e3, e4]

/-! ## Claim theorems settled by direct computation -/

/-- C1 (counterexample): red_reduce leaves the input p itself unchanged, so its
result is not strictly below p and the value p is not sent to 0.  The Equal
branch of the final comparison returns the operand without subtracting. -/
theorem redReduce_fixed_at_p :
    BigNum.redReduce Pbn = Pbn ∧ ¬ magVal (BigNum.redReduce Pbn) < pVal := by
  constructor
  · decide
  · decide

/-- C2: deriving the public key for the secret scalar 1 (32 big-endian bytes
ending in 0x01) through the generator-table multiplication and affine encoding
yields exactly the 65 bytes 0x04 followed by G.x and G.y big-endian. -/
theorem publicKey_of_one :
    (gMul (BigNum.fromBytes oneBytes)).1.toPublicKey = 4 :: (gxBytes ++ gyBytes) ∧
    ((gMul (BigNum.fromBytes oneBytes)).1.toPublicKey).length = 65 := by
  constructor
  · decide
  · decide

/-- C4 (violating computation): adding the BigNum -1 and the BigNum +1 yields a
zero of magnitude 0 whose negative flag is still set, so arithmetic does not
keep zero uniquely represented with negative = false: norm_sign tests len = 0,
which strip never produces, so the flag is never reset. -/
theorem addBN_negative_zero :
    (BigNum.addBN { ONE with negative := true } ONE).negative = true ∧
    magVal (BigNum.addBN { ONE with negative := true } ONE) = 0 := by
  constructor
  · decide
  · decide

/-- C5 (amended): whenever an affine operation on finite points produces the
point at infinity — adding a point to one with the same x and unequal y (the
P + (-P) case as the code tests it), or doubling a point whose doubled y
reduces to zero — the result is flagged inf = true, but its x and y
coordinates are carried over unchanged from the input point, not reset to
the canonical zero. -/
theorem ecInf_carries_coords (p q : ECPoint) (hp : p.inf = false) (hq : q.inf = false) :
    (BigNum.beqBN p.x q.x = true → BigNum.beqBN p.y q.y = false →
      (ECPoint.addPt p q).inf = true ∧
      (ECPoint.addPt p q).x = p.x ∧ (ECPoint.addPt p q).y = p.y) ∧
    ((BigNum.redAdd p.y p.y).eqU32 0 = true →
      (ECPoint.double p).inf = true ∧
      (ECPoint.double p).x = p.x ∧ (ECPoint.double p).y = p.y) := by
  constructor
  · intro hx hy
    rw [ECPoint.addPt]
    rw [hp, hq, hx, hy]
    simp
  · intro hyy
    rw [ECPoint.double]
    rw [hp]
    simp [hyy]

/-- Witness for ecInf_carries_coords at the points (1, 0) and (1, 1): the
pair exercises the addition branch (equal x, unequal y) and the left point
exercises the doubling branch (2 * 0 reduces to 0). -/
theorem ecInf_carries_coords_witness :
    ({ x := ONE, y := ZERO, inf := false } : ECPoint).inf = false ∧
    ({ x := ONE, y := ONE, inf := false } : ECPoint).inf = false ∧
    BigNum.beqBN ONE ONE = true ∧
    BigNum.beqBN ZERO ONE = false ∧
    (BigNum.redAdd ZERO ZERO).eqU32 0 = true ∧
    ((ECPoint.addPt { x := ONE, y := ZERO, inf := false }
        { x := ONE, y := ONE, inf := false }).inf = true ∧
      (ECPoint.addPt { x := ONE, y := ZERO, inf := false }
        { x := ONE, y := ONE, inf := false }).x = ONE ∧
      (ECPoint.addPt { x := ONE, y := ZERO, inf := false }
        { x := ONE, y := ONE, inf := false }).y = ZERO) ∧
    ((ECPoint.double { x := ONE, y := ZERO, inf := false }).inf = true ∧
      (ECPoint.double { x := ONE, y := ZERO, inf := false }).x = ONE ∧
      (ECPoint.double { x := ONE, y := ZERO, inf := false }).y = ZERO) :=
  have h := ecInf_carries_coords { x := ONE, y := ZERO, inf := false }
    { x := ONE, y := ONE, inf := false } rfl rfl
  ⟨rfl, rfl, by decide, by decide, by decide,
    h.1 (by decide) (by decide), h.2 (by decide)⟩

/-- C5 (counterexample): the infinity produced by adding (1, 1) and (1, 2)
keeps x = 1, and the infinity produced by doubling (1, 0) also keeps x = 1,
so the claimed canonical x = y = 0 representation fails on both paths. -/
theorem addPt_inf_keeps_coords :
    ((ECPoint.addPt { x := ONE, y := ONE, inf := false }
        { x := ONE, y := bnSmall 2, inf := false }).inf = true ∧
      magVal (ECPoint.addPt { x := ONE, y := ONE, inf := false }
        { x := ONE, y := bnSmall 2, inf := false }).x = 1) ∧
    ((ECPoint.double { x := ONE, y := ZERO, inf := false }).inf = true ∧
      magVal (ECPoint.double { x := ONE, y := ZERO, inf := false }).x = 1) := by
  refine ⟨⟨?_, ?_⟩, ?_, ?_⟩
  · decide
  · decide
  · decide
  · decide

/-- C9: ECPointG::mul only ever reads the scalar it receives by mutable
reference; its value after the call is the value before the call. -/
theorem gMul_preserves_scalar (num : BigNum) : (gMul num).2 = num := rfl

/-- C8: decoding a 32-byte big-endian buffer into a BigNum (four-byte groups
read in reverse into words 0..8, then stripped) and writing it back with
write_bytes_to reproduces the buffer exactly. -/
theorem fromBytes_writeBytes_roundtrip
    (b0 b1 b2 b3 b4 b5 b6 b7 b8 b9 b10 b11 b12 b13 b14 b15
     b16 b17 b18 b19 b20 b21 b22 b23 b24 b25 b26 b27 b28 b29 b30 b31 : Nat)
    (h : ∀ x ∈ ([b0, b1, b2, b3, b4, b5, b6, b7, b8, b9, b10, b11, b12, b13, b14, b15, b16, b17, b18, b19, b20, b21, b22, b23, b24, b25, b26, b27, b28, b29, b30, b31] : List Nat), x < 256) :
    BigNum.writeBytes (BigNum.fromBytes [b0, b1, b2, b3, b4, b5, b6, b7, b8, b9, b10, b11, b12, b13, b14, b15, b16, b17, b18, b19, b20, b21, b22, b23, b24, b25, b26, b27, b28, b29, b30, b31]) = [b0, b1, b2, b3, b4, b5, b6, b7, b8, b9, b10, b11, b12, b13, b14, b15, b16, b17, b18, b19, b20, b21, b22, b23, b24, b25, b26, b27, b28, b29, b30, b31] := by
  have e0 : readU32 [b0, b1, b2, b3, b4, b5, b6, b7, b8, b9, b10, b11, b12, b13, b14, b15, b16, b17, b18, b19, b20, b21, b22, b23, b24, b25, b26, b27, b28, b29, b30, b31] 0 = b0 * 2^24 + b1 * 2^16 + b2 * 2^8 + b3 := rfl
  have e4 : readU32 [b0, b1, b2, b3, b4, b5, b6, b7, b8, b9, b10, b11, b12, b13, b14, b15, b16, b17, b18, b19, b20, b21, b22, b23, b24, b25, b26, b27, b28, b29, b30, b31] 4 = b4 * 2^24 + b5 * 2^16 + b6 * 2^8 + b7 := rfl
  have e8 : readU32 [b0, b1, b2, b3, b4, b5, b6, b7, b8, b9, b10, b11, b12, b13, b14, b15, b16, b17, b18, b19, b20, b21, b22, b23, b24, b25, b26, b27, b28, b29, b30, b31] 8 = b8 * 2^24 + b9 * 2^16 + b10 * 2^8 + b11 := rfl
  have e12 : readU32 [b0, b1, b2, b3, b4, b5, b6, b7, b8, b9, b10, b11, b12, b13, b14, b15, b16, b17, b18, b19, b20, b21, b22, b23, b24, b25, b26, b27, b28, b29, b30, b31] 12 = b12 * 2^24 + b13 * 2^16 + b14 * 2^8 + b15 := rfl
  have e16 : readU32 [b0, b1, b2, b3, b4, b5, b6, b7, b8, b9, b10, b11, b12, b13, b14, b15, b16, b17, b18, b19, b20, b21, b22, b23, b24, b25, b26, b27, b28, b29, b30, b31] 16 = b16 * 2^24 + b17 * 2^16 + b18 * 2^8 + b19 := rfl
  have e20 : readU32 [b0, b1, b2, b3, b4, b5, b6, b7, b8, b9, b10, b11, b12, b13, b14, b15, b16, b17, b18, b19, b20, b21, b22, b23, b24, b25, b26, b27, b28, b29, b30, b31] 20 = b20 * 2^24 + b21 * 2^16 + b22 * 2^8 + b23 := rfl
  have e24 : readU32 [b0, b1, b2, b3, b4, b5, b6, b7, b8, b9, b10, b11, b12, b13, b14, b15, b16, b17, b18, b19, b20, b21, b22, b23, b24, b25, b26, b27, b28, b29, b30, b31] 24 = b24 * 2^24 + b25 * 2^16 + b26 * 2^8 + b27 := rfl
  have e28 : readU32 [b0, b1, b2, b3, b4, b5, b6, b7, b8, b9, b10, b11, b12, b13, b14, b15, b16, b17, b18, b19, b20, b21, b22, b23, b24, b25, b26, b27, b28, b29, b30, b31] 28 = b28 * 2^24 + b29 * 2^16 + b30 * 2^8 + b31 := rfl
  show writeU32 (readU32 [b0, b1, b2, b3, b4, b5, b6, b7, b8, b9, b10, b11, b12, b13, b14, b15, b16, b17, b18, b19, b20, b21, b22, b23, b24, b25, b26, b27, b28, b29, b30, b31] 0) ++ writeU32 (readU32 [b0, b1, b2, b3, b4, b5, b6, b7, b8, b9, b10, b11, b12, b13, b14, b15, b16, b17, b18, b19, b20, b21, b22, b23, b24, b25, b26, b27, b28, b29, b30, b31] 4) ++
    writeU32 (readU32 [b0, b1, b2, b3, b4, b5, b6, b7, b8, b9, b10, b11, b12, b13, b14, b15, b16, b17, b18, b19, b20, b21, b22, b23, b24, b25, b26, b27, b28, b29, b30, b31] 8) ++ writeU32 (readU32 [b0, b1, b2, b3, b4, b5, b6, b7, b8, b9, b10, b11, b12, b13, b14, b15, b16, b17, b18, b19, b20, b21, b22, b23, b24, b25, b26, b27, b28, b29, b30, b31] 12) ++
    writeU32 (readU32 [b0, b1, b2, b3, b4, b5, b6, b7, b8, b9, b10, b11, b12, b13, b14, b15, b16, b17, b18, b19, b20, b21, b22, b23, b24, b25, b26, b27, b28, b29, b30, b31] 16) ++ writeU32 (readU32 [b0, b1, b2, b3, b4, b5, b6, b7, b8, b9, b10, b11, b12, b13, b14, b15, b16, b17, b18, b19, b20, b21, b22, b23, b24, b25, b26, b27, b28, b29, b30, b31] 20) ++
    writeU32 (readU32 [b0, b1, b2, b3, b4, b5, b6, b7, b8, b9, b10, b11, b12, b13, b14, b15, b16, b17, b18, b19, b20, b21, b22, b23, b24, b25, b26, b27, b28, b29, b30, b31] 24) ++ writeU32 (readU32 [b0, b1, b2, b3, b4, b5, b6, b7, b8, b9, b10, b11, b12, b13, b14, b15, b16, b17, b18, b19, b20, b21, b22, b23, b24, b25, b26, b27, b28, b29, b30, b31] 28) = [b0, b1, b2, b3, b4, b5, b6, b7, b8, b9, b10, b11, b12, b13, b14, b15, b16, b17, b18, b19, b20, b21, b22, b23, b24, b25, b26, b27, b28, b29, b30, b31]
  rw [e0, e4, e8, e12, e16, e20, e24, e28]
  rw [writeU32_readU32 b0 b1 b2 b3 (h _ (by simp)) (h _ (by simp)) (h _ (by simp)) (h _ (by simp))]
  rw [writeU32_readU32 b4 b5 b6 b7 (h _ (by simp)) (h _ (by simp)) (h _ (by simp)) (h _ (by simp))]
  rw [writeU32_readU32 b8 b9 b10 b11 (h _ (by simp)) (h _ (by simp)) (h _ (by simp)) (h _ (by simp))]
  rw [writeU32_readU32 b12 b13 b14 b15 (h _ (by simp)) (h _ (by simp)) (h _ (by simp)) (h _ (by simp))]
  rw [writeU32_readU32 b16 b17 b18 b19 (h _ (by simp)) (h _ (by simp)) (h _ (by simp)) (h _ (by simp))]
  rw [writeU32_readU32 b20 b21 b22 b23 (h _ (by simp)) (h _ (by simp)) (h _ (by simp)) (h _ (by simp))]
  rw [writeU32_readU32 b24 b25 b26 b27 (h _ (by simp)) (h _ (by simp)) (h _ (by simp)) (h _ (by simp))]
  rw [writeU32_readU32 b28 b29 b30 b31 (h _ (by simp)) (h _ (by simp)) (h _ (by simp)) (h _ (by simp))]
  rfl

/-- Witness for fromBytes_writeBytes_roundtrip on a concrete buffer. -/
theorem fromBytes_writeBytes_roundtrip_witness :
    BigNum.writeBytes (BigNum.fromBytes [0, 1, 2, 3, 4, 5, 6, 7, 8, 9, 10, 11, 12, 13, 14, 15, 16, 17, 18, 19, 20, 21, 22, 23, 24, 25, 26, 27, 28, 29, 30, 31]) = [0, 1, 2, 3, 4, 5, 6, 7, 8, 9, 10, 11, 12, 13, 14, 15, 16, 17, 18, 19, 20, 21, 22, 23, 24, 25, 26, 27, 28, 29, 30, 31] :=
  fromBytes_writeBytes_roundtrip 0 1 2 3 4 5 6 7 8 9 10 11 12 13 14 15 16 17 18 19 20 21 22 23 24 25 26 27 28 29 30 31 (by decide)

/-- Value of the 32-byte decode: the stripped 8-word number is the
big-endian byte value. -/
theorem fromBytes32_val
    (b0 b1 b2 b3 b4 b5 b6 b7 b8 b9 b10 b11 b12 b13 b14 b15
     b16 b17 b18 b19 b20 b21 b22 b23 b24 b25 b26 b27 b28 b29 b30 b31 : Nat) :
    magVal (BigNum.fromBytes [b0, b1, b2, b3, b4, b5, b6, b7, b8, b9, b10, b11, b12, b13, b14, b15, b16, b17, b18, b19, b20, b21, b22, b23, b24, b25, b26, b27, b28, b29, b30, b31]) = beVal [b0, b1, b2, b3, b4, b5, b6, b7, b8, b9, b10, b11, b12, b13, b14, b15, b16, b17, b18, b19, b20, b21, b22, b23, b24, b25, b26, b27, b28, b29, b30, b31] := by
  have h1 : magVal (BigNum.fromBytes [b0, b1, b2, b3, b4, b5, b6, b7, b8, b9, b10, b11, b12, b13, b14, b15, b16, b17, b18, b19, b20, b21, b22, b23, b24, b25, b26, b27, b28, b29, b30, b31]) = magVal { negative := false, len := ([b0, b1, b2, b3, b4, b5, b6, b7, b8, b9, b10, b11, b12, b13, b14, b15, b16, b17, b18, b19, b20, b21, b22, b23, b24, b25, b26, b27, b28, b29, b30, b31] : List Nat).length / 4, words := [readU32 [b0, b1, b2, b3, b4, b5, b6, b7, b8, b9, b10, b11, b12, b13, b14, b15, b16, b17, b18, b19, b20, b21, b22, b23, b24, b25, b26, b27, b28, b29, b30, b31] 28, readU32 [b0, b1, b2, b3, b4, b5, b6, b7, b8, b9, b10, b11, b12, b13, b14, b15, b16, b17, b18, b19, b20, b21, b22, b23, b24, b25, b26, b27, b28, b29, b30, b31] 24, readU32 [b0, b1, b2, b3, b4, b5, b6, b7, b8, b9, b10, b11, b12, b13, b14, b15, b16, b17, b18, b19, b20, b21, b22, b23, b24, b25, b26, b27, b28, b29, b30, b31] 20, readU32 [b0, b1, b2, b3, b4, b5, b6, b7, b8, b9, b10, b11, b12, b13, b14, b15, b16, b17, b18, b19, b20, b21, b22, b23, b24, b25, b26, b27, b28, b29, b30, b31] 16, readU32 [b0, b1, b2, b3, b4, b5, b6, b7, b8, b9, b10, b11, b12, b13, b14, b15, b16, b17, b18, b19, b20, b21, b22, b23, b24, b25, b26, b27, b28, b29, b30, b31] 12, readU32 [b0, b1, b2, b3, b4, b5, b6, b7, b8, b9, b10, b11, b12, b13, b14, b15, b16, b17, b18, b19, b20, b21, b22, b23, b24, b25, b26, b27, b28, b29, b30, b31] 8, readU32 [b0, b1, b2, b3, b4, b5, b6, b7, b8, b9, b10, b11, b12, b13, b14, b15, b16, b17, b18, b19, b20, b21, b22, b23, b24, b25, b26, b27, b28, b29, b30, b31] 4, readU32 [b0, b1, b2, b3, b4, b5, b6, b7, b8, b9, b10, b11, b12, b13, b14, b15, b16, b17, b18, b19, b20, b21, b22, b23, b24, b25, b26, b27, b28, b29, b30, b31] 0, 0, 0, 0, 0, 0, 0, 0, 0] } := (strip_spec _).1
  rw [h1]
  simp [magVal, wordsVal, readU32, beVal, List.foldl]
  ring


theorem getD_lt_of_all_gen {w : List Nat} {m : Nat} (hm : 0 < m)
    (h : ∀ x ∈ w, x < m) (i : Nat) : w.getD i 0 < m := by
  by_cases hi : i < w.length
  · have : w.getD i 0 = w.get ⟨i, hi⟩ := by
      rw [List.getD_eq_getElem?_getD, List.getElem?_eq_getElem hi]
      rfl
    rw [this]
    exact h _ (List.get_mem w i hi)
  · rw [List.getD_eq_getElem?_getD, List.getElem?_eq_none (by omega)]
    exact hm

theorem fromBytes_wf (bs : List Nat) (hlen : bs.length = 32)
    (h : ∀ x ∈ bs, x < 256) :
    Wf (BigNum.fromBytes bs) ∧ Stripped (BigNum.fromBytes bs) ∧
      (BigNum.fromBytes bs).len ≤ 8 := by
  have hr : ∀ k, readU32 bs k < W32 := by
    intro k
    rw [readU32, W32_eq]
    have h1 := getD_lt_of_all_gen (by omega) h k
    have h2 := getD_lt_of_all_gen (by omega) h (k+1)
    have h3 := getD_lt_of_all_gen (by omega) h (k+2)
    have h4 := getD_lt_of_all_gen (by omega) h (k+3)
    omega
  obtain ⟨hsv, hsle, hsimp, hsw, hsn⟩ := strip_spec { negative := false, len := bs.length / 4, words := [readU32 bs 28, readU32 bs 24, readU32 bs 20, readU32 bs 16, readU32 bs 12, readU32 bs 8, readU32 bs 4, readU32 bs 0, 0, 0, 0, 0, 0, 0, 0, 0] }
  have hrl : ({ negative := false, len := bs.length / 4, words := [readU32 bs 28, readU32 bs 24, readU32 bs 20, readU32 bs 16, readU32 bs 12, readU32 bs 8, readU32 bs 4, readU32 bs 0, 0, 0, 0, 0, 0, 0, 0, 0] } : BigNum).len = 8 := by
    show bs.length / 4 = 8
    rw [hlen]
  have hone : 1 ≤ ({ negative := false, len := bs.length / 4, words := [readU32 bs 28, readU32 bs 24, readU32 bs 20, readU32 bs 16, readU32 bs 12, readU32 bs 8, readU32 bs 4, readU32 bs 0, 0, 0, 0, 0, 0, 0, 0, 0] } : BigNum).len := by omega
  refine ⟨⟨?_, ?_, ?_, ?_⟩, ?_, ?_⟩
  · show (BigNum.strip { negative := false, len := bs.length / 4, words := [readU32 bs 28, readU32 bs 24, readU32 bs 20, readU32 bs 16, readU32 bs 12, readU32 bs 8, readU32 bs 4, readU32 bs 0, 0, 0, 0, 0, 0, 0, 0, 0] }).words.length = 16
    rw [hsw]
    rfl
  · show 1 ≤ (BigNum.strip { negative := false, len := bs.length / 4, words := [readU32 bs 28, readU32 bs 24, readU32 bs 20, readU32 bs 16, readU32 bs 12, readU32 bs 8, readU32 bs 4, readU32 bs 0, 0, 0, 0, 0, 0, 0, 0, 0] }).len
    exact (hsimp hone).1
  · show (BigNum.strip { negative := false, len := bs.length / 4, words := [readU32 bs 28, readU32 bs 24, readU32 bs 20, readU32 bs 16, readU32 bs 12, readU32 bs 8, readU32 bs 4, readU32 bs 0, 0, 0, 0, 0, 0, 0, 0, 0] }).len ≤ 16
    omega
  · show ∀ x ∈ (BigNum.strip { negative := false, len := bs.length / 4, words := [readU32 bs 28, readU32 bs 24, readU32 bs 20, readU32 bs 16, readU32 bs 12, readU32 bs 8, readU32 bs 4, readU32 bs 0, 0, 0, 0, 0, 0, 0, 0, 0] }).words, x < W32
    rw [hsw]
    intro x hx
    simp only [List.mem_cons, List.not_mem_nil, or_false] at hx
    rcases hx with rfl | rfl | rfl | rfl | rfl | rfl | rfl | rfl | rfl | rfl | rfl | rfl | rfl | rfl | rfl | rfl <;> first | exact hr _ | exact W32_pos
  · show Stripped (BigNum.strip { negative := false, len := bs.length / 4, words := [readU32 bs 28, readU32 bs 24, readU32 bs 20, readU32 bs 16, readU32 bs 12, readU32 bs 8, readU32 bs 4, readU32 bs 0, 0, 0, 0, 0, 0, 0, 0, 0] })
    exact (hsimp hone).2
  · show (BigNum.strip { negative := false, len := bs.length / 4, words := [readU32 bs 28, readU32 bs 24, readU32 bs 20, readU32 bs 16, readU32 bs 12, readU32 bs 8, readU32 bs 4, readU32 bs 0, 0, 0, 0, 0, 0, 0, 0, 0] }).len ≤ 8
    omega

/-- C3: is_valid_secret accepts exactly the 32-byte big-endian encodings of
scalars s with 0 < s < n: on a 32-byte buffer of bytes it is equivalent to
the value bounds on s, and on a buffer of any other length it is false. -/
theorem isValidSecret_iff
    (b0 b1 b2 b3 b4 b5 b6 b7 b8 b9 b10 b11 b12 b13 b14 b15
     b16 b17 b18 b19 b20 b21 b22 b23 b24 b25 b26 b27 b28 b29 b30 b31 : Nat)
    (h : ∀ x ∈ ([b0, b1, b2, b3, b4, b5, b6, b7, b8, b9, b10, b11, b12, b13, b14, b15, b16, b17, b18, b19, b20, b21, b22, b23, b24, b25, b26, b27, b28, b29, b30, b31] : List Nat), x < 256) :
    (isValidSecret [b0, b1, b2, b3, b4, b5, b6, b7, b8, b9, b10, b11, b12, b13, b14, b15, b16, b17, b18, b19, b20, b21, b22, b23, b24, b25, b26, b27, b28, b29, b30, b31] = true ↔ 0 < beVal [b0, b1, b2, b3, b4, b5, b6, b7, b8, b9, b10, b11, b12, b13, b14, b15, b16, b17, b18, b19, b20, b21, b22, b23, b24, b25, b26, b27, b28, b29, b30, b31] ∧ beVal [b0, b1, b2, b3, b4, b5, b6, b7, b8, b9, b10, b11, b12, b13, b14, b15, b16, b17, b18, b19, b20, b21, b22, b23, b24, b25, b26, b27, b28, b29, b30, b31] < nVal) ∧
    ∀ bs : List Nat, bs.length ≠ 32 → isValidSecret bs = false := by
  constructor
  · obtain ⟨hwf, hst, _⟩ := fromBytes_wf [b0, b1, b2, b3, b4, b5, b6, b7, b8, b9, b10, b11, b12, b13, b14, b15, b16, b17, b18, b19, b20, b21, b22, b23, b24, b25, b26, b27, b28, b29, b30, b31] rfl h
    have hval : magVal (BigNum.fromBytes [b0, b1, b2, b3, b4, b5, b6, b7, b8, b9, b10, b11, b12, b13, b14, b15, b16, b17, b18, b19, b20, b21, b22, b23, b24, b25, b26, b27, b28, b29, b30, b31]) = beVal [b0, b1, b2, b3, b4, b5, b6, b7, b8, b9, b10, b11, b12, b13, b14, b15, b16, b17, b18, b19, b20, b21, b22, b23, b24, b25, b26, b27, b28, b29, b30, b31] :=
      fromBytes32_val b0 b1 b2 b3 b4 b5 b6 b7 b8 b9 b10 b11 b12 b13 b14 b15 b16 b17 b18 b19 b20 b21 b22 b23 b24 b25 b26 b27 b28 b29 b30 b31
    show (!(BigNum.isOverflow (BigNum.fromBytes [b0, b1, b2, b3, b4, b5, b6, b7, b8, b9, b10, b11, b12, b13, b14, b15, b16, b17, b18, b19, b20, b21, b22, b23, b24, b25, b26, b27, b28, b29, b30, b31])) &&
        !((BigNum.fromBytes [b0, b1, b2, b3, b4, b5, b6, b7, b8, b9, b10, b11, b12, b13, b14, b15, b16, b17, b18, b19, b20, b21, b22, b23, b24, b25, b26, b27, b28, b29, b30, b31]).eqU32 0)) = true ↔ _
    simp only [Bool.and_eq_true, Bool.not_eq_true']
    have hov : BigNum.isOverflow (BigNum.fromBytes [b0, b1, b2, b3, b4, b5, b6, b7, b8, b9, b10, b11, b12, b13, b14, b15, b16, b17, b18, b19, b20, b21, b22, b23, b24, b25, b26, b27, b28, b29, b30, b31]) = false ↔ beVal [b0, b1, b2, b3, b4, b5, b6, b7, b8, b9, b10, b11, b12, b13, b14, b15, b16, b17, b18, b19, b20, b21, b22, b23, b24, b25, b26, b27, b28, b29, b30, b31] < nVal := by
      rw [BigNum.isOverflow, decide_eq_false_iff_not, not_not,
        cmp_eq_compare hwf (by decide) hst (by decide), hval,
        show magVal Nbn = nVal from by decide, Nat.compare_eq_lt]
    have hz : (BigNum.fromBytes [b0, b1, b2, b3, b4, b5, b6, b7, b8, b9, b10, b11, b12, b13, b14, b15, b16, b17, b18, b19, b20, b21, b22, b23, b24, b25, b26, b27, b28, b29, b30, b31]).eqU32 0 = false ↔ 0 < beVal [b0, b1, b2, b3, b4, b5, b6, b7, b8, b9, b10, b11, b12, b13, b14, b15, b16, b17, b18, b19, b20, b21, b22, b23, b24, b25, b26, b27, b28, b29, b30, b31] := by
      constructor
      · intro hf
        rcases Nat.eq_zero_or_pos (beVal [b0, b1, b2, b3, b4, b5, b6, b7, b8, b9, b10, b11, b12, b13, b14, b15, b16, b17, b18, b19, b20, b21, b22, b23, b24, b25, b26, b27, b28, b29, b30, b31]) with h0 | h0
        · have ht : (BigNum.fromBytes [b0, b1, b2, b3, b4, b5, b6, b7, b8, b9, b10, b11, b12, b13, b14, b15, b16, b17, b18, b19, b20, b21, b22, b23, b24, b25, b26, b27, b28, b29, b30, b31]).eqU32 0 = true :=
            (eqU32_iff_mag hwf hst (by rw [W32_eq]; omega)).mpr (by rw [hval, h0])
          rw [hf] at ht
          simp at ht
        · exact h0
      · intro hpos
        cases hb : (BigNum.fromBytes [b0, b1, b2, b3, b4, b5, b6, b7, b8, b9, b10, b11, b12, b13, b14, b15, b16, b17, b18, b19, b20, b21, b22, b23, b24, b25, b26, b27, b28, b29, b30, b31]).eqU32 0 with
        | false => rfl
        | true =>
          have := (eqU32_iff_mag hwf hst (by rw [W32_eq]; omega)).mp hb
          rw [hval] at this
          omega
    rw [hov, hz]
    exact and_comm
  · intro bs hlen2
    rw [isValidSecret, if_pos hlen2]

/-- Witness for isValidSecret_iff at the encoding of the scalar 1. -/
theorem isValidSecret_iff_witness :
    isValidSecret [0, 0, 0, 0, 0, 0, 0, 0, 0, 0, 0, 0, 0, 0, 0, 0, 0, 0, 0, 0, 0, 0, 0, 0, 0, 0, 0, 0, 0, 0, 0, 1] = true ↔ 0 < beVal [0, 0, 0, 0, 0, 0, 0, 0, 0, 0, 0, 0, 0, 0, 0, 0, 0, 0, 0, 0, 0, 0, 0, 0, 0, 0, 0, 0, 0, 0, 0, 1] ∧ beVal [0, 0, 0, 0, 0, 0, 0, 0, 0, 0, 0, 0, 0, 0, 0, 0, 0, 0, 0, 0, 0, 0, 0, 0, 0, 0, 0, 0, 0, 0, 0, 1] < nVal :=
  (isValidSecret_iff 0 0 0 0 0 0 0 0 0 0 0 0 0 0 0 0 0 0 0 0 0 0 0 0 0 0 0 0 0 0 0 1 (by decide)).1

/-! ## Right shift -/

theorem lor_disjoint : ∀ m t x : Nat, x < 2^m → t * 2^m ||| x = t * 2^m + x := by
  intro m
  induction m with
  | zero =>
    intro t x hx
    interval_cases x
    simp
  | succ m ih =>
    intro t x hx
    have hdiv : x.div2 < 2 ^ m := by
      rw [Nat.div2_val]
      have := Nat.pow_succ 2 m
      omega
    have h1 : t * 2 ^ (m+1) = Nat.bit false (t * 2^m) := by
      rw [Nat.bit_val]
      simp
      ring
    calc t * 2^(m+1) ||| x
        = Nat.bit false (t * 2^m) ||| Nat.bit x.bodd x.div2 := by
          rw [← h1, Nat.bit_decomp]
      _ = Nat.bit (false || x.bodd) ((t * 2^m) ||| x.div2) := Nat.lor_bit _ _ _ _
      _ = Nat.bit x.bodd (t * 2^m + x.div2) := by rw [ih _ _ hdiv, Bool.false_or]
      _ = t * 2^(m+1) + x := by
          rw [Nat.bit_val]
          have h2 : t * 2^(m+1) = 2 * (t * 2^m) := by ring
          have h3 : x = 2 * x.div2 + x.bodd.toNat := by
            conv_lhs => rw [← Nat.bit_decomp x]
            rw [Nat.bit_val]
          omega

theorem shrWordsLoop_spec (shift m : Nat) (h0 : 0 < shift) (hm : shift + m = 32) :
    ∀ (c : Nat) (w : List Nat) (carry t : Nat), carry = t * 2 ^ m → t < W32 →
      c ≤ w.length → (∀ i, w.getD i 0 < W32) →
      (shrWordsLoop shift m c w carry).length = w.length ∧
      (∀ j, c ≤ j → (shrWordsLoop shift m c w carry).getD j 0 = w.getD j 0) ∧
      (∀ i, (shrWordsLoop shift m c w carry).getD i 0 < W32) ∧
      (∀ i, i < c → (shrWordsLoop shift m c w carry).getD i 0
        = (if i+1 = c then t else w.getD (i+1) 0) % 2 ^ shift * 2 ^ m
          + w.getD i 0 / 2 ^ shift) ∧
      segVal (shrWordsLoop shift m c w carry) 0 c
        = (segVal w 0 c + t % 2 ^ shift * 2 ^ (32 * c)) / 2 ^ shift := by
  have hW : W32 = 2 ^ shift * 2 ^ m := by rw [W32_eq, ← pow_add, hm]
  intro c
  induction c with
  | zero =>
    intro w carry t hc ht hcl hwb
    refine ⟨rfl, fun j _ => rfl, hwb, fun i hi => absurd hi (by omega), ?_⟩
    show (0:Nat) = (0 + t % 2 ^ shift * 2 ^ (32*0)) / 2 ^ shift
    simp only [Nat.mul_zero, pow_zero, Nat.mul_one, Nat.zero_add]
    rw [Nat.div_eq_of_lt (Nat.mod_lt _ (Nat.two_pow_pos shift))]
  | succ c ih =>
    intro w carry t hc ht hcl hwb
    subst hc
    have hstep : shrWordsLoop shift m (c+1) w (t * 2 ^ m)
        = shrWordsLoop shift m c
            (w.set c ((Nat.lor (t * 2 ^ m) (w.getD c 0 / 2 ^ shift)) % W32))
            (w.getD c 0 * 2 ^ m % 2 ^ 64) := rfl
    set u := w.getD c 0 with hu
    have hub : u < W32 := hwb c
    have hmle : (2:Nat) ^ m ≤ 2 ^ 32 := Nat.pow_le_pow_right (by omega) (by omega)
    have ht2 : u * 2 ^ m % 2 ^ 64 = u * 2 ^ m := by
      apply Nat.mod_eq_of_lt
      have h1 : u < 2 ^ 32 := by rw [← W32_eq]; exact hub
      have h3 : u * 2 ^ m ≤ (2^32 - 1) * 2^32 := Nat.mul_le_mul (by omega) hmle
      omega
    have hdivlt : u / 2 ^ shift < 2 ^ m := by
      rw [Nat.div_lt_iff_lt_mul (Nat.two_pow_pos shift), Nat.mul_comm]
      rw [hW] at hub
      exact hub
    have hv : (Nat.lor (t * 2 ^ m) (u / 2 ^ shift)) % W32
        = t % 2 ^ shift * 2 ^ m + u / 2 ^ shift := by
      rw [show Nat.lor (t * 2 ^ m) (u / 2 ^ shift) = t * 2 ^ m + u / 2 ^ shift
        from lor_disjoint m t _ hdivlt]
      rw [hW]
      have hd : t % 2 ^ shift * 2 ^ m + u / 2 ^ shift < 2 ^ shift * 2 ^ m := by
        have h1 : t % 2 ^ shift < 2 ^ shift := Nat.mod_lt _ (Nat.two_pow_pos shift)
        have h2 : t % 2 ^ shift * 2 ^ m ≤ (2 ^ shift - 1) * 2 ^ m :=
          Nat.mul_le_mul_right _ (by omega)
        rw [Nat.sub_mul, Nat.one_mul] at h2
        have h3 : (2:Nat) ^ m ≤ 2 ^ shift * 2 ^ m :=
          Nat.le_mul_of_pos_left _ (Nat.two_pow_pos _)
        omega
      have hqr : t * 2 ^ m + u / 2 ^ shift
          = (t % 2 ^ shift * 2 ^ m + u / 2 ^ shift) + (t / 2 ^ shift) * (2 ^ shift * 2 ^ m) := by
        have hdm := Nat.div_add_mod t (2 ^ shift)
        calc t * 2 ^ m + u / 2 ^ shift
            = (2 ^ shift * (t / 2 ^ shift) + t % 2 ^ shift) * 2 ^ m + u / 2 ^ shift := by
              rw [hdm]
          _ = _ := by ring
      rw [hqr, Nat.add_mul_mod_self_right, Nat.mod_eq_of_lt hd]
    obtain ⟨ihlen, ihframe, ihbound, ihword, ihval⟩ :=
      ih (w.set c ((Nat.lor (t * 2 ^ m) (u / 2 ^ shift)) % W32)) (u * 2 ^ m % 2 ^ 64) u
        ht2 hub (by rw [List.length_set]; omega)
        (by
          intro i
          by_cases hic : c = i
          · subst hic
            rw [getD_set_self (by omega) _]
            exact Nat.mod_lt _ W32_pos
          · rw [getD_set_other _ hic _]
            exact hwb i)
    rw [hstep]
    refine ⟨by rw [ihlen, List.length_set], ?_, ihbound, ?_, ?_⟩
    · intro j hj
      rw [ihframe j (by omega), getD_set_other _ (by omega) _]
    · intro i hi
      by_cases hic : i = c
      · subst hic
        have hset : (w.set i ((Nat.lor (t * 2 ^ m) (u / 2 ^ shift)) % W32)).getD i 0
            = (Nat.lor (t * 2 ^ m) (u / 2 ^ shift)) % W32 :=
          getD_set_self (by omega) _
        rw [ihframe i (le_refl i), hset, hv, if_pos rfl]
      · have hic2 : i < c := by omega
        rw [ihword i hic2]
        rw [show (if i + 1 = c + 1 then t else w.getD (i+1) 0) = w.getD (i+1) 0
          from if_neg (by omega)]
        by_cases hi1 : i + 1 = c
        · rw [if_pos hi1, getD_set_other _ (by omega) _, hi1, ← hu]
        · rw [if_neg hi1, getD_set_other _ (by omega) _, getD_set_other _ (by omega) _]
    · rw [segVal_succ_top _ c 0]
      simp only [Nat.zero_add]
      rw [ihval, ihframe c (le_refl c), getD_set_self (by omega) _, hv]
      rw [segVal_set_out _ _ _ (Or.inr (by omega))]
      rw [segVal_succ_top w c 0]
      simp only [Nat.zero_add]
      have e1 : (2:Nat) ^ (32*(c+1)) = 2 ^ (32*c) * (2 ^ shift * 2 ^ m) := by
        rw [← hW, W32_eq, ← pow_add]
        congr 1
      have hudm := Nat.div_add_mod u (2 ^ shift)
      have key : segVal w 0 c + u * 2 ^ (32*c) + t % 2 ^ shift * 2 ^ (32*(c+1))
          = (segVal w 0 c + u % 2 ^ shift * 2 ^ (32*c))
            + (u / 2 ^ shift + t % 2 ^ shift * 2 ^ m) * 2 ^ (32*c) * 2 ^ shift := by
        rw [e1]
        calc segVal w 0 c + u * 2 ^ (32*c) + t % 2 ^ shift * (2 ^ (32*c) * (2 ^ shift * 2 ^ m))
            = segVal w 0 c + (2 ^ shift * (u / 2 ^ shift) + u % 2 ^ shift) * 2 ^ (32*c)
              + t % 2 ^ shift * (2 ^ (32*c) * (2 ^ shift * 2 ^ m)) := by rw [hudm]
          _ = _ := by ring
      rw [key, Nat.add_mul_div_right _ _ (Nat.two_pow_pos shift)]
      ring

theorem shr_spec {b : BigNum} (hw : Wf b) (hst : Stripped b) {shift : Nat}
    (h0 : 0 < shift) (h32 : shift ≤ 32) :
    Wf (BigNum.shr b shift) ∧ Stripped (BigNum.shr b shift) ∧
    magVal (BigNum.shr b shift) = magVal b / 2 ^ shift ∧
    (BigNum.shr b shift).negative = b.negative ∧
    (BigNum.shr b shift).len ≤ b.len := by
  obtain ⟨ha1, ha2, ha3, ha4⟩ := hw
  have hm : shift + (32 - shift) = 32 := by omega
  obtain ⟨llen, lframe, lbound, lword, lval⟩ :=
    shrWordsLoop_spec shift (32 - shift) h0 hm b.len b.words 0 0
      (Nat.zero_mul _).symm W32_pos (by omega) (getD_lt_of_all ha4)
  set w2 := shrWordsLoop shift (32 - shift) b.len b.words 0 with hw2def
  have hval2 : segVal w2 0 b.len = magVal b / 2 ^ shift := by
    rw [lval]
    simp only [Nat.zero_mod, Nat.zero_mul, Nat.add_zero]
    rw [magVal, wordsVal_eq_segVal]
  have hstep : BigNum.shr b shift =
      (if b.len > 1 ∧ w2.getD (b.len - 1) 0 = 0
       then { b with words := w2, len := b.len - 1 }
       else { b with words := w2 }) := rfl
  rw [hstep]
  by_cases hbr : b.len > 1 ∧ w2.getD (b.len - 1) 0 = 0
  · rw [if_pos hbr]
    obtain ⟨hlen1, htop0⟩ := hbr
    have hmageq : wordsVal w2 (b.len - 1) = segVal w2 0 b.len := by
      rw [wordsVal_eq_segVal]
      conv_rhs => rw [show b.len = (b.len - 1) + 1 from by omega]
      rw [segVal_succ_top]
      simp only [Nat.zero_add]
      rw [htop0]
      simp
    refine ⟨⟨by rw [llen, ha1], by show (1:Nat) ≤ b.len - 1; omega,
      by show b.len - 1 ≤ 16; omega, all_lt_of_getD lbound⟩, ?_, ?_, rfl,
      by show b.len - 1 ≤ b.len; omega⟩
    · by_cases h1 : b.len - 1 = 1
      · exact Or.inl h1
      · right
        show w2.getD (b.len - 1 - 1 ) 0 ≠ 0
        have h2 : 2 ≤ b.len - 1 := by omega
        have htop := lword (b.len - 1) (by omega)
        rw [if_pos (by omega), htop0] at htop
        have htoplt : b.words.getD (b.len - 1) 0 < 2 ^ shift := by
          rcases Nat.lt_or_ge (b.words.getD (b.len - 1) 0) (2 ^ shift) with h | h
          · exact h
          · exfalso
            have h1d : 1 ≤ b.words.getD (b.len - 1) 0 / 2 ^ shift :=
              (Nat.one_le_div_iff (Nat.two_pow_pos shift)).mpr h
            have hz : (0:Nat) % 2 ^ shift * 2 ^ (32 - shift) = 0 := by
              rw [Nat.zero_mod, Nat.zero_mul]
            rw [hz] at htop
            omega
        have hne : b.words.getD (b.len - 1) 0 ≠ 0 := by
          rcases hst with h | h
          · omega
          · exact h
        have hmod : b.words.getD (b.len - 1) 0 % 2 ^ shift = b.words.getD (b.len - 1) 0 :=
          Nat.mod_eq_of_lt htoplt
        have hmid := lword (b.len - 2) (by omega)
        rw [if_neg (by omega)] at hmid
        rw [show b.len - 2 + 1 = b.len - 1 from by omega, hmod] at hmid
        rw [show b.len - 1 - 1 = b.len - 2 from by omega, hmid]
        intro hcontra
        have h1 := Nat.eq_zero_of_add_eq_zero_right hcontra
        rcases Nat.mul_eq_zero.mp h1 with h | h
        · exact hne h
        · exact (Nat.two_pow_pos (32 - shift)).ne' h
    · show wordsVal w2 (b.len - 1) = magVal b / 2 ^ shift
      rw [hmageq, hval2]
  · rw [if_neg hbr]
    push_neg at hbr
    refine ⟨⟨by rw [llen, ha1], ha2, ha3, all_lt_of_getD lbound⟩, ?_, ?_, rfl, le_refl _⟩
    · by_cases h1 : b.len = 1
      · exact Or.inl h1
      · exact Or.inr (hbr (by omega))
    · show wordsVal w2 b.len = magVal b / 2 ^ shift
      rw [wordsVal_eq_segVal, hval2]

/-! ## Subtraction -/

theorem subCore_spec {a b : BigNum} (ha : Wf a) (hb : Wf b)
    (hlen : b.len ≤ a.len) (hmag : magVal b ≤ magVal a) :
    Wf (BigNum.subCore a b) ∧ Stripped (BigNum.subCore a b) ∧
    magVal (BigNum.subCore a b) = magVal a - magVal b ∧
    (BigNum.subCore a b).negative = a.negative ∧
    (BigNum.subCore a b).len ≤ a.len := by
  obtain ⟨ha1, ha2, ha3, ha4⟩ := ha
  obtain ⟨hb1, hb2, hb3, hb4⟩ := hb
  obtain ⟨l1len, l1frame, l1bound, l1c, l1val⟩ :=
    subWordsLoop_spec b.words b.len a.words 0 0 (by rw [ha1]; omega) (Or.inl rfl)
      (fun t ht => ⟨getD_lt_of_all ha4 _, getD_lt_of_all hb4 _⟩)
  obtain ⟨l2len, l2frame, l2bound, l2c, l2i1, l2i2, l2val⟩ :=
    subCarryLoop_spec (a.len - b.len) (subWordsLoop b.words b.len a.words 0 0).1 b.len
      (subWordsLoop b.words b.len a.words 0 0).2
      (by rw [l1len, ha1]; omega) l1c
      (by
        intro t ht
        rcases Nat.lt_or_ge (b.len + t) b.len with h | h
        · omega
        · rw [l1frame (b.len + t) (Or.inr (by omega))]
          exact getD_lt_of_all ha4 _)
  set w1 := (subWordsLoop b.words b.len a.words 0 0).1 with hw1d
  set c1 := (subWordsLoop b.words b.len a.words 0 0).2 with hc1d
  set w2 := (subCarryLoop (a.len - b.len) w1 b.len c1).1 with hw2d
  set i2 := (subCarryLoop (a.len - b.len) w1 b.len c1).2.1 with hi2d
  set c2 := (subCarryLoop (a.len - b.len) w1 b.len c1).2.2 with hc2d
  simp only [Nat.zero_add, Nat.add_zero, add_zero] at l1val l2val l1frame l2frame l1bound l2bound
  have hstep : BigNum.subCore a b =
      (BigNum.strip { a with words := w2, len := if i2 > a.len then i2 else a.len }).normSign :=
    rfl
  have hifl : (if i2 > a.len then i2 else a.len) = a.len := if_neg (by omega)
  rw [hstep, hifl]
  have hw2len : w2.length = 16 := by rw [l2len, l1len, ha1]
  have hwlt2 : ∀ j, w2.getD j 0 < W32 := by
    intro j
    by_cases hj1 : j < b.len
    · rw [l2frame j (by omega)]
      exact l1bound j (by omega)
    · by_cases hj2 : j < a.len
      · have hlt := l2bound (j - b.len) (by omega)
        rwa [show b.len + (j - b.len) = j from by omega] at hlt
      · rw [l2frame j (by omega), l1frame j (by omega)]
        exact getD_lt_of_all ha4 _
  have htotal : (segVal w2 0 a.len : Int) + c2 * 2 ^ (32 * a.len)
      = (magVal a : Int) - magVal b := by
    have hs2 : segVal w2 0 a.len
        = segVal w2 0 b.len + 2 ^ (32*b.len) * segVal w2 b.len (a.len - b.len) := by
      have := segVal_split w2 b.len (a.len - b.len) 0
      rw [show b.len + (a.len - b.len) = a.len from by omega] at this
      simpa using this
    have hsa : segVal a.words 0 a.len
        = segVal a.words 0 b.len + 2 ^ (32*b.len) * segVal a.words b.len (a.len - b.len) := by
      have := segVal_split a.words b.len (a.len - b.len) 0
      rw [show b.len + (a.len - b.len) = a.len from by omega] at this
      simpa using this
    have hseg22 : segVal w2 0 b.len = segVal w1 0 b.len :=
      segVal_congr _ _ (fun t ht => by
        simpa only [Nat.zero_add] using l2frame t (Or.inl ht))
    have hseg12 : segVal w1 b.len (a.len - b.len) = segVal a.words b.len (a.len - b.len) :=
      segVal_congr _ _ (fun t ht => l1frame (b.len + t) (by omega))
    have h7 : (2:Int) ^ (32*b.len) * 2 ^ (32*(a.len - b.len)) = 2 ^ (32*a.len) := by
      rw [← pow_add]
      congr 1
      omega
    have h8 : segVal a.words 0 a.len = magVal a := by
      rw [magVal, wordsVal_eq_segVal]
    have h9 : segVal b.words 0 b.len = magVal b := by
      rw [magVal, wordsVal_eq_segVal]
    zify at hs2 hsa hseg22 hseg12 h8 h9
    linear_combination hs2 + hseg22 + l1val + (2:Int) ^ (32*b.len) * l2val
      + (2:Int) ^ (32*b.len) * hseg12 - c2 * h7 + h8 - h9 - hsa
  have hS2lt : segVal w2 0 a.len < 2 ^ (32 * a.len) :=
    segVal_lt _ _ (fun t _ => by simpa only [Nat.zero_add] using hwlt2 t)
  have hc20 : c2 = 0 := by
    rcases l2c with h | h
    · exact h
    · exfalso
      rw [h] at htotal
      have hcast : ((2:Nat) ^ (32 * a.len) : Int) = (2:Int) ^ (32 * a.len) := by push_cast; ring
      omega
  rw [hc20] at htotal
  simp only [zero_mul, add_zero] at htotal
  have hmagw2 : segVal w2 0 a.len = magVal a - magVal b := by omega
  set R : BigNum := { a with words := w2, len := a.len } with hR
  obtain ⟨hsv, hsle, hsimp, hsw, hsn⟩ := strip_spec R
  have hR1 : 1 ≤ R.len := by show 1 ≤ a.len; omega
  have hnorm : (BigNum.strip R).normSign = BigNum.strip R :=
    normSign_id (hsimp hR1).1
  rw [hnorm]
  have hmagR : magVal R = magVal a - magVal b := by
    show wordsVal w2 a.len = _
    rw [wordsVal_eq_segVal, hmagw2]
  refine ⟨⟨by rw [hsw]; show w2.length = 16; exact hw2len, (hsimp hR1).1, ?_, ?_⟩,
    (hsimp hR1).2, by rw [hsv, hmagR], by rw [hsn], ?_⟩
  · have hRlen : R.len = a.len := rfl
    omega
  · rw [hsw]
    show ∀ x ∈ w2, x < W32
    exact all_lt_of_getD hwlt2
  · have hRlen : R.len = a.len := rfl
    omega

theorem getD_take_eq {l : List Nat} {n i : Nat} (h : i < n) :
    (l.take n).getD i 0 = l.getD i 0 := by
  rw [List.getD_eq_getElem?_getD, List.getD_eq_getElem?_getD, List.getElem?_take, if_pos h]

theorem beqBN_spec {a b : BigNum} (ha : Wf a) (hb : Wf b)
    (h : BigNum.beqBN a b = true) :
    a.negative = b.negative ∧ a.len = b.len ∧ magVal a = magVal b := by
  rw [BigNum.beqBN, Bool.and_eq_true, beq_iff_eq, beq_iff_eq] at h
  obtain ⟨hneg, htake⟩ := h
  have h1 : (a.words.take a.len).length = a.len := by
    rw [List.length_take]
    have := ha.1
    have := ha.2.2.1
    omega
  have h2 : (b.words.take b.len).length = b.len := by
    rw [List.length_take]
    have := hb.1
    have := hb.2.2.1
    omega
  have hlen : a.len = b.len := by
    rw [← h1, ← h2, htake]
  refine ⟨hneg, hlen, ?_⟩
  rw [magVal, magVal, wordsVal_eq_segVal, wordsVal_eq_segVal, ← hlen]
  apply segVal_congr
  intro t ht
  have h3 := congrArg (fun l => l.getD (0+t) 0) htake
  simp only at h3
  rwa [getD_take_eq (by omega), getD_take_eq (by omega)] at h3

theorem subSame_ff {a b : BigNum} (ha : Wf a) (hb : Wf b)
    (hsa : Stripped a) (hsb : Stripped b)
    (hna : a.negative = false) (hnb : b.negative = false) :
    Wf (BigNum.subSame a b) ∧ Stripped (BigNum.subSame a b) ∧
    sval (BigNum.subSame a b) = (magVal a : Int) - magVal b ∧
    ((BigNum.subSame a b).negative = true → 0 < magVal (BigNum.subSame a b)) ∧
    (BigNum.subSame a b).len ≤ max a.len b.len := by
  rw [BigNum.subSame]
  by_cases heq : BigNum.beqBN a b = true
  · rw [if_pos heq]
    obtain ⟨hneg, hlen, hmag⟩ := beqBN_spec ha hb heq
    have hmagz : magVal { a with len := 1, negative := false, words := a.words.set 0 0 } = 0 := by
      show wordsVal (a.words.set 0 0) 1 = 0
      have hset : (a.words.set 0 0).getD 0 0 = 0 :=
        getD_set_self (by rw [ha.1]; omega) _
      show wordsVal (a.words.set 0 0) 0 + (a.words.set 0 0).getD 0 0 * 2 ^ (32*0) = 0
      rw [hset]
      simp [wordsVal]
    refine ⟨⟨by rw [List.length_set]; exact ha.1, by show (1:Nat) ≤ 1; omega,
      by show (1:Nat) ≤ 16; omega, ?_⟩, Or.inl rfl, ?_, ?_, ?_⟩
    · intro x hx
      rcases List.mem_or_eq_of_mem_set hx with h | h
      · exact ha.2.2.2 x h
      · rw [h]
        exact W32_pos
    · rw [sval, if_neg (by simp), hmagz]
      have : (magVal a : Int) = magVal b := by exact_mod_cast hmag
      omega
    · intro hcontra
      exact absurd hcontra (by simp)
    · show 1 ≤ max a.len b.len
      have := ha.2.1
      omega
  · rw [if_neg heq]
    have hcmp : BigNum.cmp a b = compare (magVal a) (magVal b) := cmp_eq_compare ha hb hsa hsb
    by_cases hlt : BigNum.cmp a b = Ordering.lt
    · rw [if_pos hlt]
      have hmaglt : magVal a < magVal b := by
        rw [hcmp] at hlt
        exact Nat.compare_eq_lt.mp hlt
      have hrec : ({ b with negative := b.negative } : BigNum) = b := rfl
      rw [hrec]
      have hlenle : a.len ≤ b.len := by
        by_contra hgt
        have h1 := magVal_lt hb
        have h2 := magVal_ge_stripped hsa (by have := hb.2.1; omega)
        have h3 : (2:Nat) ^ (32*b.len) ≤ 2 ^ (32*(a.len - 1)) :=
          Nat.pow_le_pow_right (by omega) (by omega)
        omega
      obtain ⟨hwf, hstr, hmagr, hnegr, hlenr⟩ := subCore_spec hb ha hlenle (le_of_lt hmaglt)
      refine ⟨⟨hwf.1, hwf.2.1, hwf.2.2.1, hwf.2.2.2⟩, ?_, ?_, ?_, ?_⟩
      · rcases hstr with h | h
        · exact Or.inl h
        · exact Or.inr h
      · rw [sval, if_pos rfl]
        show -(magVal (BigNum.subCore b a) : Int) = (magVal a : Int) - magVal b
        rw [hmagr]
        have h1 : ((magVal b - magVal a : Nat) : Int) = (magVal b : Int) - magVal a := by
          omega
        rw [h1]
        ring
      · intro _
        show 0 < magVal (BigNum.subCore b a)
        rw [hmagr]
        omega
      · show (BigNum.subCore b a).len ≤ max a.len b.len
        omega
    · rw [if_neg hlt]
      have hmagge : magVal b ≤ magVal a := by
        rw [hcmp] at hlt
        rcases Nat.lt_trichotomy (magVal a) (magVal b) with h | h | h
        · exact absurd (Nat.compare_eq_lt.mpr h) hlt
        · omega
        · omega
      have hlenle : b.len ≤ a.len := by
        by_contra hgt
        have h1 := magVal_lt ha
        have h2 := magVal_ge_stripped hsb (by have := ha.2.1; omega)
        have h3 : (2:Nat) ^ (32*a.len) ≤ 2 ^ (32*(b.len - 1)) :=
          Nat.pow_le_pow_right (by omega) (by omega)
        omega
      obtain ⟨hwf, hstr, hmagr, hnegr, hlenr⟩ := subCore_spec ha hb hlenle hmagge
      refine ⟨hwf, hstr, ?_, ?_, by omega⟩
      · rw [sval, hnegr, hna, if_neg (by simp), hmagr]
        omega
      · intro hcontra
        rw [hnegr, hna] at hcontra
        exact absurd hcontra (by simp)

theorem addMag_stripped {a b : BigNum} (ha : Wf a) (hb : Wf b)
    (hsa : Stripped a) (hsb : Stripped b)
    (hbound : magVal a + magVal b < 2 ^ 512) :
    Stripped (BigNum.addMag a b) := by
  obtain ⟨hwf, hneg, hmag, hlenge, hlen⟩ := addMag_spec ha hb hbound
  by_cases hl1 : (BigNum.addMag a b).len = 1
  · exact Or.inl hl1
  · apply stripped_of_ge hwf
    rcases hlen with h | ⟨h1, h2⟩
    · rw [h, hmag]
      rcases Nat.le_total a.len b.len with hab | hab
      · have hmax : max a.len b.len = b.len := by omega
        rw [hmax]
        have hge := magVal_ge_stripped hsb (by rw [h, hmax] at hl1; have := hb.2.1; omega)
        omega
      · have hmax : max a.len b.len = a.len := by omega
        rw [hmax]
        have hge := magVal_ge_stripped hsa (by rw [h, hmax] at hl1; have := ha.2.1; omega)
        omega
    · rw [h1, show max a.len b.len + 1 - 1 = max a.len b.len from by omega]
      exact h2

/-! ## Signed addition and subtraction -/

theorem sval_pos {r : BigNum} (h : r.negative = false) : sval r = (magVal r : Int) := by
  rw [sval, if_neg (by simp [h])]

theorem sval_neg {r : BigNum} (h : r.negative = true) : sval r = -(magVal r : Int) := by
  rw [sval, if_pos h]

theorem sval_flip (r : BigNum) :
    sval { r with negative := !r.negative } = - sval r := by
  cases hrn : r.negative with
  | true =>
    rw [sval_neg hrn, sval_pos rfl]
    show (magVal r : Int) = _
    ring
  | false =>
    rw [sval_pos hrn, sval_neg rfl]
    show -(magVal r : Int) = _
    ring

theorem neg_iff_sval_neg {r : BigNum} {S : Int} (h : sval r = S) (hS : S ≠ 0) :
    r.negative = true ↔ S < 0 := by
  constructor
  · intro hn
    rw [sval_neg hn] at h
    have hge : (0:Int) ≤ (magVal r : Int) := by positivity
    omega
  · intro hlt
    cases hc : r.negative with
    | true => rfl
    | false =>
      exfalso
      rw [sval_pos hc] at h
      have hge : (0:Int) ≤ (magVal r : Int) := by positivity
      omega

theorem addBN_spec {a b : BigNum} (ha : Wf a) (hb : Wf b)
    (hsa : Stripped a) (hsb : Stripped b)
    (hza : a.negative = true → 0 < magVal a) (hzb : b.negative = true → 0 < magVal b)
    (hbound : magVal a + magVal b < 2 ^ 512) :
    Wf (BigNum.addBN a b) ∧ Stripped (BigNum.addBN a b) ∧
    sval (BigNum.addBN a b) = sval a + sval b ∧
    (sval a + sval b ≠ 0 → ((BigNum.addBN a b).negative = true ↔ sval a + sval b < 0)) ∧
    (BigNum.addBN a b).len ≤ max a.len b.len + 1 := by
  by_cases hne : a.negative ≠ b.negative
  · by_cases han : a.negative = true
    · have hbn : b.negative = false := by
        cases hbc : b.negative
        · rfl
        · exact absurd (han.trans hbc.symm) hne
      have hstep : BigNum.addBN a b
          = BigNum.normSign { BigNum.subSame { a with negative := false } b with
              negative := !(BigNum.subSame { a with negative := false } b).negative } := by
        rw [BigNum.addBN, if_pos hne, if_pos han]
      rw [hstep]
      have hwfa : Wf { a with negative := false } := ⟨ha.1, ha.2.1, ha.2.2.1, ha.2.2.2⟩
      have hsa2 : Stripped { a with negative := false } := hsa
      obtain ⟨hwr, hstr, hsvr, hnzr, hlenr⟩ := subSame_ff hwfa hb hsa2 hsb rfl hbn
      set r := BigNum.subSame { a with negative := false } b with hrdef
      have hmaga : magVal { a with negative := false } = magVal a := rfl
      rw [hmaga] at hsvr
      rw [normSign_id (by show 1 ≤ r.len; exact hwr.2.1)]
      have h3 : sval { r with negative := !r.negative } = sval a + sval b := by
        rw [sval_flip, hsvr, sval_neg han, sval_pos hbn]
        ring
      refine ⟨⟨hwr.1, hwr.2.1, hwr.2.2.1, hwr.2.2.2⟩, ?_, h3,
        fun hS => neg_iff_sval_neg h3 hS, ?_⟩
      · rcases hstr with h | h
        · exact Or.inl h
        · exact Or.inr h
      · have e : ({ a with negative := false } : BigNum).len = a.len := rfl
        show r.len ≤ max a.len b.len + 1
        omega
    · have han2 : a.negative = false := by
        cases hac : a.negative
        · rfl
        · exact absurd hac han
      have hbn : b.negative = true := by
        cases hbc : b.negative
        · exact absurd (han2.trans hbc.symm) hne
        · rfl
      have hstep : BigNum.addBN a b
          = BigNum.normSign (BigNum.subSame a { b with negative := false }) := by
        rw [BigNum.addBN, if_pos hne, if_neg han]
      rw [hstep]
      have hwfb : Wf { b with negative := false } := ⟨hb.1, hb.2.1, hb.2.2.1, hb.2.2.2⟩
      have hsb2 : Stripped { b with negative := false } := hsb
      obtain ⟨hwr, hstr, hsvr, hnzr, hlenr⟩ := subSame_ff ha hwfb hsa hsb2 han2 rfl
      set r := BigNum.subSame a { b with negative := false } with hrdef
      have hmagb : magVal { b with negative := false } = magVal b := rfl
      rw [hmagb] at hsvr
      rw [normSign_id hwr.2.1]
      have h3 : sval r = sval a + sval b := by
        rw [hsvr, sval_pos han2, sval_neg hbn]
        ring
      refine ⟨hwr, hstr, h3, fun hS => neg_iff_sval_neg h3 hS, ?_⟩
      have e : ({ b with negative := false } : BigNum).len = b.len := rfl
      omega
  · have heq : a.negative = b.negative := not_ne_iff.mp hne
    have hstep : BigNum.addBN a b = BigNum.addMag a b := by
      rw [BigNum.addBN, if_neg hne]
    rw [hstep]
    obtain ⟨hwf, hneg, hmag, hlenge, hlen⟩ := addMag_spec ha hb hbound
    have hstr := addMag_stripped ha hb hsa hsb hbound
    have h3 : sval (BigNum.addMag a b) = sval a + sval b := by
      cases han : a.negative with
      | false =>
        have hbn : b.negative = false := by rw [← heq, han]
        rw [sval_pos (by rw [hneg, han]), sval_pos han, sval_pos hbn, hmag]
        push_cast
        ring
      | true =>
        have hbn : b.negative = true := by rw [← heq, han]
        rw [sval_neg (by rw [hneg, han]), sval_neg han, sval_neg hbn, hmag]
        push_cast
        ring
    refine ⟨hwf, hstr, h3, fun hS => neg_iff_sval_neg h3 hS, ?_⟩
    rcases hlen with h | ⟨h1, _⟩
    · omega
    · omega

theorem subBN_spec {a b : BigNum} (ha : Wf a) (hb : Wf b)
    (hsa : Stripped a) (hsb : Stripped b)
    (hza : a.negative = true → 0 < magVal a) (hzb : b.negative = true → 0 < magVal b)
    (hnn : ¬(a.negative = true ∧ b.negative = true))
    (hbound : magVal a + magVal b < 2 ^ 512) :
    Wf (BigNum.subBN a b) ∧ Stripped (BigNum.subBN a b) ∧
    sval (BigNum.subBN a b) = sval a - sval b ∧
    (sval a - sval b ≠ 0 → ((BigNum.subBN a b).negative = true ↔ sval a - sval b < 0)) ∧
    (BigNum.subBN a b).len ≤ max a.len b.len + 1 := by
  by_cases hne : a.negative ≠ b.negative
  · by_cases han : a.negative = true
    · have hbn : b.negative = false := by
        cases hbc : b.negative
        · rfl
        · exact absurd (han.trans hbc.symm) hne
      have hstep : BigNum.subBN a b
          = BigNum.normSign { BigNum.addMag { a with negative := false } b with
              negative := true } := by
        rw [BigNum.subBN, if_pos hne, if_pos han]
      rw [hstep]
      have hwfa : Wf { a with negative := false } := ⟨ha.1, ha.2.1, ha.2.2.1, ha.2.2.2⟩
      have hsa2 : Stripped { a with negative := false } := hsa
      have hmaga : magVal { a with negative := false } = magVal a := rfl
      obtain ⟨hwf, hneg, hmag, hlenge, hlen⟩ := addMag_spec hwfa hb (by rw [hmaga]; exact hbound)
      have hstr := addMag_stripped hwfa hb hsa2 hsb (by rw [hmaga]; exact hbound)
      rw [hmaga] at hmag
      set r := BigNum.addMag { a with negative := false } b with hrdef
      rw [normSign_id (by show 1 ≤ r.len; exact hwf.2.1)]
      have h3 : sval { r with negative := true } = sval a - sval b := by
        rw [sval_neg rfl]
        show -(magVal r : Int) = _
        rw [hmag, sval_neg han, sval_pos hbn]
        push_cast
        ring
      refine ⟨⟨hwf.1, hwf.2.1, hwf.2.2.1, hwf.2.2.2⟩, ?_, h3,
        fun hS => neg_iff_sval_neg h3 hS, ?_⟩
      · rcases hstr with h | h
        · exact Or.inl h
        · exact Or.inr h
      · have e : ({ a with negative := false } : BigNum).len = a.len := rfl
        show r.len ≤ max a.len b.len + 1
        rcases hlen with h | ⟨h1, _⟩
        · omega
        · omega
    · have han2 : a.negative = false := by
        cases hac : a.negative
        · rfl
        · exact absurd hac han
      have hbn : b.negative = true := by
        cases hbc : b.negative
        · exact absurd (han2.trans hbc.symm) hne
        · rfl
      have hstep : BigNum.subBN a b
          = BigNum.normSign (BigNum.addMag a { b with negative := false }) := by
        rw [BigNum.subBN, if_pos hne, if_neg han]
      rw [hstep]
      have hwfb : Wf { b with negative := false } := ⟨hb.1, hb.2.1, hb.2.2.1, hb.2.2.2⟩
      have hsb2 : Stripped { b with negative := false } := hsb
      have hmagb : magVal { b with negative := false } = magVal b := rfl
      obtain ⟨hwf, hneg, hmag, hlenge, hlen⟩ := addMag_spec ha hwfb (by rw [hmagb]; exact hbound)
      have hstr := addMag_stripped ha hwfb hsa hsb2 (by rw [hmagb]; exact hbound)
      rw [hmagb] at hmag
      set r := BigNum.addMag a { b with negative := false } with hrdef
      rw [normSign_id hwf.2.1]
      have h3 : sval r = sval a - sval b := by
        rw [sval_pos (by rw [hneg]; exact han2), hmag, sval_pos han2, sval_neg hbn]
        push_cast
        ring
      refine ⟨hwf, hstr, h3, fun hS => neg_iff_sval_neg h3 hS, ?_⟩
      have e : ({ b with negative := false } : BigNum).len = b.len := rfl
      rcases hlen with h | ⟨h1, _⟩
      · omega
      · omega
  · have heq : a.negative = b.negative := not_ne_iff.mp hne
    have hff : a.negative = false := by
      cases hac : a.negative
      · rfl
      · exact absurd ⟨hac, by rw [← heq, hac]⟩ hnn
    have hbf : b.negative = false := by rw [← heq, hff]
    have hstep : BigNum.subBN a b = BigNum.subSame a b := by
      rw [BigNum.subBN, if_neg hne]
    rw [hstep]
    obtain ⟨hwr, hstr, hsvr, hnzr, hlenr⟩ := subSame_ff ha hb hsa hsb hff hbf
    have h3 : sval (BigNum.subSame a b) = sval a - sval b := by
      rw [hsvr, sval_pos hff, sval_pos hbf]
    refine ⟨hwr, hstr, h3, fun hS => neg_iff_sval_neg h3 hS, by omega⟩

/-! ## Split, mul_k and the comparison with P -/

theorem segVal_congr_off {v w : List Nat} (k : Nat) :
    ∀ (c i : Nat), (∀ t, t < c → v.getD (i+t) 0 = w.getD (k+i+t) 0) →
      segVal v i c = segVal w (k+i) c := by
  intro c
  induction c with
  | zero => intro i _; rfl
  | succ c ih =>
    intro i h
    show v.getD i 0 + 2 ^ 32 * segVal v (i+1) c
      = w.getD (k+i) 0 + 2 ^ 32 * segVal w (k+i+1) c
    rw [show k+i+1 = k+(i+1) from by omega, ih (i+1) (fun t ht => by
      have := h (t+1) (by omega)
      rw [show i+(t+1) = i+1+t from by omega, show k+i+(t+1) = k+(i+1)+t from by omega] at this
      exact this)]
    have h0 := h 0 (by omega)
    simp only [Nat.add_zero] at h0
    rw [h0]

theorem split_spec {b : BigNum} (hw : Wf b) (hn : b.negative = false) :
    Wf (BigNum.split b).1 ∧ Wf (BigNum.split b).2 ∧
    (BigNum.split b).1.negative = false ∧ (BigNum.split b).2.negative = false ∧
    (BigNum.split b).1.len ≤ 8 ∧ (BigNum.split b).2.len ≤ 8 ∧
    magVal (BigNum.split b).1 + 2 ^ 256 * magVal (BigNum.split b).2 = magVal b ∧
    magVal (BigNum.split b).1 < 2 ^ 256 := by
  rw [BigNum.split]
  by_cases hl : b.len < 9
  · rw [if_pos hl]
    show Wf b ∧ Wf ZERO ∧ b.negative = false ∧ ZERO.negative = false ∧ b.len ≤ 8 ∧
      ZERO.len ≤ 8 ∧ magVal b + 2 ^ 256 * magVal ZERO = magVal b ∧ magVal b < 2 ^ 256
    have hmz : magVal ZERO = 0 := by decide
    have hlt : magVal b < 2 ^ (32 * b.len) := magVal_lt hw
    have hle : (2:Nat) ^ (32 * b.len) ≤ 2 ^ 256 := Nat.pow_le_pow_right (by omega) (by omega)
    refine ⟨hw, by decide, hn, rfl, by omega, by decide, ?_, by omega⟩
    rw [hmz]
    omega
  · rw [if_neg hl]
    have hgd : ∀ t, t < 8 →
        (b.words.drop 8 ++ List.replicate 8 0).getD t 0 = b.words.getD (8 + t) 0 := by
      intro t ht
      rw [List.getD_eq_getElem?_getD, List.getD_eq_getElem?_getD]
      rw [List.getElem?_append, if_pos (by rw [List.length_drop, hw.1]; omega)]
      rw [List.getElem?_drop]
    have hlen2 : (b.words.drop 8 ++ List.replicate 8 0).length = 16 := by
      rw [List.length_append, List.length_drop, List.length_replicate, hw.1]
    have hmag1 : magVal ({ b with len := 8 } : BigNum) = segVal b.words 0 8 := by
      show wordsVal b.words 8 = _
      rw [wordsVal_eq_segVal]
    have hmag2 : magVal ({ negative := false, len := b.len - 8, words := b.words.drop 8 ++ List.replicate 8 0 } : BigNum)
        = segVal b.words 8 (b.len - 8) := by
      show wordsVal (b.words.drop 8 ++ List.replicate 8 0) (b.len - 8) = _
      rw [wordsVal_eq_segVal]
      have := segVal_congr_off 8 (b.len - 8) 0 (fun t ht => by
        simp only [Nat.zero_add, Nat.add_zero]
        exact hgd t (by have := hw.2.2.1; omega))
      simpa using this
    have hsplit : segVal b.words 0 8 + 2 ^ 256 * segVal b.words 8 (b.len - 8) = magVal b := by
      have := segVal_split b.words 8 (b.len - 8) 0
      rw [show (8:Nat) + (b.len - 8) = b.len from by omega] at this
      simp only [Nat.zero_add] at this
      rw [magVal, wordsVal_eq_segVal, this]
    have hs1lt : segVal b.words 0 8 < 2 ^ 256 := by
      have := segVal_lt 8 0 (fun t _ => by
        simpa only [Nat.zero_add] using getD_lt_of_all hw.2.2.2 t)
      simpa using this
    refine ⟨⟨hw.1, by show (1:Nat) ≤ 8; omega, by show (8:Nat) ≤ 16; omega, hw.2.2.2⟩,
      ⟨hlen2, by show 1 ≤ b.len - 8; omega, by show b.len - 8 ≤ 16; have := hw.2.2.1; omega, ?_⟩,
      hn, rfl, by show (8:Nat) ≤ 8; omega, by show b.len - 8 ≤ 8; have := hw.2.2.1; omega, ?_, ?_⟩
    · intro x hx
      rcases List.mem_append.mp hx with h | h
      · exact hw.2.2.2 x (List.mem_of_mem_drop h)
      · rw [List.eq_of_mem_replicate h]
        exact W32_pos
    · rw [hmag1, hmag2]
      exact hsplit
    · rw [hmag1]
      exact hs1lt

theorem mulKWordsLoop_spec :
    ∀ (c : Nat) (w : List Nat) (i low : Nat), i + c ≤ w.length →
      (∀ j, w.getD j 0 < W32) → low ≤ 2 ^ 32 + 976 →
      (mulKWordsLoop c w i low).length = w.length ∧
      (∀ j, j < i ∨ i + c ≤ j → (mulKWordsLoop c w i low).getD j 0 = w.getD j 0) ∧
      (∀ j, (mulKWordsLoop c w i low).getD j 0 < W32) ∧
      ∃ lf, lf ≤ 2 ^ 32 + 976 ∧
        segVal (mulKWordsLoop c w i low) i c + lf * 2 ^ (32 * c)
          = low + (2 ^ 32 + 977) * segVal w i c := by
  intro c
  induction c with
  | zero =>
    intro w i low hcl hwb hlow
    refine ⟨rfl, fun j _ => rfl, hwb, low, hlow, ?_⟩
    show (0:Nat) + low * 2 ^ (32*0) = low + (2^32+977) * 0
    simp
  | succ c ih =>
    intro w i low hcl hwb hlow
    have hstep : mulKWordsLoop (c+1) w i low
        = mulKWordsLoop c (w.set i ((low + w.getD i 0 * 977) % W32)) (i+1)
            (w.getD i 0 + (low + w.getD i 0 * 977) / W32) := rfl
    set u := w.getD i 0 with hu
    have hub : u < W32 := hwb i
    have hlow2 : u + (low + u * 977) / W32 ≤ 2 ^ 32 + 976 := by
      have h1 : low + u * 977 ≤ (2^32 + 976) + (2^32 - 1) * 977 := by
        have := Nat.mul_le_mul_right 977 (show u ≤ 2^32 - 1 by
          rw [W32_eq] at hub; omega)
        omega
      have h2 : (low + u * 977) / W32 ≤ 977 := by
        rw [W32_eq]
        omega
      rw [W32_eq] at hub
      omega
    obtain ⟨ihlen, ihframe, ihbound, lf, hlf, ihval⟩ :=
      ih (w.set i ((low + u * 977) % W32)) (i+1) (u + (low + u * 977) / W32)
        (by rw [List.length_set]; omega)
        (by
          intro j
          by_cases hij : i = j
          · subst hij
            rw [getD_set_self (by omega) _]
            exact Nat.mod_lt _ W32_pos
          · rw [getD_set_other _ hij _]
            exact hwb j)
        hlow2
    rw [hstep]
    refine ⟨by rw [ihlen, List.length_set], ?_, ihbound, lf, hlf, ?_⟩
    · intro j hj
      rw [ihframe j (by omega), getD_set_other _ (by omega) _]
    · show (mulKWordsLoop c (w.set i ((low + u * 977) % W32)) (i+1)
          (u + (low + u * 977) / W32)).getD i 0
        + 2 ^ 32 * segVal (mulKWordsLoop c (w.set i ((low + u * 977) % W32)) (i+1)
          (u + (low + u * 977) / W32)) (i+1) c
        + lf * 2 ^ (32 * (c+1))
        = low + (2 ^ 32 + 977) * (w.getD i 0 + 2 ^ 32 * segVal w (i+1) c)
      have hset : (w.set i ((low + u * 977) % W32)).getD i 0 = (low + u * 977) % W32 :=
        getD_set_self (by omega) _
      rw [ihframe i (by omega), hset]
      rw [segVal_set_out _ _ _ (Or.inl (by omega))] at ihval
      have hdm := Nat.div_add_mod (low + u * 977) W32
      have e1 : (2:Nat) ^ (32 * (c+1)) = 2 ^ 32 * 2 ^ (32 * c) := by
        rw [← pow_add]
        congr 1
        omega
      have e2 : lf * 2 ^ (32 * (c+1)) = 2 ^ 32 * (lf * 2 ^ (32 * c)) := by
        rw [e1]
        ring
      rw [e2, ← hu]
      have hmm := congrArg (fun z => 2 ^ 32 * z) ihval
      simp only [Nat.mul_add] at hmm
      generalize hq : (low + u * 977) / W32 = q at hmm hdm
      generalize hr : (low + u * 977) % W32 = r at hmm hdm ⊢
      rw [W32_eq] at hdm
      omega

set_option maxHeartbeats 1000000 in
theorem mulK_spec {b : BigNum} (hw : Wf b) (hn : b.negative = false) (hlen : b.len ≤ 14) :
    Wf (BigNum.mulK b) ∧ Stripped (BigNum.mulK b) ∧
    (BigNum.mulK b).negative = false ∧
    magVal (BigNum.mulK b) = (2 ^ 32 + 977) * magVal b ∧
    (BigNum.mulK b).len ≤ b.len + 2 := by
  obtain ⟨hw1, hw2, hw3, hw4⟩ := hw
  set W0 := (b.words.set b.len 0).set (b.len + 1) 0 with hW0
  have hstep : BigNum.mulK b
      = BigNum.strip { b with len := b.len + 2, words := mulKWordsLoop (b.len + 2) W0 0 0 } :=
    rfl
  have hW0len : W0.length = 16 := by
    rw [hW0, List.length_set, List.length_set, hw1]
  have hW0b : ∀ j, W0.getD j 0 < W32 := by
    intro j
    rw [hW0]
    by_cases h1 : b.len + 1 = j
    · subst h1
      rw [getD_set_self (by rw [List.length_set, hw1]; omega) _]
      exact W32_pos
    · rw [getD_set_other _ h1 _]
      by_cases h2 : b.len = j
      · subst h2
        rw [getD_set_self (by rw [hw1]; omega) _]
        exact W32_pos
      · rw [getD_set_other _ h2 _]
        exact getD_lt_of_all hw4 j
  have hW0top1 : W0.getD b.len 0 = 0 := by
    rw [hW0, getD_set_other _ (by omega) _, getD_set_self (by rw [hw1]; omega) _]
  have hW0top2 : W0.getD (b.len + 1) 0 = 0 := by
    rw [hW0, getD_set_self (by rw [List.length_set, hw1]; omega) _]
  have hW0val : segVal W0 0 (b.len + 2) = magVal b := by
    rw [show b.len + 2 = (b.len + 1) + 1 from rfl, segVal_succ_top, segVal_succ_top]
    simp only [Nat.zero_add]
    rw [hW0top1, hW0top2]
    have hlow : segVal W0 0 b.len = segVal b.words 0 b.len := by
      rw [hW0]
      rw [segVal_set_out _ _ _ (Or.inr (by omega)), segVal_set_out _ _ _ (Or.inr (by omega))]
    rw [hlow, magVal, wordsVal_eq_segVal]
    ring
  obtain ⟨llen, lframe, lbound, lf, hlfb, lval⟩ :=
    mulKWordsLoop_spec (b.len + 2) W0 0 0 (by omega) hW0b (by omega)
  simp only [Nat.zero_add, Nat.add_zero] at lval
  rw [hW0val] at lval
  have hlf0 : lf = 0 := by
    by_contra hne
    have h1 : 2 ^ (32*(b.len+2)) ≤ lf * 2 ^ (32*(b.len+2)) :=
      Nat.le_mul_of_pos_left _ (by omega)
    have h2 : magVal b < 2 ^ (32*b.len) := magVal_lt ⟨hw1, hw2, hw3, hw4⟩
    have e : (2:Nat) ^ (32*(b.len+2)) = 2 ^ 64 * 2 ^ (32*b.len) := by
      rw [show 32*(b.len+2) = 64 + 32*b.len from by omega, Nat.pow_add]
    rw [e] at h1 lval
    omega
  rw [hlf0] at lval
  simp only [Nat.zero_mul, Nat.add_zero] at lval
  rw [hstep]
  set R : BigNum := { b with len := b.len + 2, words := mulKWordsLoop (b.len + 2) W0 0 0 }
    with hR
  obtain ⟨hsv, hsle, hsimp, hsw, hsn⟩ := strip_spec R
  have hR1 : 1 ≤ R.len := by show 1 ≤ b.len + 2; omega
  have hRlen : R.len = b.len + 2 := rfl
  have hmagR : magVal R = (2 ^ 32 + 977) * magVal b := by
    show wordsVal (mulKWordsLoop (b.len + 2) W0 0 0) (b.len + 2) = _
    rw [wordsVal_eq_segVal, lval]
  refine ⟨⟨?_, (hsimp hR1).1, ?_, ?_⟩, (hsimp hR1).2, ?_, by rw [hsv, hmagR], ?_⟩
  · rw [hsw]
    show (mulKWordsLoop (b.len + 2) W0 0 0).length = 16
    rw [llen, hW0len]
  · have := hsle
    omega
  · rw [hsw]
    show ∀ x ∈ mulKWordsLoop (b.len + 2) W0 0 0, x < W32
    exact all_lt_of_getD lbound
  · rw [hsn]
    exact hn
  · have := hsle
    omega

theorem addBN_ff {a b : BigNum} (ha : Wf a) (hb : Wf b)
    (hna : a.negative = false) (hnb : b.negative = false)
    (hbound : magVal a + magVal b < 2 ^ 512) :
    Wf (BigNum.addBN a b) ∧ (BigNum.addBN a b).negative = false ∧
    magVal (BigNum.addBN a b) = magVal a + magVal b ∧
    ((BigNum.addBN a b).len = max a.len b.len ∨
      ((BigNum.addBN a b).len = max a.len b.len + 1 ∧
        2 ^ (32 * max a.len b.len) ≤ magVal (BigNum.addBN a b))) := by
  have hstep : BigNum.addBN a b = BigNum.addMag a b := by
    rw [BigNum.addBN, if_neg (by rw [hna, hnb]; exact fun h => h rfl)]
  rw [hstep]
  obtain ⟨hwf, hneg, hmag, hlenge, hlen⟩ := addMag_spec ha hb hbound
  exact ⟨hwf, by rw [hneg, hna], hmag, hlen⟩

theorem cmp_Pbn_eq {x : BigNum} (hw : Wf x)
    (hc : x.len ≤ 8 ∨ 2 ^ (32 * (x.len - 1)) ≤ magVal x) :
    BigNum.cmp x Pbn = compare (magVal x) pVal := by
  have hPwf : Wf Pbn := by decide
  have hPlen : Pbn.len = 8 := rfl
  rw [BigNum.cmp]
  by_cases hl : x.len = 8
  · rw [if_neg (by rw [hl, hPlen]; omega)]
    rw [cmpWordsFrom_eq_compare (wf_word_lt hw) (wf_word_lt hPwf)]
    have h1 : segVal x.words 0 x.len = magVal x := by rw [magVal, wordsVal_eq_segVal]
    have h2 : segVal Pbn.words 0 x.len = pVal := by rw [hl]; decide
    rw [h1, h2]
  · rw [if_pos (by rw [hPlen]; exact hl), hPlen]
    by_cases h8 : x.len < 8
    · rw [Nat.compare_eq_lt.mpr h8]
      have h1 : magVal x < 2 ^ (32 * x.len) := magVal_lt hw
      have h2 : (2:Nat) ^ (32 * x.len) ≤ 2 ^ 224 := Nat.pow_le_pow_right (by omega) (by omega)
      have h3 : (2:Nat) ^ 224 < pVal := by decide
      rw [Nat.compare_eq_lt.mpr (by omega)]
    · have h9 : 8 < x.len := by omega
      rw [Nat.compare_eq_gt.mpr h9]
      rcases hc with h | h
      · exact absurd h (by omega)
      · have h2 : (2:Nat) ^ 256 ≤ 2 ^ (32 * (x.len - 1)) :=
          Nat.pow_le_pow_right (by omega) (by omega)
        have h3 : pVal < 2 ^ 256 := by decide
        rw [Nat.compare_eq_gt.mpr (by omega)]

theorem redReduce_final {x r : BigNum}
    (hr : r = (match BigNum.cmp x Pbn with
      | Ordering.eq => x
      | Ordering.gt => BigNum.subBN x Pbn
      | Ordering.lt => BigNum.strip x))
    (hwx : Wf x) (hnx : x.negative = false)
    (hlt2p : magVal x < 2 * pVal)
    (hc : x.len ≤ 8 ∨ 2 ^ (32 * (x.len - 1)) ≤ magVal x) :
    Wf r ∧ r.negative = false ∧ magVal r ≤ pVal ∧
    magVal r % pVal = magVal x % pVal := by
  subst hr
  have hcmp : BigNum.cmp x Pbn = compare (magVal x) pVal := cmp_Pbn_eq hwx hc
  have hmagP : magVal Pbn = pVal := by decide
  rcases Nat.lt_trichotomy (magVal x) pVal with h | h | h
  · rw [hcmp, Nat.compare_eq_lt.mpr h]
    show Wf (BigNum.strip x) ∧ (BigNum.strip x).negative = false ∧
      magVal (BigNum.strip x) ≤ pVal ∧ magVal (BigNum.strip x) % pVal = magVal x % pVal
    obtain ⟨hsv, hsle, hsimp, hsw, hsn⟩ := strip_spec x
    have h1 : 1 ≤ x.len := hwx.2.1
    refine ⟨⟨by rw [hsw]; exact hwx.1, (hsimp h1).1, ?_, by rw [hsw]; exact hwx.2.2.2⟩,
      by rw [hsn]; exact hnx, by rw [hsv]; omega, by rw [hsv]⟩
    have := hwx.2.2.1
    omega
  · rw [hcmp, Nat.compare_eq_eq.mpr h]
    show Wf x ∧ x.negative = false ∧ magVal x ≤ pVal ∧ magVal x % pVal = magVal x % pVal
    exact ⟨hwx, hnx, by omega, rfl⟩
  · rw [hcmp, Nat.compare_eq_gt.mpr h]
    show Wf (BigNum.subBN x Pbn) ∧ (BigNum.subBN x Pbn).negative = false ∧
      magVal (BigNum.subBN x Pbn) ≤ pVal ∧
      magVal (BigNum.subBN x Pbn) % pVal = magVal x % pVal
    have hstep2 : BigNum.subBN x Pbn = BigNum.subSame x Pbn := by
      rw [BigNum.subBN, if_neg (by rw [hnx]; exact fun hq => hq rfl)]
    rw [hstep2, BigNum.subSame]
    have hbeq : ¬ BigNum.beqBN x Pbn = true := by
      intro hb
      obtain ⟨_, _, hm⟩ := beqBN_spec hwx (by decide) hb
      rw [hmagP] at hm
      omega
    rw [if_neg hbeq,
      if_neg (by rw [hcmp, Nat.compare_eq_gt.mpr h]; exact fun hq => Ordering.noConfusion hq)]
    have hlen8 : 8 ≤ x.len := by
      by_contra hgt
      have h1 := magVal_lt hwx
      have h2 : (2:Nat) ^ (32*x.len) ≤ 2 ^ 224 := Nat.pow_le_pow_right (by omega) (by omega)
      have h3 : (2:Nat) ^ 224 < pVal := by decide
      omega
    have hPwf : Wf Pbn := by decide
    obtain ⟨hwf, hstr, hmagr, hnegr, hlenr⟩ :=
      subCore_spec hwx hPwf (by show (8:Nat) ≤ x.len; exact hlen8)
        (by rw [hmagP]; omega)
    refine ⟨hwf, by rw [hnegr, hnx], ?_, ?_⟩
    · rw [hmagr, hmagP]
      omega
    · rw [hmagr, hmagP]
      have hx : magVal x = (magVal x - pVal) + pVal := by omega
      conv_rhs => rw [hx]
      rw [Nat.add_mod_right]

/-- C1 (amended): for every well-formed non-negative input, red_reduce returns a
well-formed non-negative value that is at most p and congruent to the input
modulo p.  The bound is not strict: the Equal branch of the final comparison
returns p itself unchanged (see redReduce_fixed_at_p). -/
theorem redReduce_spec (b : BigNum) (hw : Wf b) (hn : b.negative = false) :
    Wf (BigNum.redReduce b) ∧ (BigNum.redReduce b).negative = false ∧
    magVal (BigNum.redReduce b) ≤ pVal ∧
    magVal (BigNum.redReduce b) % pVal = magVal b % pVal := by
  obtain ⟨hs1w, hs2w, hs1n, hs2n, hs1l, hs2l, hsval, hs1lt⟩ := split_spec hw hn
  obtain ⟨hkw, hks, hkn, hkval, hkl⟩ := mulK_spec hs2w hs2n (by omega)
  have hs2lt : magVal (BigNum.split b).2 < 2 ^ 256 := by
    have h2 := magVal_lt hs2w
    have h3 : (2:Nat) ^ (32 * (BigNum.split b).2.len) ≤ 2 ^ 256 :=
      Nat.pow_le_pow_right (by omega) (by omega)
    omega
  have hboundk : magVal (BigNum.split b).1 + magVal (BigNum.mulK (BigNum.split b).2)
      < 2 ^ 512 := by
    rw [hkval]
    omega
  obtain ⟨hb1w, hb1n, hb1val, hb1len⟩ := addBN_ff hs1w hkw hs1n hkn hboundk
  set b1 := BigNum.addBN (BigNum.split b).1 (BigNum.mulK (BigNum.split b).2) with hb1d
  have hKp : (2:Nat) ^ 256 = (2 ^ 32 + 977) + pVal := by decide
  have hcong1 : magVal b1 + pVal * magVal (BigNum.split b).2 = magVal b := by
    rw [hb1val, hkval, ← hsval, hKp]
    ring
  have hb1lt : magVal b1 < 2 ^ 290 := by
    rw [hb1val, hkval]
    omega
  have hb1lenb : b1.len ≤ 11 := by
    have h1 : max (BigNum.split b).1.len (BigNum.mulK (BigNum.split b).2).len ≤ 10 := by
      omega
    rcases hb1len with h | ⟨h, _⟩
    · omega
    · omega
  have hstep : BigNum.redReduce b =
      (match BigNum.cmp (if b1.len > 8 then
          BigNum.addBN (BigNum.split b1).1 (BigNum.mulK (BigNum.split b1).2) else b1) Pbn with
        | Ordering.eq => (if b1.len > 8 then
            BigNum.addBN (BigNum.split b1).1 (BigNum.mulK (BigNum.split b1).2) else b1)
        | Ordering.gt => BigNum.subBN (if b1.len > 8 then
            BigNum.addBN (BigNum.split b1).1 (BigNum.mulK (BigNum.split b1).2) else b1) Pbn
        | Ordering.lt => BigNum.strip (if b1.len > 8 then
            BigNum.addBN (BigNum.split b1).1 (BigNum.mulK (BigNum.split b1).2) else b1)) := by
    rw [BigNum.redReduce, hb1d]
  rw [hstep]
  by_cases h8 : b1.len > 8
  · rw [if_pos h8]
    obtain ⟨ht1w, ht2w, ht1n, ht2n, ht1l, ht2l, htval, ht1lt⟩ := split_spec hb1w hb1n
    obtain ⟨hjw, hjs, hjn, hjval, hjl⟩ := mulK_spec ht2w ht2n (by omega)
    have ht2len : (BigNum.split b1).2.len ≤ 3 := by
      rw [BigNum.split, if_neg (by omega)]
      show b1.len - 8 ≤ 3
      omega
    have ht2lt : magVal (BigNum.split b1).2 < 2 ^ 96 := by
      have h2 := magVal_lt ht2w
      have h3 : (2:Nat) ^ (32 * (BigNum.split b1).2.len) ≤ 2 ^ 96 :=
        Nat.pow_le_pow_right (by omega) (by omega)
      omega
    have hboundj : magVal (BigNum.split b1).1 + magVal (BigNum.mulK (BigNum.split b1).2)
        < 2 ^ 512 := by
      rw [hjval]
      omega
    obtain ⟨hb2w, hb2n, hb2val, hb2len⟩ := addBN_ff ht1w hjw ht1n hjn hboundj
    set b2 := BigNum.addBN (BigNum.split b1).1 (BigNum.mulK (BigNum.split b1).2) with hb2d
    have hcong2 : magVal b2 + pVal * magVal (BigNum.split b1).2 = magVal b1 := by
      rw [hb2val, hjval, ← htval, hKp]
      ring
    have hb2lt : magVal b2 < 2 * pVal := by
      rw [hb2val, hjval]
      have hp : pVal = 2 ^ 256 - 2 ^ 32 - 977 := rfl
      omega
    have hmaxlen : max (BigNum.split b1).1.len (BigNum.mulK (BigNum.split b1).2).len ≤ 8 := by
      omega
    have hc2 : b2.len ≤ 8 ∨ 2 ^ (32 * (b2.len - 1)) ≤ magVal b2 := by
      rcases hb2len with h | ⟨h, hge⟩
      · left
        omega
      · right
        rw [h, show max (BigNum.split b1).1.len (BigNum.mulK (BigNum.split b1).2).len + 1 - 1
          = max (BigNum.split b1).1.len (BigNum.mulK (BigNum.split b1).2).len from by omega]
        exact hge
    obtain ⟨hf1, hf2, hf3, hf4⟩ := redReduce_final rfl hb2w hb2n hb2lt hc2
    refine ⟨hf1, hf2, hf3, ?_⟩
    rw [hf4]
    have e2 : magVal b2 % pVal = magVal b1 % pVal := by
      conv_rhs => rw [← hcong2]
      rw [Nat.add_mul_mod_self_left]
    have e1 : magVal b1 % pVal = magVal b % pVal := by
      conv_rhs => rw [← hcong1]
      rw [Nat.add_mul_mod_self_left]
    rw [e2, e1]
  · rw [if_neg h8]
    have hb1lt8 : magVal b1 < 2 * pVal := by
      have h1 := magVal_lt hb1w
      have h2 : (2:Nat) ^ (32 * b1.len) ≤ 2 ^ 256 := Nat.pow_le_pow_right (by omega) (by omega)
      have hp : pVal = 2 ^ 256 - 2 ^ 32 - 977 := rfl
      omega
    obtain ⟨hf1, hf2, hf3, hf4⟩ := redReduce_final rfl hb1w hb1n hb1lt8 (Or.inl (by omega))
    refine ⟨hf1, hf2, hf3, ?_⟩
    rw [hf4]
    conv_rhs => rw [← hcong1]
    rw [Nat.add_mul_mod_self_left]

/-- Witness for redReduce_spec at the concrete input p. -/
theorem redReduce_spec_witness :
    Wf (BigNum.redReduce Pbn) ∧ (BigNum.redReduce Pbn).negative = false ∧
    magVal (BigNum.redReduce Pbn) ≤ pVal ∧
    magVal (BigNum.redReduce Pbn) % pVal = magVal Pbn % pVal :=
  redReduce_spec Pbn (by decide) rfl

end TinySecp
